import Mathlib

/-!
Verification of the mahjong rules engine (`mahjong` package, v2.0.0rc3).

This file shallowly embeds the parts of `mahjong/tiles.py`, `mahjong/melds.py`
and `mahjong/game.py` that the verified properties are about, and proves or
refutes each property.  Definitions follow the Python source function by
function; deviations forced by the embedding (e.g. exceptions becoming
`Option`) are noted in comments next to the definition they concern.
-/

set_option maxRecDepth 100000
set_option maxHeartbeats 8000000

namespace Mahjong

/-! ## Generic list machinery

Python's `sorted`/`list.sort` is a stable ascending sort driven by `__lt__`.
We model it by a stable insertion sort driven by the boolean relation
`le a b := !(lt b a)`: an element is inserted before the first element `b`
with `le a b`, which is exactly where a stable ascending sort places it. -/

/-- Stable insertion of `a` into `l`: before the first `b` with `le a b`. -/
def orderedInsertB (le : α → α → Bool) (a : α) : List α → List α
  | [] => [a]
  | b :: l => if le a b then a :: b :: l else b :: orderedInsertB le a l

/-- Stable insertion sort with a boolean "less or equal" test. -/
def insertionSortB (le : α → α → Bool) : List α → List α
  | [] => []
  | a :: l => orderedInsertB le a (insertionSortB le l)

/-! ## Tiles (`mahjong/tiles.py`)

A `Tile` is a suit plus a 0-based number (`tong/1` in the notation of the
source is `⟨.tong, 0⟩` here).  The `Suit` enum hierarchy (`Simples`,
`Honors`, `Bonuses`) flattens to one inductive; the `Misc` suits never
occur on tiles that reach the code embedded here. -/

inductive Suit where
  | zhu | tong | wan        -- Simples
  | feng | long             -- Honors
  | hua | gui               -- Bonuses
deriving DecidableEq, Repr

def Suit.isSimple : Suit → Bool
  | .zhu | .tong | .wan => true
  | _ => false

def Suit.isHonor : Suit → Bool
  | .feng | .long => true
  | _ => false

def Suit.isBonus : Suit → Bool
  | .hua | .gui => true
  | _ => false

structure Tile where
  suit : Suit
  number : Nat
deriving DecidableEq, Repr

/-- Numbers admissible by the `Tile`/`BonusTile` constructors: simples are
1-9 (0-8 zero-based), winds 4, dragons 3, bonuses 4. -/
def Tile.valid (t : Tile) : Bool :=
  match t.suit with
  | .zhu | .tong | .wan => t.number < 9
  | .feng => t.number < 4
  | .long => t.number < 3
  | .hua | .gui => t.number < 4

/-- `ORDER` dict from tiles.py: suit sort keys (bonus suits absent). -/
def suitOrder : Suit → Option Nat
  | .wan => some 0
  | .tong => some 1
  | .zhu => some 2
  | .feng => some 3
  | .long => some 4
  | _ => none

/-- `Tile.__lt__`: same suit compares numbers; different suits compare their
`ORDER` entries, and suits outside `ORDER` compare `False`. -/
def Tile.lt (a b : Tile) : Bool :=
  if a.suit = b.suit then a.number < b.number
  else
    match suitOrder a.suit, suitOrder b.suit with
    | some x, some y => x < y
    | _, _ => false

/-- The "less or equal" test driving the model of Python's stable sort. -/
def Tile.le (a b : Tile) : Bool := !(Tile.lt b a)

/-- `sorted(tiles)`. -/
def sortTiles (l : List Tile) : List Tile := insertionSortB Tile.le l

/-! ## Melds (`mahjong/melds.py`)

Python's meld classes (`Pong`, `Kong`, `Chow`, `Eyes`, and `Wu` itself when a
full hand stands in a candidate list) become one structure tagged by kind.
Constructors raise `ValueError` on invalid groups; here they return
`Option Meld`.  A meld stores its tiles sorted, as `Meld.__init__` does. -/

inductive MeldKind where
  | wu | kong | pong | chow | eyes
deriving DecidableEq, Repr

structure Meld where
  kind : MeldKind
  tiles : List Tile
deriving DecidableEq, Repr

/-- `Meld.check_meld` (base class): no bonus tiles. -/
def noBonus (ts : List Tile) : Bool := ts.all (fun t => !t.suit.isBonus)

/-- `Meld.check_suit`: all tiles share the first tile's suit. -/
def sameSuit (ts : List Tile) : Bool :=
  match ts with
  | [] => true
  | t :: rest => rest.all (fun x => x.suit = t.suit)

/-- `_SameNum.check_num` (same suit, then same number). -/
def sameNum (ts : List Tile) : Bool :=
  sameSuit ts &&
    match ts with
    | [] => true
    | t :: rest => rest.all (fun x => x.number = t.number)

/-- `Chow.check_meld` body after the base checks: one suit, a simples suit,
consecutive numbers starting from the first (sorted) tile. -/
def chowRun (ts : List Tile) : Bool :=
  sameSuit ts &&
    (match ts with
     | [] => true
     | t :: _ => t.suit.isSimple) &&
    (match ts with
     | [] => true
     | t :: _ =>
       (List.range ts.length).all (fun i => (ts.getD i t).number = t.number + i))

/-- `Pong`/`Kong`/`Eyes` construction: sort, check size, no bonuses, same
suit and number.  `k` is 3, 4 and 2 respectively. -/
def mkSameNum (kind : MeldKind) (k : Nat) (ts : List Tile) : Option Meld :=
  let s := sortTiles ts
  if s.length = k && noBonus s && sameNum s then some ⟨kind, s⟩ else none

def mkPong (ts : List Tile) : Option Meld := mkSameNum .pong 3 ts

def mkKong (ts : List Tile) : Option Meld := mkSameNum .kong 4 ts

def mkEyes (ts : List Tile) : Option Meld := mkSameNum .eyes 2 ts

/-- `Chow` construction. -/
def mkChow (ts : List Tile) : Option Meld :=
  let s := sortTiles ts
  if s.length = 3 && noBonus s && chowRun s then some ⟨.chow, s⟩ else none

/-- Position of a meld class in the `order` list of `Meld.__lt__`
(`[Wu, Kong, Pong, Chow, Eyes]`). -/
def MeldKind.orderIdx : MeldKind → Nat
  | .wu => 0
  | .kong => 1
  | .pong => 2
  | .chow => 3
  | .eyes => 4

/-- Python tuple comparison on tile tuples (used by `Meld.__lt__` when the
kinds agree): first differing element decides. -/
def tileListLt : List Tile → List Tile → Bool
  | [], [] => false
  | [], _ :: _ => true
  | _ :: _, [] => false
  | a :: as, b :: bs => if a = b then tileListLt as bs else Tile.lt a b

/-- `Meld.__lt__`: different kinds compare by *reversed* position in
`[Wu, Kong, Pong, Chow, Eyes]` (`order.index(type(self)) >
order.index(type(other))`), same kinds compare tile tuples. -/
def Meld.lt (a b : Meld) : Bool :=
  if a.kind = b.kind then tileListLt a.tiles b.tiles
  else b.kind.orderIdx < a.kind.orderIdx

def Meld.le (a b : Meld) : Bool := !(Meld.lt b a)

/-- `sorted(combo)` on lists of melds. -/
def sortMelds (l : List Meld) : List Meld := insertionSortB Meld.le l

/-! ## Scoring flags (`WuFlag`, `FLAG_FAAN`, `faan`)

`WuFlag` is a Python `enum.Flag` bitset; every flag used by the code is a
single bit, so a set of named flags models it.  `CHICKEN_HAND` has value 0,
and Python's `Flag.__contains__` tests `other.value & self.value ==
other.value`, so the zero flag is a member of *every* flag set; `hasFlag`
mirrors that. -/

inductive WuFlag where
  | chickenHand
  | commonHand | allInTriplets | mixedOneSuit | allOneSuit | allHonorTiles
  | smallDragons | greatDragons | smallWinds | greatWinds | nineGates
  | allKongs | selfTriplets | orphans | thirteenOrphans
  | seatWind | prevailingWind | redDragon | greenDragon | whiteDragon
  | mixedOrphans
  | selfDraw | allFromWall | robbingKong | lastCatch | byKong | doubleKong
  | heavenly | earthly
  | twelvePiece | gaveDragon | gaveKong
  | noBonuses | alignedFlowers | alignedSeasons | tableOfFlowers
  | tableOfSeasons | handOfBonuses
deriving DecidableEq, Repr

/-- The named members of `WuFlag` in definition order (`for flag in WuFlag`
iterates them in this order). -/
def wuFlagList : List WuFlag :=
  [.chickenHand,
   .commonHand, .allInTriplets, .mixedOneSuit, .allOneSuit, .allHonorTiles,
   .smallDragons, .greatDragons, .smallWinds, .greatWinds, .nineGates,
   .allKongs, .selfTriplets, .orphans, .thirteenOrphans,
   .seatWind, .prevailingWind, .redDragon, .greenDragon, .whiteDragon,
   .mixedOrphans,
   .selfDraw, .allFromWall, .robbingKong, .lastCatch, .byKong, .doubleKong,
   .heavenly, .earthly,
   .twelvePiece, .gaveDragon, .gaveKong,
   .noBonuses, .alignedFlowers, .alignedSeasons, .tableOfFlowers,
   .tableOfSeasons, .handOfBonuses]

/-- A flag set: the set of single-bit flags whose bits are on. -/
abbrev WuFlags := List WuFlag

/-- `flag in flags`.  `CHICKEN_HAND` (value 0) is in every flag set. -/
def hasFlag (fs : WuFlags) (f : WuFlag) : Bool :=
  decide (f = .chickenHand) || decide (f ∈ fs)

/-- `flags |= f` for a single-bit `f`. -/
def addFlag (fs : WuFlags) (f : WuFlag) : WuFlags := f :: fs

/-- `flags &= ~(f1 | f2 | ...)`. -/
def removeFlags (fs : WuFlags) (rem : List WuFlag) : WuFlags :=
  fs.filter (fun f => decide (f ∉ rem))

/-- `FLAG_FAAN` (melds.py lines 145-165), as the dict literal finally
evaluates: the literal lists `GREAT_WINDS` twice (first 13, then 1 — the
later entry wins in a dict literal) and has no entry at all for
`GREEN_DRAGON`, so lookup of `GREEN_DRAGON` is a `KeyError` (`none`). -/
def flagFaan : WuFlag → Option Nat
  | .chickenHand => some 0
  | .commonHand => some 1
  | .allInTriplets => some 3
  | .allHonorTiles => some 10
  | .allOneSuit => some 7
  | .mixedOneSuit => some 3
  | .greatDragons => some 8
  | .smallDragons => some 5
  | .greatWinds => some 1
  | .smallWinds => some 10
  | .thirteenOrphans => some 13
  | .allKongs => some 13
  | .selfTriplets => some 8
  | .orphans => some 10
  | .nineGates => some 10
  | .redDragon => some 1
  | .greenDragon => none
  | .whiteDragon => some 1
  | .seatWind => some 1
  | .prevailingWind => some 1
  | .mixedOrphans => some 1
  | .selfDraw => some 1
  | .allFromWall => some 1
  | .robbingKong => some 1
  | .lastCatch => some 1
  | .byKong => some 1
  | .doubleKong => some 8
  | .heavenly => some 13
  | .earthly => some 13
  | .twelvePiece => some 0
  | .gaveDragon => some 0
  | .gaveKong => some 0
  | .noBonuses => some 1
  | .alignedFlowers => some 1
  | .alignedSeasons => some 1
  | .tableOfFlowers => some 2
  | .tableOfSeasons => some 2
  | .handOfBonuses => some 8

/-- The module-level `faan` function: iterate the named flags, summing
`FLAG_FAAN[flag]` for each flag present.  A missing table entry is a
`KeyError`; the sum is then undefined (`none`). -/
def faanFn (fs : WuFlags) : Option Nat :=
  wuFlagList.foldl
    (fun acc f =>
      match acc with
      | none => none
      | some p =>
        if hasFlag fs f then
          match flagFaan f with
          | none => none
          | some v => some (p + v)
        else some p)
    (some 0)

/-! ## Wu construction (`Wu.__init__` / `check_meld` / `valid_combos` /
`all_melds_pos`)

`itertools.combinations(range(n), 2)` and `(..., 3)` enumerate index pairs
and triples in lexicographic order; the dict `trips` maps index tuples to
melds in insertion order. -/

/-- `combinations(range n, 2)` in lexicographic order. -/
def pairsUpto (n : Nat) : List (Nat × Nat) :=
  (List.range n).flatMap fun i => ((List.range n).drop (i + 1)).map fun j => (i, j)

/-- `combinations(range n, 3)` in lexicographic order. -/
def triplesUpto (n : Nat) : List (Nat × Nat × Nat) :=
  (List.range n).flatMap fun i =>
    ((List.range n).drop (i + 1)).flatMap fun j =>
      ((List.range n).drop (j + 1)).map fun k => (i, j, k)

/-- `[ts[i] for i in idxs]`.  All indexes produced by the enumerations are
in range; out-of-range defaults never arise. -/
def tilesAt (ts : List Tile) (idxs : List Nat) : List Tile :=
  idxs.map fun i => ts.getD i ⟨.wan, 0⟩

/-- Association lookup for the `trips` dict (keyed by index tuples). -/
def assocLookup [DecidableEq κ] : List (κ × β) → κ → Option β
  | [], _ => none
  | (k', v) :: rest, k => if k' = k then some v else assocLookup rest k

/-- `Wu.get_triplet`: try `Pong`, then `Chow`, else `None`. -/
def getTriplet (trip : List Tile) : Option Meld :=
  match mkPong trip with
  | some m => some m
  | none => mkChow trip

/-- The Kong-upgrade search inside `all_melds_pos`: for the first `t4 >
t3` whose 4-tuple is fresh and forms a `Kong`, return it.  (`sorted((t1,
t2, t3, t4))` is `[t1, t2, t3, t4]` itself since `t4 > t3`, and the four
indexes are automatically distinct.) -/
def findKongUpgrade (ts : List Tile) (trips : List (List Nat × Meld))
    (t1 t2 t3 : Nat) : Option (List Nat × Meld) :=
  ((List.range ts.length).drop (t3 + 1)).findSome? fun t4 =>
    let key := [t1, t2, t3, t4]
    if (assocLookup trips key).isSome then none
    else
      match mkKong (tilesAt ts key) with
      | some m => some (key, m)
      | none => none

/-- One step of the `all_melds_pos` loop body for the index triple
`(t1, t2, t3)`.  (`combinations` already yields sorted distinct triples, so
the `sorted` call and the `len(set(...)) != 3` test in the source are
no-ops.) -/
def tripStep (ts : List Tile) (trips : List (List Nat × Meld))
    (t : Nat × Nat × Nat) : List (List Nat × Meld) :=
  let key := [t.1, t.2.1, t.2.2]
  if (assocLookup trips key).isSome then trips
  else
    match getTriplet (tilesAt ts key) with
    | none => trips
    | some m =>
      if m.kind = .pong ∧ t.2.2 < ts.length - 1 then
        match findKongUpgrade ts trips t.1 t.2.1 t.2.2 with
        | some entry => trips ++ [entry]
        | none => trips ++ [(key, m)]
      else trips ++ [(key, m)]

/-- Comparison on `(meld, indexes)` pairs: Python tuple order. -/
def natListLt : List Nat → List Nat → Bool
  | [], [] => false
  | [], _ :: _ => true
  | _ :: _, [] => false
  | a :: as, b :: bs => if a = b then natListLt as bs else a < b

def pairLt (a b : Meld × List Nat) : Bool :=
  if a.1 = b.1 then natListLt a.2 b.2 else Meld.lt a.1 b.1

def pairLe (a b : Meld × List Nat) : Bool := !(pairLt b a)

/-- `Wu.all_melds_pos`: every meld formable from `ts` together with the
indexes of its component tiles, as `sorted((i, j) for j, i in
trips.items())`. -/
def allMeldsPos (ts : List Tile) : List (Meld × List Nat) :=
  let trips := (triplesUpto ts.length).foldl (tripStep ts) []
  insertionSortB pairLe (trips.map fun p => (p.2, p.1))

/-- The duplicate-index scan over a combo's index lists (flattened; the
source breaks out of nested loops at the first repeat, which accepts and
rejects exactly the same combos). -/
def firstDupe (covered : List Nat) : List Nat → Bool
  | [] => false
  | i :: rest => if i ∈ covered then true else firstDupe (i :: covered) rest

def hasDupIdxs (combo : List (Meld × List Nat)) : Bool :=
  firstDupe [] ((combo.map fun p => p.2).flatten)

/-- `[x for i, x in enumerate(tiles) if i != e1 and i != e2]`, walking the
list alongside its enumeration index. -/
def removeIdxsAux (e1 e2 : Nat) : Nat → List Tile → List Tile
  | _, [] => []
  | i, t :: rest =>
    if i = e1 ∨ i = e2 then removeIdxsAux e1 e2 (i + 1) rest
    else t :: removeIdxsAux e1 e2 (i + 1) rest

def removeIdxs (l : List Tile) (e1 e2 : Nat) : List Tile :=
  removeIdxsAux e1 e2 0 l

/-- One step of the eyes-candidate loop of `valid_combos`, carrying the
`checked` set and the combos accumulated so far.  (`combinations` never
yields `e1 == e2`, so the `continue` on that test is a no-op.) -/
def eyesStep (tiles : List Tile) (fixedMelds : List Meld)
    (st : List Meld × List (List Meld)) (e : Nat × Nat) :
    List Meld × List (List Meld) :=
  match mkEyes [tiles.getD e.1 ⟨.wan, 0⟩, tiles.getD e.2 ⟨.wan, 0⟩] with
  | none => st
  | some eyes =>
    if eyes ∈ st.1 then st
    else
      let ts := removeIdxs tiles e.1 e.2
      let possible := allMeldsPos ts
      let combos := List.sublistsLen (4 - fixedMelds.length) possible
      let good := combos.filterMap fun combo =>
        if hasDupIdxs combo then none
        else if ((combo.map fun p => p.1.tiles).flatten.length ≠ tiles.length - 2)
        then none
        else some ((combo.map fun p => p.1) ++ fixedMelds ++ [eyes])
      (eyes :: st.1, st.2 ++ good)

/-- `THIRTEEN_ORPHANS`: one and nine of each simples suit plus every honors
tile (melds.py lines 140-143). -/
def thirteenOrphanTiles : List Tile :=
  [⟨.tong, 0⟩, ⟨.tong, 8⟩, ⟨.zhu, 0⟩, ⟨.zhu, 8⟩, ⟨.wan, 0⟩, ⟨.wan, 8⟩,
   ⟨.feng, 0⟩, ⟨.feng, 1⟩, ⟨.feng, 2⟩, ⟨.feng, 3⟩,
   ⟨.long, 0⟩, ⟨.long, 1⟩, ⟨.long, 2⟩]

/-- `set(a) == set(b)`. -/
def sameTileSet (a b : List Tile) : Bool :=
  a.all (fun t => decide (t ∈ b)) && b.all (fun t => decide (t ∈ a))

/-- `Wu.valid_combos` on the (already sorted) concealed tiles: the eyes
enumeration, then the Thirteen-Orphans special case, which yields the
single pseudo-meld `_UncheckedWu(self.tiles)` (whose `tiles` are the
concealed tiles, already sorted). -/
def validCombos (tiles : List Tile) (fixedMelds : List Meld) :
    List (List Meld) :=
  let eyesPart :=
    ((pairsUpto tiles.length).foldl (eyesStep tiles fixedMelds) ([], [])).2
  let orphansPart :=
    if sameTileSet tiles thirteenOrphanTiles then [[Meld.mk .wu tiles]] else []
  eyesPart ++ orphansPart

/-- `Wu.check_meld`'s deduplication: each combo is sorted, and duplicates
are removed by passing through a set. -/
def wuMeldsOf (tiles : List Tile) (fixedMelds : List Meld) :
    List (List Meld) :=
  ((validCombos tiles fixedMelds).map sortMelds).dedup

/-- A constructed winning hand: `Wu.__init__`'s fields, with `melds` the
computed decomposition set. -/
structure Wu where
  tiles : List Tile
  fixedMelds : List Meld
  arrived : Option Tile
  discarder : Option Nat
  baseFlags : WuFlags
  melds : List (List Meld)
deriving DecidableEq, Repr

/-- `Wu(tiles, melds, arrived, discarder, flags)`: sort the concealed
tiles, convert `discarder` to a `Wind` (a `ValueError` if out of range),
check 14 ≤ |all tiles| < 19, reject bonus tiles among the concealed tiles,
and compute the decompositions, failing if there are none.

Two notes on fidelity:
* `Wind(discarder)` raises for values outside 0-3, so those fail here.
* with more than four fixed melds Python reaches
  `combinations(possible, 4 - len(fixed_melds))` with a negative count,
  which raises `ValueError`; every such call with a legal total tile count
  therefore fails, modelled by the `fixedMelds.length ≤ 4` guard. -/
def mkWu (tiles : List Tile) (fixedMelds : List Meld) (arrived : Option Tile)
    (discarder : Option Nat) (flags : WuFlags) : Option Wu :=
  let sorted := sortTiles tiles
  let allTiles := sortTiles (sorted ++ (fixedMelds.map Meld.tiles).flatten)
  if (match discarder with | none => true | some d => d < 4) &&
      (14 ≤ allTiles.length && allTiles.length < 19) &&
      sorted.all (fun t => !t.suit.isBonus) &&
      fixedMelds.length ≤ 4 then
    let melds := wuMeldsOf sorted fixedMelds
    if melds.isEmpty then none
    else some ⟨sorted, fixedMelds, arrived, discarder, flags, melds⟩
  else none

/-- `Wu.all_tiles`: concealed tiles plus the fixed melds' tiles, sorted. -/
def Wu.allTiles (w : Wu) : List Tile :=
  sortTiles (w.tiles ++ (w.fixedMelds.map Meld.tiles).flatten)

/-! ## Flag derivation (`Wu.flags`)

Translated block by block; each `let` mirrors one `if`/loop of the source.
Python's `meld.tiles[0]` on an empty meld and `all_tiles[0]` on an empty
hand would raise `IndexError`; the embedding totalises those reads with
`head?`/`getD`, and theorems about `wuFlags` assume non-empty melds and a
non-empty hand so that only the `IndexError`-free behaviour is relied on. -/

/-- The one-suit scan: walks `all_tiles` tracking the suit of the non-honor
tiles seen so far and whether an honor was seen; `none` models reaching the
`break` (no flag awarded). -/
def oneSuitScan (suitAcc : Option Suit) (hon : Bool) :
    List Tile → Option (Option Suit × Bool)
  | [] => some (suitAcc, hon)
  | t :: rest =>
    if t.suit.isHonor then oneSuitScan suitAcc true rest
    else
      match suitAcc with
      | some s => if t.suit ≠ s then none else oneSuitScan (some t.suit) hon rest
      | none => oneSuitScan (some t.suit) hon rest

/-- The `long`/`feng` slot arrays: the slot for number `d` holds the kind of
the last non-`Chow` meld in `choice` whose first tile is `⟨s, d⟩`. -/
def honorSlot (choice : List Meld) (s : Suit) (d : Nat) : Option MeldKind :=
  choice.foldl
    (fun acc m =>
      if m.kind = .chow then acc
      else
        match m.tiles.head? with
        | some t => if t = ⟨s, d⟩ then some m.kind else acc
        | none => acc)
    none

/-- One line of the unset block: when `g` is present, strip `rem`. -/
def unsetStep (g : WuFlag) (rem : List WuFlag) (t : WuFlags) : WuFlags :=
  if hasFlag t g then removeFlags t rem else t

/-- The final unset block of `Wu.flags` (melds.py lines 580-592), its five
conditionals applied in source order. -/
def unsetFlags (types : WuFlags) : WuFlags :=
  unsetStep .thirteenOrphans [.mixedOrphans, .orphans]
    (unsetStep .nineGates [.allOneSuit, .allFromWall]
      (unsetStep .orphans [.allInTriplets]
        (unsetStep .allHonorTiles [.allInTriplets]
          (unsetStep .selfTriplets [.allFromWall, .allInTriplets]
            (unsetStep .smallWinds [.seatWind, .prevailingWind] types)))))

/-- `Wu.flags(choice, winds)` before the final unset block. -/
def wuFlagsCore (w : Wu) (choice : List Meld) (winds : Option (Nat × Nat)) :
    WuFlags :=
  let allTiles := w.allTiles
  let types := w.baseFlags
  let types := if choice.all (fun m => m.kind = .chow ∨ m.kind = .eyes) then
    addFlag types .commonHand else types
  let types := if choice.all
      (fun m => m.kind = .pong ∨ m.kind = .kong ∨ m.kind = .eyes) then
    addFlag types .allInTriplets else types
  let types :=
    match oneSuitScan none false allTiles with
    | none => types
    | some (suit, hon) =>
      if hon && suit.isNone then addFlag types .allHonorTiles
      else if !hon then addFlag types .allOneSuit
      else addFlag types .mixedOneSuit
  let long := [honorSlot choice .long 0, honorSlot choice .long 1,
               honorSlot choice .long 2]
  let types := if long.all Option.isSome then
    (if !(long.any (fun o => o = some .eyes)) then addFlag types .greatDragons
     else addFlag types .smallDragons)
    else types
  let feng := [honorSlot choice .feng 0, honorSlot choice .feng 1,
               honorSlot choice .feng 2, honorSlot choice .feng 3]
  let types := if feng.all Option.isSome then
    (if !(feng.any (fun o => o = some .eyes)) then addFlag types .greatWinds
     else addFlag types .smallWinds)
    else types
  let types := if choice.length = 1 then addFlag types .thirteenOrphans
    else types
  let types := if choice.all (fun m => m.kind = .kong ∨ m.kind = .eyes) then
    addFlag types .allKongs else types
  let types :=
    if w.fixedMelds.isEmpty && hasFlag types .allInTriplets &&
        (hasFlag types .selfDraw ||
          (match w.arrived with
           | none => false
           | some a =>
             choice.all (fun m =>
               if m.kind = .eyes then true else decide (a ∉ m.tiles)) &&
             choice.all (fun m =>
               if m.kind = .eyes then decide (a ∈ m.tiles) else true))) then
      addFlag types .selfTriplets
    else types
  let types := if choice.all (fun m =>
      m.kind ≠ .chow &&
      (match m.tiles.head? with
       | some t => t.suit.isSimple && (t.number = 0 || t.number = 8)
       | none => false)) then
    addFlag types .orphans else types
  -- Nine-gates block (melds.py lines 541-557).  The guard reads the local
  -- variable `all_one_suit`, which is initialised to `False` at line 473
  -- and never assigned afterwards, so the block is unreachable.
  let allOneSuitVar := false
  let firstSuit := (allTiles.headD ⟨.wan, 0⟩).suit
  let types :=
    if allOneSuitVar && firstSuit.isSimple then
      let counts := (List.range 9).map
        (fun i => allTiles.countP (fun t => t.number = i))
      let goals := [3, 1, 1, 1, 1, 1, 1, 1, 3]
      let ok := (List.range 9).all (fun i =>
        counts.getD i 0 = goals.getD i 0 ∨ counts.getD i 0 = goals.getD i 0 + 1)
      let diff := (List.range 9).countP (fun i =>
        counts.getD i 0 = goals.getD i 0 + 1)
      if ok && diff = 1 then addFlag types .nineGates else types
    else types
  let favorable : List (Tile × WuFlag) :=
    [(⟨.long, 0⟩, .redDragon), (⟨.long, 1⟩, .greenDragon),
     (⟨.long, 2⟩, .whiteDragon)] ++
    (match winds with
     | none => []
     | some (seat, prevailing) =>
       [(⟨.feng, seat⟩, .seatWind), (⟨.feng, prevailing⟩, .prevailingWind)])
  let types := choice.foldl
    (fun acc m => favorable.foldl
      (fun acc2 p => if m.tiles.head? = some p.1 then addFlag acc2 p.2 else acc2)
      acc)
    types
  let types := if allTiles.all (fun t =>
      t.suit.isHonor || t.number = 0 || t.number = 8) then
    addFlag types .mixedOrphans else types
  let types := if w.fixedMelds.isEmpty then addFlag types .allFromWall
    else types
  types

/-- `Wu.flags(choice, winds)`: the computed flags run through the final
unset block. -/
def wuFlags (w : Wu) (choice : List Meld) (winds : Option (Nat × Nat)) :
    WuFlags :=
  unsetFlags (wuFlagsCore w choice winds)

/-- `Wu.faan(choice, winds)`: the flag set and its point total (undefined
when the table lookup raises). -/
def wuFaan (w : Wu) (choice : List Meld) (winds : Option (Nat × Nat)) :
    Option Nat × WuFlags :=
  let types := wuFlags w choice winds
  (faanFn types, types)

/-! ## The turn/hand state machine (`mahjong/game.py`)

The engine is a generator that suspends at each decision; following the
design notes of the spec it is modelled as explicit functions taking a
`TurnScript` of answers.  An answer choosing a meld is an index into the
offered list (the documented driver contract is that the answer is "a
reference to an item from the provided list").

The 2.0 `Player` class used by `game.py` (`draw`, `show_meld`) is not under
`src/` (`src/mahjong/players.py` is an earlier revision without these
methods); its two operations are modelled from the spec where noted. -/

/-- A Wu standing in a list of candidate melds (`Wu` is a `Meld` subclass;
comparisons/equality see its concealed `tiles`). -/
def wuAsMeld (w : Wu) : Meld := ⟨.wu, w.tiles⟩

/-- Modelled from the spec: `Player` holds "seat, concealed hand, exposed
melds" (spec §3); bonus tiles play no role in the embedded paths. -/
structure PlayerState where
  seat : Nat
  hand : List Tile
  shown : List Meld
deriving DecidableEq, Repr

/-- The shared per-hand state: wall, discard histories (tile and discarder
recorded in parallel), the four players, and the three penalty-attribution
maps of `Hand` (`_12_piece`, `_gave_dragon`, `_gave_kong`), keyed by seat. -/
structure GameState where
  wall : List Tile
  discarded : List Tile
  discarders : List Nat
  players : List PlayerState
  gaveKong : List (Nat × Nat)
  gaveDragon : List (Nat × Nat)
  twelvePiece : List (Nat × Nat)
deriving DecidableEq, Repr

/-- `TurnEnding`, a `NamedTuple` whose fields default to `None`/`False`. -/
structure TurnEnding where
  winner : Option Nat := none
  discard : Option Tile := none
  seat : Option Nat := none
  wu : Option Wu := none
  jumpedWith : Option Meld := none
  offered : Bool := false
  prevSeat : Option Nat := none
deriving DecidableEq, Repr

/-- `TurnEnding()` with every field defaulted. -/
def TurnEnding.empty : TurnEnding := {}

inductive HandResult where
  | normal | goulash | dealerWon
deriving DecidableEq, Repr

structure HandEnding where
  result : HandResult
  winner : Option Nat := none
  wu : Option Wu := none
  choice : Option (List Meld) := none
deriving DecidableEq, Repr

/-- dict assignment / removal / lookup and `in` for the seat-keyed penalty
maps. -/
def mapSet (m : List (Nat × Nat)) (k v : Nat) : List (Nat × Nat) :=
  (k, v) :: m.filter (fun p => p.1 ≠ k)

def mapPop (m : List (Nat × Nat)) (k : Nat) : List (Nat × Nat) :=
  m.filter (fun p => p.1 ≠ k)

def mapGet (m : List (Nat × Nat)) (k : Nat) : Option Nat := assocLookup m k

def getPlayer (ps : List PlayerState) (i : Nat) : PlayerState :=
  ps.getD i ⟨0, [], []⟩

def setPlayer (ps : List PlayerState) (i : Nat) (p : PlayerState) :
    List PlayerState := ps.set i p

/-- Modelled from the spec: drawing takes the next tile from the face-down
wall into the concealed hand (spec §3, §4.3 step 3); an empty wall raises
`IndexError`, modelled as `none`. -/
def playerDraw (p : PlayerState) (wall : List Tile) :
    Option (Tile × PlayerState × List Tile) :=
  match wall with
  | [] => none
  | t :: rest => some (t, { p with hand := p.hand ++ [t] }, rest)

/-- Modelled from the spec: claiming a discard "attach[es] the claimed meld
to the actor's exposed melds" (spec §4.3 step 1), consuming the meld's
tiles other than the claimed discard from the concealed hand. -/
def showMeld (p : PlayerState) (discard : Tile) (meld : Meld) : PlayerState :=
  { p with hand := (meld.tiles.erase discard).foldl List.erase p.hand,
           shown := p.shown ++ [meld] }

/-- `Turn.all_dragons`: the shown melds include one headed by each dragon. -/
def allDragons (p : PlayerState) : Bool :=
  [0, 1, 2].all fun d => p.shown.any fun m => m.tiles.head? = some ⟨.long, d⟩

/-- Appending one discard to the two parallel histories (Step 28). -/
def recordDiscard (st : GameState) (t : Tile) (seat : Nat) : GameState :=
  { st with discarded := st.discarded ++ [t],
            discarders := st.discarders ++ [seat] }

/-- `self.hand.discarded.pop(); self.hand.discarders.pop()` (Step 18). -/
def unrecordDiscard (st : GameState) : GameState :=
  { st with discarded := st.discarded.dropLast,
            discarders := st.discarders.dropLast }

/-- The jump-arrival block of `Turn.execute` (game.py lines 448-463):
retract the claimed discard from both histories, expose the claimed meld,
and update the `_12_piece` / `_gave_dragon` bookkeeping. -/
def jumpClaimStep (st : GameState) (seat : Nat) (discard : Tile)
    (meld : Meld) (prevSeat : Nat) : GameState :=
  let st := unrecordDiscard st
  let p := getPlayer st.players seat
  let oldCount := p.shown.length
  let oldDrag := allDragons p
  let p' := showMeld p discard meld
  let st := { st with players := setPlayer st.players seat p' }
  let st := if oldCount = 3 ∧ p'.shown.length = 4 then
    { st with twelvePiece := mapSet st.twelvePiece seat prevSeat } else st
  if !oldDrag && allDragons p' then
    { st with gaveDragon := mapSet st.gaveDragon seat prevSeat } else st

/-- `combinations(l, 2/3/4)` over list elements. -/
def combos2 (l : List Tile) : List (Tile × Tile) :=
  (pairsUpto l.length).map fun p =>
    (l.getD p.1 ⟨.wan, 0⟩, l.getD p.2 ⟨.wan, 0⟩)

def combos3 (l : List Tile) : List (Tile × Tile × Tile) :=
  (triplesUpto l.length).map fun p =>
    (l.getD p.1 ⟨.wan, 0⟩, l.getD p.2.1 ⟨.wan, 0⟩, l.getD p.2.2 ⟨.wan, 0⟩)

def quadsUpto (n : Nat) : List (Nat × Nat × Nat × Nat) :=
  (List.range n).flatMap fun i =>
    ((List.range n).drop (i + 1)).flatMap fun j =>
      ((List.range n).drop (j + 1)).flatMap fun k =>
        ((List.range n).drop (k + 1)).map fun m => (i, j, k, m)

def combos4 (l : List Tile) : List (Tile × Tile × Tile × Tile) :=
  (quadsUpto l.length).map fun p =>
    (l.getD p.1 ⟨.wan, 0⟩, l.getD p.2.1 ⟨.wan, 0⟩,
     l.getD p.2.2.1 ⟨.wan, 0⟩, l.getD p.2.2.2 ⟨.wan, 0⟩)

/-- An entry of a candidate-meld list: an ordinary meld, or a full winning
hand (the `Wu` object itself in Python). -/
inductive ClaimItem where
  | cm (m : Meld)
  | cw (w : Wu)
deriving DecidableEq, Repr

def ClaimItem.display : ClaimItem → Meld
  | .cm m => m
  | .cw w => wuAsMeld w

/-- The external driver's answers, one field per suspension point.  Meld
answers are indices into the offered list (the documented contract is that
an answer "must be a reference to an item from the provided list"); an
out-of-range index is treated as declining. -/
structure TurnScript where
  meldFromDiscard : List Meld → Option Nat
  selfDraw : Nat → Bool
  ekfcp : Nat → List Meld → Option Nat
  ekfep : Nat → List Meld → Option Nat
  robKong : Nat → Bool
  discardWhat : PlayerState → Option Tile → Tile
  othersMeld : Nat → List Meld → Option Nat
  whichWu : List (List Meld) → List Meld

/-- The candidate list of `Turn.melds_from_discard`: triplets from hand
pairs plus the discard, exposed Kongs from hand triplets equal to the
discard, and a full-hand `Wu` attempt.  (`Kong` is constructed uncaught in
the source; four equal non-bonus tiles cannot fail, and bonus tiles never
reach a hand.) -/
def meldsFromDiscardItems (p : PlayerState) (discard : Tile)
    (prevSeat : Option Nat) : List ClaimItem :=
  let melds := (combos2 p.hand).foldl
    (fun acc pr =>
      match getTriplet [pr.1, pr.2, discard] with
      | some m => if m ∈ acc then acc else acc ++ [m]
      | none => acc)
    []
  let melds := (combos3 p.hand).foldl
    (fun acc tr =>
      if tr.1 = discard ∧ tr.2.1 = discard ∧ tr.2.2 = discard then
        match mkKong [tr.1, tr.2.1, tr.2.2, discard] with
        | some m => if m ∈ acc then acc else acc ++ [m]
        | none => acc
      else acc)
    melds
  let items := melds.map ClaimItem.cm
  match mkWu (p.hand ++ [discard]) p.shown (some discard) prevSeat [] with
  | some w => items ++ [.cw w]
  | none => items

/-- `Turn.melds_from_discard` (game.py lines 552-584): offer the candidate
melds; on acceptance retract the discard from both histories and expose the
answer. -/
def meldsFromDiscard (script : TurnScript) (st : GameState) (p : PlayerState)
    (discard : Tile) (prevSeat : Option Nat) : Option ClaimItem × GameState :=
  let items := meldsFromDiscardItems p discard prevSeat
  if items.isEmpty then (none, st)
  else
    match script.meldFromDiscard (items.map ClaimItem.display) with
    | none => (none, st)
    | some i =>
      match items.get? i with
      | none => (none, st)
      | some item =>
        let st := unrecordDiscard st
        let p' := showMeld p discard item.display
        (some item, { st with players := setPlayer st.players p.seat p' })

/-- `Turn.check_ekfp` (game.py lines 586-621): exposed Kong from a
concealed Pong (four equal hand tiles), otherwise exposed Kong from an
exposed Pong.  Returns the declared kong (if any) and the mutated player. -/
def checkEkfp (script : TurnScript) (tries : Nat) (p : PlayerState) :
    Option Meld × PlayerState :=
  let kongs := (combos4 p.hand).filterMap fun q =>
    if q.1 = q.2.1 ∧ q.1 = q.2.2.1 ∧ q.1 = q.2.2.2 then
      mkKong [q.1, q.2.1, q.2.2.1, q.2.2.2]
    else none
  let ekfcpAns : Option Meld :=
    if kongs.isEmpty then none
    else
      match script.ekfcp tries (kongs.map id) with
      | none => none
      | some i => kongs.get? i
  match ekfcpAns with
  | some kong =>
    (some kong, { p with hand := kong.tiles.foldl List.erase p.hand })
  | none =>
    let kongs2 := p.shown.filterMap fun m =>
      if m.kind = .pong then
        match m.tiles.head? with
        | some t0 => if t0 ∈ p.hand then mkKong (m.tiles ++ [t0]) else none
        | none => none
      else none
    if kongs2.isEmpty then (none, p)
    else
      match script.ekfep tries (kongs2.map id) with
      | none => (none, p)
      | some i =>
        match kongs2.get? i with
        | none => (none, p)
        | some kong =>
          (some kong,
           { p with shown := p.shown.erase ⟨.pong, kong.tiles.take 3⟩,
                    hand := p.hand.erase (kong.tiles.headD ⟨.wan, 0⟩) })

/-- `Turn.check_kong_robbers` (game.py lines 623-638): in seat order, every
other player who can win off the kong's tile is asked; the first acceptance
robs it. -/
def checkKongRobbers (script : TurnScript) (players : List PlayerState)
    (kong : Meld) (victim : Nat) : Option (Wu × Nat) :=
  match kong.tiles.head? with
  | none => none
  | some tile =>
    players.findSome? fun q =>
      if q.seat = victim then none
      else
        match mkWu (q.hand ++ [tile]) q.shown (some tile) (some victim)
            [.robbingKong] with
        | none => none
        | some wu => if script.robKong q.seat then some (wu, q.seat) else none

/-- Outcome of the draw loop of `Turn.execute` (lines 475-519). -/
inductive DrawOutcome where
  | ended (e : TurnEnding) (st : GameState)
  | proceed (st : GameState) (p : PlayerState) (arrived : Option Tile)
deriving DecidableEq, Repr

/-- The draw loop: draw (goulash on an empty wall), offer a self-draw win,
offer concealed/exposed kongs (each kong subject to robbing), and repeat
with the kong-compensation draw; `tries` counts declared kongs. -/
def drawLoop (script : TurnScript) (turncount : Nat) :
    List Tile → GameState → PlayerState → Nat → DrawOutcome
  | [], st, p, _tries =>
    .ended TurnEnding.empty
      { st with wall := [], players := setPlayer st.players p.seat p }
  | t :: rest, st, p, tries =>
    let st := { st with wall := rest }
    let p := { p with hand := p.hand ++ [t] }
    let flags : WuFlags := [.selfDraw]
    let flags :=
      if tries = 0 ∧ turncount = 0 then addFlag flags .heavenly
      else if tries = 1 then addFlag flags .byKong
      else if tries > 1 then addFlag flags .doubleKong
      else flags
    let fd : WuFlags × Option Nat :=
      if hasFlag flags .byKong || hasFlag flags .doubleKong then
        match mapGet st.gaveKong p.seat with
        | some giver => (addFlag flags .gaveKong, some giver)
        | none => (flags, none)
      else (flags, none)
    let selfWin : Option Wu :=
      match mkWu p.hand p.shown (some t) fd.2 fd.1 with
      | some wu => if script.selfDraw tries then some wu else none
      | none => none
    match selfWin with
    | some wu =>
      .ended { TurnEnding.empty with winner := some p.seat, wu := some wu }
        { st with players := setPlayer st.players p.seat p }
    | none =>
      match checkEkfp script tries p with
      | (none, p') =>
        let st := { st with gaveKong := mapPop st.gaveKong p'.seat,
                            players := setPlayer st.players p'.seat p' }
        .proceed st p' (some t)
      | (some kong, p') =>
        let p2 := { p' with shown := p'.shown ++ [kong] }
        let st := { st with players := setPlayer st.players p2.seat p2 }
        match checkKongRobbers script st.players kong p2.seat with
        | some (wu, robber) =>
          .ended { TurnEnding.empty with winner := some robber, wu := some wu }
            st
        | none => drawLoop script turncount rest st p2 (tries + 1)

/-- Per-claimant candidate list of `Turn.check_others_melds`: Pongs from
hand pairs (Chows too for the seat after the discarder), Kongs from hand
triplets, and a full-hand `Wu` attempt. -/
def othersCandidates (q : PlayerState) (isNextSeat : Bool) (discard : Tile)
    (victim : Nat) : List ClaimItem :=
  let melds := (combos2 q.hand).foldl
    (fun acc pr =>
      let acc :=
        match mkPong [pr.1, pr.2, discard] with
        | some m => if m ∈ acc then acc else acc ++ [m]
        | none => acc
      if isNextSeat then
        match mkChow [pr.1, pr.2, discard] with
        | some m => if m ∈ acc then acc else acc ++ [m]
        | none => acc
      else acc)
    []
  let melds := (combos3 q.hand).foldl
    (fun acc tr =>
      match mkKong [tr.1, tr.2.1, tr.2.2, discard] with
      | some m => if m ∈ acc then acc else acc ++ [m]
      | none => acc)
    melds
  let items := melds.map ClaimItem.cm
  match mkWu (q.hand ++ [discard]) q.shown (some discard) (some victim) [] with
  | some w =>
    if wuAsMeld w ∈ melds then items else items ++ [.cw w]
  | none => items

def itemLe (a b : ClaimItem) : Bool := Meld.le a.display b.display

/-- The sorted per-seat candidate table (`overall`, with each seat's list
sorted ascending by `Meld.__lt__`), in seat order skipping the discarder.
(The next-seat identity test `player is self.players[(victim.seat+1)%4]`
is seat arithmetic for the well-formed player lists the engine builds.) -/
def checkOthersMeldsTable (players : List PlayerState) (discard : Tile)
    (victim : Nat) : List (Nat × List ClaimItem) :=
  players.foldl
    (fun acc q =>
      if q.seat = victim then acc
      else acc ++ [(q.seat,
        insertionSortB itemLe
          (othersCandidates q (q.seat = (victim + 1) % 4) discard victim))])
    []

def offerLe (a b : Nat × ClaimItem) : Bool := Meld.le a.2.display b.2.display

/-- The offer order: `(player, melds[0])` pairs for seats with a live
claim, stably sorted ascending by that meld. -/
def checkOthersMeldsPairs (players : List PlayerState) (discard : Tile)
    (victim : Nat) : List (Nat × ClaimItem) :=
  insertionSortB offerLe
    ((checkOthersMeldsTable players discard victim).filterMap fun e =>
      (e.2.head?).map fun it => (e.1, it))

/-- The offer loop: each seat in pair order is shown its whole candidate
list; the first acceptance wins the claim. -/
def offerLoop (script : TurnScript) (table : List (Nat × List ClaimItem)) :
    List (Nat × ClaimItem) → Option (Nat × ClaimItem)
  | [] => none
  | (s, _) :: rest =>
    let items := (assocLookup table s).getD []
    match script.othersMeld s (items.map ClaimItem.display) with
    | some i =>
      match items.get? i with
      | some item => some (s, item)
      | none => offerLoop script table rest
    | none => offerLoop script table rest

inductive ClaimResult where
  | claimed (seat : Nat) (item : ClaimItem)
  | unclaimed (offered : Bool)
deriving DecidableEq, Repr

/-- `Turn.check_others_melds` (game.py lines 640-692), including the
kong-giver recording: a Kong claimed from a tile absent from the earlier
discard history records the discarder as the claimant's kong-giver. -/
def checkOthersMelds (script : TurnScript) (st : GameState) (discard : Tile)
    (victim : Nat) : ClaimResult × GameState :=
  let table := checkOthersMeldsTable st.players discard victim
  let pairs := checkOthersMeldsPairs st.players discard victim
  match offerLoop script table pairs with
  | some (s, item) =>
    let st :=
      if item.display.kind = .kong ∧ discard ∉ st.discarded.dropLast then
        { st with gaveKong := mapSet st.gaveKong s victim }
      else st
    (.claimed s item, st)
  | none =>
    (.unclaimed (!((assocLookup table ((victim + 1) % 4)).getD []).isEmpty), st)

/-- Steps 26-31 of `Turn.execute`: sort, discard a chosen tile, push it on
both histories, then run priority resolution over the other three seats. -/
def discardPhase (script : TurnScript) (st : GameState) (p : PlayerState)
    (arrived : Option Tile) : TurnEnding × GameState :=
  let p := { p with hand := sortTiles p.hand }
  let answer := script.discardWhat p arrived
  let p := { p with hand := p.hand.erase answer }
  let st := { st with players := setPlayer st.players p.seat p }
  let st := recordDiscard st answer p.seat
  match checkOthersMelds script st answer p.seat with
  | (.claimed thief item, st') =>
    match item with
    | .cw w =>
      ({ TurnEnding.empty with winner := some thief, wu := some w }, st')
    | .cm m =>
      ({ TurnEnding.empty with
          discard := some answer
          seat := some thief
          jumpedWith := some m
          prevSeat := some p.seat }, st')
  | (.unclaimed offered, st') =>
    ({ TurnEnding.empty with
        discard := some answer
        offered := offered
        seat := some ((p.seat + 1) % 4)
        prevSeat := some p.seat }, st')

/-- `Turn.execute`: `none` models the `ValueError` on a missing seat. -/
def turnExecute (script : TurnScript) (st : GameState) (le : TurnEnding)
    (turncount : Nat) : Option (TurnEnding × GameState) :=
  match le.seat with
  | none => none
  | some seat =>
    let phase : Option ClaimItem × GameState :=
      match le.jumpedWith, le.discard, le.prevSeat with
      | some meld, some discard, some prevSeat =>
        (some (.cm meld), jumpClaimStep st seat discard meld prevSeat)
      | _, _, _ =>
        match le.discard with
        | some discard =>
          if le.offered then (none, st)
          else meldsFromDiscard script st (getPlayer st.players seat) discard
            le.prevSeat
        | none => (none, st)
    let claim := phase.1
    let st := phase.2
    match claim with
    | some (.cw w) =>
      let w := if turncount = 1 then
        { w with baseFlags := addFlag w.baseFlags .earthly } else w
      some ({ TurnEnding.empty with winner := some seat, wu := some w }, st)
    | _ =>
      let robbed : Option (Wu × Nat) :=
        match claim with
        | some (.cm m) =>
          if m.kind = .kong then checkKongRobbers script st.players m seat
          else none
        | _ => none
      match robbed with
      | some (wu, robber) =>
        some ({ TurnEnding.empty with winner := some robber, wu := some wu },
          st)
      | none =>
        let isDrawCase : Bool :=
          match claim with
          | none => true
          | some (.cm m) => decide (m.kind = .kong)
          | some (.cw _) => false
        if isDrawCase then
          match drawLoop script turncount st.wall st
              (getPlayer st.players seat) 0 with
          | .ended e st' => some (e, st')
          | .proceed st' p arrived => some (discardPhase script st' p arrived)
        else
          some (discardPhase script st (getPlayer st.players seat) le.discard)

/-- The post-loop finalisation of `Hand.execute` (game.py lines 373-399):
goulash when there is no winner or no Wu; otherwise attach last-catch and
the cross-turn penalty flags, settle the decomposition choice, and report a
dealer win when the winner is the dealer seat. -/
def handFinalize (script : TurnScript) (st : GameState) (ending : TurnEnding)
    (wind : Nat) : HandEnding :=
  match ending.winner, ending.wu with
  | some winner, some wu =>
    let wu := if st.wall.length = 0 then
      { wu with baseFlags := addFlag wu.baseFlags .lastCatch } else wu
    let wu :=
      match mapGet st.gaveDragon winner with
      | some giver =>
        { wu with baseFlags := addFlag wu.baseFlags .gaveDragon,
                  discarder := some giver }
      | none => wu
    let wu :=
      if hasFlag wu.baseFlags .selfDraw then
        match mapGet st.twelvePiece winner with
        | some giver =>
          { wu with baseFlags := addFlag wu.baseFlags .twelvePiece,
                    discarder := some giver }
        | none => wu
      else wu
    let choice := if wu.melds.length > 1 then script.whichWu wu.melds
      else wu.melds.headD []
    if winner = wind then
      { result := .dealerWon, winner := some winner, wu := some wu,
        choice := some choice }
    else
      { result := .normal, winner := some winner, wu := some wu,
        choice := some choice }
  | _, _ => { result := .goulash }


/-! ## Claim-side predicates

"Valid Pong/Kong/Chow/Eyes" in the claims means: the group passes the
corresponding validator, i.e. the constructor succeeds on it (and returns
it, the tiles being sorted). -/

def IsEyesMeld (m : Meld) : Prop := mkEyes m.tiles = some m

def IsPongKongChow (m : Meld) : Prop :=
  mkPong m.tiles = some m ∨ mkKong m.tiles = some m ∨ mkChow m.tiles = some m

/-- The concealed tiles decompose into one valid Eyes pair plus `n` valid
Pong/Kong/Chow melds. -/
def Expressible (tiles : List Tile) (n : Nat) : Prop :=
  ∃ (e : Meld) (ms : List Meld), IsEyesMeld e ∧ ms.length = n ∧
    (∀ m ∈ ms, IsPongKongChow m) ∧
    tiles.Perm (e.tiles ++ (ms.map Meld.tiles).flatten)

/-- Shape invariant of the `trips` entries built by `all_melds_pos`: the
key is a strictly-short list of in-range distinct indexes, and the meld is
a valid Pong/Kong/Chow over exactly the tiles at those indexes. -/
def TripEntryOK (ts : List Tile) (e : List Nat × Meld) : Prop :=
  e.1.Nodup ∧ (∀ i ∈ e.1, i < ts.length) ∧
    e.2.tiles.Perm (tilesAt ts e.1) ∧ IsPongKongChow e.2 ∧
    e.2.tiles.length = e.1.length

/-- `p` is the position of the last occurrence of `v` in `ts`. -/
def IsLastOcc (ts : List Tile) (v : Tile) (p : Nat) : Prop :=
  p < ts.length ∧ ts.getD p ⟨.wan, 0⟩ = v ∧
    ∀ q, p < q → q < ts.length → ts.getD q ⟨.wan, 0⟩ ≠ v

/-- An index triple for a meld that the `all_melds_pos` search is certain
to store: strictly sorted, in range, selecting the meld's tiles, and — for
a Pong, whose entry would otherwise be upgraded to a Kong — with no further
occurrence of the Pong's tile after the triple's last index. -/
def GoodKey (ts : List Tile) (K : List Nat) (m : Meld) : Prop :=
  ∃ a b c, K = [a, b, c] ∧ a < b ∧ b < c ∧ c < ts.length ∧
    (tilesAt ts K).Perm m.tiles ∧
    (∀ v, m.tiles = [v, v, v] →
      ∀ q, c < q → q < ts.length → ts.getD q ⟨.wan, 0⟩ ≠ v)

/-! ## Concrete data for the verified scenarios -/

/-- A `Wu` record whose base flags exercise every suppression line. -/
def c5wu : Wu := ⟨[], [], none, none, [.nineGates, .thirteenOrphans, .selfTriplets], []⟩

/-- Scenario 1 of the spec: `tong/1,1,1,2,3,4,5,6,7,8,9,9,9` plus a second
`tong/5` (numbers here 0-based). -/
def c6tiles : List Tile :=
  [⟨.tong, 0⟩, ⟨.tong, 0⟩, ⟨.tong, 0⟩, ⟨.tong, 1⟩, ⟨.tong, 2⟩, ⟨.tong, 3⟩,
   ⟨.tong, 4⟩, ⟨.tong, 5⟩, ⟨.tong, 6⟩, ⟨.tong, 7⟩, ⟨.tong, 8⟩, ⟨.tong, 8⟩,
   ⟨.tong, 8⟩, ⟨.tong, 4⟩]

/-- The whole C6 check as one evaluation: construction succeeds and every
decomposition's flags contain ALL_ONE_SUIT and lack NINE_GATES. -/
def c6check : Bool :=
  match mkWu c6tiles [] none none [] with
  | some w =>
    !w.melds.isEmpty && w.melds.all fun c =>
      hasFlag (wuFlags w c none) .allOneSuit &&
      !(hasFlag (wuFlags w c none) .nineGates)
  | none => false

/-- A hand containing a green-dragon (`long/2`) Pong: `long/2` ×3,
`feng/2` ×3, `feng/3` ×3, `feng/4` ×3, `feng/1` ×2. -/
def c3tiles : List Tile :=
  [⟨.long, 1⟩, ⟨.long, 1⟩, ⟨.long, 1⟩, ⟨.feng, 1⟩, ⟨.feng, 1⟩, ⟨.feng, 1⟩,
   ⟨.feng, 2⟩, ⟨.feng, 2⟩, ⟨.feng, 2⟩, ⟨.feng, 3⟩, ⟨.feng, 3⟩, ⟨.feng, 3⟩,
   ⟨.feng, 0⟩, ⟨.feng, 0⟩]

/-- The whole C3 check as one evaluation: every decomposition's flag set
contains GREEN_DRAGON, and `faan` of it is undefined (`KeyError`). -/
def c3check : Bool :=
  match mkWu c3tiles [] none none [] with
  | some w =>
    !w.melds.isEmpty && w.melds.all fun c =>
      hasFlag (wuFlags w c none) .greenDragon &&
      (faanFn (wuFlags w c none)).isNone
  | none => false

/-- A cheaply-checkable winning hand for the C2 witness: `long/1` ×3,
`feng/2` ×3, `feng/3` ×3, `feng/4` ×3, `feng/1` ×2. -/
def c2tiles : List Tile :=
  [⟨.long, 0⟩, ⟨.long, 0⟩, ⟨.long, 0⟩, ⟨.feng, 1⟩, ⟨.feng, 1⟩, ⟨.feng, 1⟩,
   ⟨.feng, 2⟩, ⟨.feng, 2⟩, ⟨.feng, 2⟩, ⟨.feng, 3⟩, ⟨.feng, 3⟩, ⟨.feng, 3⟩,
   ⟨.feng, 0⟩, ⟨.feng, 0⟩]

/-- The winning partition of `c2tiles` used to witness completeness:
four Pongs plus the `feng/1` Eyes. -/
def c1eyes : Meld := ⟨.eyes, [⟨.feng, 0⟩, ⟨.feng, 0⟩]⟩

def c1ms : List Meld :=
  [⟨.pong, [⟨.long, 0⟩, ⟨.long, 0⟩, ⟨.long, 0⟩]⟩,
   ⟨.pong, [⟨.feng, 1⟩, ⟨.feng, 1⟩, ⟨.feng, 1⟩]⟩,
   ⟨.pong, [⟨.feng, 2⟩, ⟨.feng, 2⟩, ⟨.feng, 2⟩]⟩,
   ⟨.pong, [⟨.feng, 3⟩, ⟨.feng, 3⟩, ⟨.feng, 3⟩]⟩]

/-- A 14-tile hand with six copies of one tile value: `feng/1` ×6 plus
`wan/1,2,3`, `wan/5,6,7` and a `wan/9` pair. -/
def c1bad : List Tile :=
  [⟨.feng, 0⟩, ⟨.feng, 0⟩, ⟨.feng, 0⟩, ⟨.feng, 0⟩, ⟨.feng, 0⟩, ⟨.feng, 0⟩,
   ⟨.wan, 0⟩, ⟨.wan, 1⟩, ⟨.wan, 2⟩, ⟨.wan, 4⟩, ⟨.wan, 5⟩, ⟨.wan, 6⟩,
   ⟨.wan, 8⟩, ⟨.wan, 8⟩]

/-- A valid decomposition of `c1bad`: two `feng/1` Pongs, the Chows
`wan/1,2,3` and `wan/5,6,7`, and `wan/9` Eyes. -/
def c1bmelds : List Meld :=
  [⟨.pong, [⟨.feng, 0⟩, ⟨.feng, 0⟩, ⟨.feng, 0⟩]⟩,
   ⟨.pong, [⟨.feng, 0⟩, ⟨.feng, 0⟩, ⟨.feng, 0⟩]⟩,
   ⟨.chow, [⟨.wan, 0⟩, ⟨.wan, 1⟩, ⟨.wan, 2⟩]⟩,
   ⟨.chow, [⟨.wan, 4⟩, ⟨.wan, 5⟩, ⟨.wan, 6⟩]⟩]

def c1beyes : Meld := ⟨.eyes, [⟨.wan, 8⟩, ⟨.wan, 8⟩]⟩

/-- `c1bad` sorted (wan before feng in `ORDER`). -/
def c1bsorted : List Tile :=
  [⟨.wan, 0⟩, ⟨.wan, 1⟩, ⟨.wan, 2⟩, ⟨.wan, 4⟩, ⟨.wan, 5⟩, ⟨.wan, 6⟩,
   ⟨.wan, 8⟩, ⟨.wan, 8⟩, ⟨.feng, 0⟩, ⟨.feng, 0⟩, ⟨.feng, 0⟩, ⟨.feng, 0⟩,
   ⟨.feng, 0⟩, ⟨.feng, 0⟩]

/-- `c1bsorted` with the `wan/9` pair (positions 6‑7) removed: the
reduced hand of the Eyes candidate that must cover all six `feng/1`. -/
def c1restBig : List Tile :=
  [⟨.wan, 0⟩, ⟨.wan, 1⟩, ⟨.wan, 2⟩, ⟨.wan, 4⟩, ⟨.wan, 5⟩, ⟨.wan, 6⟩,
   ⟨.feng, 0⟩, ⟨.feng, 0⟩, ⟨.feng, 0⟩, ⟨.feng, 0⟩, ⟨.feng, 0⟩,
   ⟨.feng, 0⟩]

/-- `c1bsorted` with two `feng/1` removed: the reduced hand of every
`feng/1` Eyes candidate (the same list whichever two copies go). -/
def c1restSmall : List Tile :=
  [⟨.wan, 0⟩, ⟨.wan, 1⟩, ⟨.wan, 2⟩, ⟨.wan, 4⟩, ⟨.wan, 5⟩, ⟨.wan, 6⟩,
   ⟨.wan, 8⟩, ⟨.wan, 8⟩, ⟨.feng, 0⟩, ⟨.feng, 0⟩, ⟨.feng, 0⟩,
   ⟨.feng, 0⟩]

def fengPong : Meld := ⟨.pong, [⟨.feng, 0⟩, ⟨.feng, 0⟩, ⟨.feng, 0⟩]⟩

def fengKong : Meld :=
  ⟨.kong, [⟨.feng, 0⟩, ⟨.feng, 0⟩, ⟨.feng, 0⟩, ⟨.feng, 0⟩]⟩

/-- `all_melds_pos` of `c1restBig`, spelled out: the two Chows, the ten
Pong entries (each forced to contain position 11, the last `feng/1`),
and the ten Kong upgrades. -/
def c1poss : List (Meld × List Nat) :=
  [(⟨.chow, [⟨.wan, 0⟩, ⟨.wan, 1⟩, ⟨.wan, 2⟩]⟩, [0, 1, 2]),
   (⟨.chow, [⟨.wan, 4⟩, ⟨.wan, 5⟩, ⟨.wan, 6⟩]⟩, [3, 4, 5]),
   (fengPong, [6, 7, 11]),
   (fengPong, [6, 8, 11]),
   (fengPong, [6, 9, 11]),
   (fengPong, [6, 10, 11]),
   (fengPong, [7, 8, 11]),
   (fengPong, [7, 9, 11]),
   (fengPong, [7, 10, 11]),
   (fengPong, [8, 9, 11]),
   (fengPong, [8, 10, 11]),
   (fengPong, [9, 10, 11]),
   (fengKong, [6, 7, 8, 9]),
   (fengKong, [6, 7, 9, 10]),
   (fengKong, [6, 7, 10, 11]),
   (fengKong, [6, 8, 9, 10]),
   (fengKong, [6, 8, 10, 11]),
   (fengKong, [6, 9, 10, 11]),
   (fengKong, [7, 8, 9, 10]),
   (fengKong, [7, 8, 10, 11]),
   (fengKong, [7, 9, 10, 11]),
   (fengKong, [8, 9, 10, 11])]

/-- The per-position check used to cover the 4-sublists of `c1poss` in
pieces: every extension of the entry at position `i` by a 3-sublist of the
later entries repeats an index or misses the 12-tile total. -/
def c1pieceB (i : Nat) : Bool :=
  (List.sublistsLen 3 (c1poss.drop (i + 1))).all fun cb =>
    hasDupIdxs ((c1poss.drop i).headD (⟨.wu, []⟩, []) :: cb) ||
    !((((((c1poss.drop i).headD (⟨.wu, []⟩, []) :: cb).map
        fun p => p.1.tiles).flatten).length) == 12)

/-- The C7 check: for each of the thirteen orphan tiles as the 14th tile,
construction succeeds with exactly the single `_UncheckedWu`
decomposition. -/
def c7check : Bool :=
  thirteenOrphanTiles.all fun t =>
    match mkWu (thirteenOrphanTiles ++ [t]) [] none none [] with
    | some w =>
      decide (w.melds =
        [[Meld.mk .wu (sortTiles (thirteenOrphanTiles ++ [t]))]])
    | none => false

/-- The C4 priority scenario: seat 0 discards `wan/3`; seat 1 (next) can
only Chow, seat 2 can only Pong, seat 3 completes a winning hand. -/
def c4players : List PlayerState :=
  [⟨0, [⟨.wan, 0⟩], []⟩,
   ⟨1, [⟨.wan, 0⟩, ⟨.wan, 1⟩], []⟩,
   ⟨2, [⟨.wan, 2⟩, ⟨.wan, 2⟩], []⟩,
   ⟨3, [⟨.feng, 0⟩, ⟨.feng, 0⟩, ⟨.feng, 0⟩, ⟨.feng, 1⟩, ⟨.feng, 1⟩,
        ⟨.feng, 1⟩, ⟨.feng, 2⟩, ⟨.feng, 2⟩, ⟨.feng, 2⟩, ⟨.long, 0⟩,
        ⟨.long, 0⟩, ⟨.long, 0⟩, ⟨.wan, 2⟩], []⟩]

/-- The C4 state right after seat 0's discard of `wan/3` was pushed. -/
def c4st : GameState := ⟨[], [⟨.wan, 2⟩], [0], c4players, [], [], []⟩

/-- A driver that accepts the first meld offered to whoever is asked. -/
def c4script : TurnScript :=
  ⟨fun _ => none, fun _ => false, fun _ _ => none, fun _ _ => none,
   fun _ => false, fun p _ => p.hand.headD ⟨.wan, 0⟩,
   fun _ items => if items.isEmpty then none else some 0,
   fun ms => ms.headD []⟩

def claimSummary : ClaimResult → Option (Nat × MeldKind)
  | .claimed s item => some (s, item.display.kind)
  | .unclaimed _ => none

/-- A state with an empty wall (C8 witness). -/
def c8st : GameState := ⟨[], [], [], c4players, [], [], []⟩

/-- A claimant about to accept a Pong from the last discard (C9). -/
def c9p : PlayerState := ⟨1, [⟨.wan, 0⟩, ⟨.wan, 0⟩], []⟩

def c9st : GameState :=
  ⟨[], [⟨.wan, 5⟩, ⟨.wan, 0⟩], [0, 0], [c9p], [], [], []⟩

def c9script : TurnScript := { c4script with meldFromDiscard := fun _ => some 0 }

def c9res : Option ClaimItem × GameState :=
  meldsFromDiscard c9script c9st c9p ⟨.wan, 0⟩ (some 0)

def c9pong : Meld := ⟨.pong, [⟨.wan, 0⟩, ⟨.wan, 0⟩, ⟨.wan, 0⟩]⟩

/-- The C10 scenario: seat 1 arrives on a jump claiming seat 0's `feng/1`
discard as an exposed Kong (the tile never previously discarded); seat 0 is
already recorded as seat 1's kong-giver; the wall holds the one tile seat 1
needs to win by self-draw on the kong-compensation draw. -/
def c10kong : Meld :=
  ⟨.kong, [⟨.feng, 0⟩, ⟨.feng, 0⟩, ⟨.feng, 0⟩, ⟨.feng, 0⟩]⟩

def c10players : List PlayerState :=
  [⟨0, [⟨.wan, 0⟩], []⟩,
   ⟨1, [⟨.feng, 0⟩, ⟨.feng, 0⟩, ⟨.feng, 0⟩, ⟨.feng, 1⟩, ⟨.feng, 1⟩,
        ⟨.feng, 1⟩, ⟨.feng, 2⟩, ⟨.feng, 2⟩, ⟨.feng, 2⟩, ⟨.long, 0⟩,
        ⟨.long, 0⟩, ⟨.long, 0⟩, ⟨.long, 1⟩], []⟩,
   ⟨2, [⟨.wan, 1⟩], []⟩,
   ⟨3, [⟨.wan, 3⟩], []⟩]

def c10st : GameState :=
  ⟨[⟨.long, 1⟩], [⟨.feng, 0⟩], [0], c10players, [(1, 0)], [], []⟩

def c10script : TurnScript := { c4script with selfDraw := fun _ => true }

def c10ending : TurnEnding :=
  { seat := some 1, discard := some ⟨.feng, 0⟩, jumpedWith := some c10kong,
    prevSeat := some 0 }

/-- The C10 divergence check as one evaluation: seat 1 wins the
compensation draw, but the Wu carries neither BY_KONG nor GAVE_KONG and no
penalised discarder. -/
def c10check : Bool :=
  match turnExecute c10script c10st c10ending 5 with
  | some (e, _) =>
    decide (e.winner = some 1) &&
      (match e.wu with
       | some w =>
         !(hasFlag w.baseFlags .gaveKong) && !(hasFlag w.baseFlags .byKong) &&
           w.discarder.isNone
       | none => false)
  | none => false

/-- The C10 witness scenario for the recording half: seat 2 claims seat 0's
fresh discard as an exposed Kong at the offer. -/
def c10wplayers : List PlayerState :=
  [⟨0, [⟨.wan, 5⟩], []⟩, ⟨1, [⟨.wan, 6⟩], []⟩,
   ⟨2, [⟨.wan, 0⟩, ⟨.wan, 0⟩, ⟨.wan, 0⟩], []⟩, ⟨3, [⟨.wan, 7⟩], []⟩]

def c10wst : GameState := ⟨[], [⟨.wan, 0⟩], [0], c10wplayers, [], [], []⟩

def c10wscript : TurnScript :=
  { c4script with othersMeld := fun s _ => if s = 2 then some 1 else none }

def c10wkong : Meld :=
  ⟨.kong, [⟨.wan, 0⟩, ⟨.wan, 0⟩, ⟨.wan, 0⟩, ⟨.wan, 0⟩]⟩

def c10wres : ClaimResult × GameState :=
  checkOthersMelds c10wscript c10wst ⟨.wan, 0⟩ 0

/-! ## Lemma library -/

theorem orderedInsertB_perm (le : α → α → Bool) (a : α) (l : List α) :
    (orderedInsertB le a l).Perm (a :: l) := by
  induction l with
  | nil => simp [orderedInsertB]
  | cons b t ih =>
    by_cases h : le a b = true
    · simp [orderedInsertB, h]
    · simp only [orderedInsertB, h, if_false, Bool.false_eq_true]
      exact ((ih.cons b).trans (List.Perm.swap a b t)).symm.symm

theorem insertionSortB_perm (le : α → α → Bool) (l : List α) :
    (insertionSortB le l).Perm l := by
  induction l with
  | nil => simp [insertionSortB]
  | cons a t ih =>
    exact (orderedInsertB_perm le a (insertionSortB le t)).trans (ih.cons a)

theorem mem_insertionSortB (le : α → α → Bool) (l : List α) (x : α) :
    x ∈ insertionSortB le l ↔ x ∈ l :=
  (insertionSortB_perm le l).mem_iff

theorem orderedInsertB_pairwise (le : α → α → Bool) (a : α) (l : List α)
    (hl : l.Pairwise (fun x y => le x y = true))
    (htot : ∀ b ∈ l, le a b = true ∨ le b a = true)
    (htrans : ∀ b ∈ l, ∀ c ∈ l, le a b = true → le b c = true → le a c = true) :
    (orderedInsertB le a l).Pairwise (fun x y => le x y = true) := by
  induction l with
  | nil => simp [orderedInsertB]
  | cons b t ih =>
    by_cases h : le a b = true
    · rw [orderedInsertB, if_pos h]
      refine (List.pairwise_cons.2 ⟨?_, hl⟩)
      intro y hy
      rcases List.mem_cons.1 hy with h' | hy
      · exact h' ▸ h
      · exact htrans b (List.mem_cons_self b t) y (List.mem_cons_of_mem b hy) h
          (List.rel_of_pairwise_cons hl hy)
    · rw [orderedInsertB, if_neg h]
      rcases List.pairwise_cons.1 hl with ⟨hb, ht⟩
      refine List.pairwise_cons.2 ⟨?_, ih ht
        (fun c hc => htot c (List.mem_cons_of_mem b hc))
        (fun c hc d hd => htrans c (List.mem_cons_of_mem b hc) d (List.mem_cons_of_mem b hd))⟩
      intro y hy
      rw [(orderedInsertB_perm le a t).mem_iff] at hy
      rcases List.mem_cons.1 hy with h' | hy
      · subst h'
        rcases htot b (List.mem_cons_self b t) with h1 | h1
        · exact absurd h1 h
        · exact h1
      · exact hb y hy

theorem insertionSortB_pairwise (le : α → α → Bool) (l : List α)
    (htot : ∀ a ∈ l, ∀ b ∈ l, le a b = true ∨ le b a = true)
    (htrans : ∀ a ∈ l, ∀ b ∈ l, ∀ c ∈ l,
      le a b = true → le b c = true → le a c = true) :
    (insertionSortB le l).Pairwise (fun x y => le x y = true) := by
  induction l with
  | nil => simp [insertionSortB]
  | cons a t ih =>
    have hsub : ∀ x ∈ insertionSortB le t, x ∈ a :: t := fun x hx =>
      List.mem_cons_of_mem a ((mem_insertionSortB le t x).1 hx)
    refine orderedInsertB_pairwise le a (insertionSortB le t)
      (ih (fun x hx y hy => htot x (List.mem_cons_of_mem a hx) y (List.mem_cons_of_mem a hy))
          (fun x hx y hy z hz => htrans x (List.mem_cons_of_mem a hx)
            y (List.mem_cons_of_mem a hy) z (List.mem_cons_of_mem a hz))) ?_ ?_
    · intro b hb
      exact htot a (List.mem_cons_self a t) b (hsub b hb)
    · intro b hb c hc
      exact htrans a (List.mem_cons_self a t) b (hsub b hb) c (hsub c hc)

theorem eq_of_perm_of_pairwise (le : α → α → Bool) (l₁ l₂ : List α)
    (hp : l₁.Perm l₂)
    (h₁ : l₁.Pairwise (fun x y => le x y = true))
    (h₂ : l₂.Pairwise (fun x y => le x y = true))
    (hanti : ∀ a ∈ l₁, ∀ b ∈ l₁, le a b = true → le b a = true → a = b) :
    l₁ = l₂ := by
  induction l₁ generalizing l₂ with
  | nil => exact (hp.nil_eq).symm ▸ rfl
  | cons a t ih =>
    cases l₂ with
    | nil => exact absurd hp.symm.nil_eq (by simp)
    | cons b t₂ =>
      rcases List.pairwise_cons.1 h₁ with ⟨ha, ht⟩
      rcases List.pairwise_cons.1 h₂ with ⟨hb, ht₂⟩
      have hab : a = b := by
        have hbmem : b ∈ a :: t := hp.mem_iff.2 (List.mem_cons_self b t₂)
        have hamem : a ∈ b :: t₂ := hp.mem_iff.1 (List.mem_cons_self a t)
        rcases List.mem_cons.1 hbmem with h' | hbmem
        · exact h'.symm
        rcases List.mem_cons.1 hamem with h' | hamem
        · exact h'
        have h1 : le a b = true := ha b hbmem
        have h2 : le b a = true := hb a hamem
        exact hanti a (List.mem_cons_self a t) b (List.mem_cons_of_mem a hbmem) h1 h2
      subst hab
      have hp' : t.Perm t₂ := hp.cons_inv
      have := ih t₂ hp' ht ht₂ (fun x hx y hy => hanti x (List.mem_cons_of_mem a hx)
        y (List.mem_cons_of_mem a hy))
      rw [this]

theorem insertionSortB_eq_of_perm (le : α → α → Bool) (l₁ l₂ : List α)
    (hp : l₁.Perm l₂)
    (htot : ∀ a ∈ l₁, ∀ b ∈ l₁, le a b = true ∨ le b a = true)
    (htrans : ∀ a ∈ l₁, ∀ b ∈ l₁, ∀ c ∈ l₁,
      le a b = true → le b c = true → le a c = true)
    (hanti : ∀ a ∈ l₁, ∀ b ∈ l₁, le a b = true → le b a = true → a = b) :
    insertionSortB le l₁ = insertionSortB le l₂ := by
  have htot₂ : ∀ a ∈ l₂, ∀ b ∈ l₂, le a b = true ∨ le b a = true := by
    intro a ha b hb
    exact htot a (hp.mem_iff.2 ha) b (hp.mem_iff.2 hb)
  have htrans₂ : ∀ a ∈ l₂, ∀ b ∈ l₂, ∀ c ∈ l₂,
      le a b = true → le b c = true → le a c = true := by
    intro a ha b hb c hc
    exact htrans a (hp.mem_iff.2 ha) b (hp.mem_iff.2 hb) c (hp.mem_iff.2 hc)
  refine eq_of_perm_of_pairwise le _ _
    (((insertionSortB_perm le l₁).trans hp).trans (insertionSortB_perm le l₂).symm)
    (insertionSortB_pairwise le l₁ htot htrans)
    (insertionSortB_pairwise le l₂ htot₂ htrans₂) ?_
  intro a ha b hb
  rw [mem_insertionSortB] at ha hb
  exact hanti a ha b hb

theorem insertionSortB_of_pairwise (le : α → α → Bool) (l : List α)
    (h : l.Pairwise (fun x y => le x y = true)) :
    insertionSortB le l = l := by
  induction l with
  | nil => rfl
  | cons a t ih =>
    rcases List.pairwise_cons.1 h with ⟨ha, ht⟩
    rw [insertionSortB, ih ht]
    cases t with
    | nil => rfl
    | cons b t' =>
      have : le a b = true := ha b (List.mem_cons_self b t')
      simp [orderedInsertB, this]

theorem sortTiles_perm (l : List Tile) : (sortTiles l).Perm l :=
  insertionSortB_perm Tile.le l

theorem tile_lt_trichotomy (a b : Tile) (ha : a.suit.isBonus = false)
    (hb : b.suit.isBonus = false) :
    Tile.lt a b = true ∨ a = b ∨ Tile.lt b a = true := by
  rcases a with ⟨sa, na⟩
  rcases b with ⟨sb, nb⟩
  cases sa <;> cases sb <;> simp_all [Tile.lt, suitOrder, Suit.isBonus] <;> omega

theorem tile_lt_asymm (a b : Tile) :
    Tile.lt a b = true → Tile.lt b a = true → False := by
  rcases a with ⟨sa, na⟩
  rcases b with ⟨sb, nb⟩
  cases sa <;> cases sb <;> simp_all [Tile.lt, suitOrder] <;> omega

theorem tile_le_total (a b : Tile) (ha : a.suit.isBonus = false)
    (hb : b.suit.isBonus = false) :
    Tile.le a b = true ∨ Tile.le b a = true := by
  rcases tile_lt_trichotomy a b ha hb with h | h | h
  · left
    simp only [Tile.le, Bool.not_eq_true']
    by_contra hc
    simp only [Bool.not_eq_false] at hc
    exact tile_lt_asymm a b h hc
  · subst h
    left
    simp [Tile.le, Tile.lt]
  · right
    simp only [Tile.le, Bool.not_eq_true']
    by_contra hcon
    simp only [Bool.not_eq_false] at hcon
    exact tile_lt_asymm a b hcon h

theorem tile_le_antisymm (a b : Tile) (ha : a.suit.isBonus = false)
    (hb : b.suit.isBonus = false) :
    Tile.le a b = true → Tile.le b a = true → a = b := by
  intro h1 h2
  simp only [Tile.le, Bool.not_eq_true'] at h1 h2
  rcases tile_lt_trichotomy a b ha hb with h | h | h
  · rw [h] at h2
    exact absurd h2 (by simp)
  · exact h
  · rw [h] at h1
    exact absurd h1 (by simp)

theorem tile_le_trans (a b c : Tile) (ha : a.suit.isBonus = false)
    (hb : b.suit.isBonus = false) (hc : c.suit.isBonus = false) :
    Tile.le a b = true → Tile.le b c = true → Tile.le a c = true := by
  rcases a with ⟨sa, na⟩
  rcases b with ⟨sb, nb⟩
  rcases c with ⟨sc, nc⟩
  cases sa <;> cases sb <;> cases sc <;>
    simp_all [Tile.le, Tile.lt, suitOrder, Suit.isBonus] <;> omega

theorem sortMelds_perm (l : List Meld) : (sortMelds l).Perm l :=
  insertionSortB_perm Meld.le l

theorem mem_removeFlags {f : WuFlag} {fs : WuFlags} {rem : List WuFlag} :
    f ∈ removeFlags fs rem ↔ f ∈ fs ∧ f ∉ rem := by
  simp [removeFlags]

theorem hasFlag_eq_true_iff {fs : WuFlags} {f : WuFlag} :
    hasFlag fs f = true ↔ (f = .chickenHand ∨ f ∈ fs) := by
  simp [hasFlag]

theorem hasFlag_eq_false_iff {fs : WuFlags} {f : WuFlag} :
    hasFlag fs f = false ↔ (f ≠ .chickenHand ∧ f ∉ fs) := by
  simp [hasFlag]

theorem mem_of_mem_unsetStep {f g : WuFlag} {rem : List WuFlag} {t : WuFlags}
    (h : f ∈ unsetStep g rem t) : f ∈ t := by
  unfold unsetStep at h
  split at h
  · exact (mem_removeFlags.1 h).1
  · exact h

theorem not_mem_unsetStep {f g : WuFlag} {rem : List WuFlag} {t : WuFlags}
    (h : f ∉ t) : f ∉ unsetStep g rem t :=
  fun hm => h (mem_of_mem_unsetStep hm)

/-- If the trigger flag survives an unset step it was present, so that step
fired: every flag on the step's removal list is absent afterwards. -/
theorem unsetStep_fires {g r : WuFlag} {rem : List WuFlag} {t : WuFlags}
    (hg : g ∈ unsetStep g rem t) (hr : r ∈ rem) : r ∉ unsetStep g rem t := by
  have hgt : g ∈ t := mem_of_mem_unsetStep hg
  have hc : hasFlag t g = true := hasFlag_eq_true_iff.2 (Or.inr hgt)
  unfold unsetStep
  rw [if_pos hc]
  intro hmem
  exact (mem_removeFlags.1 hmem).2 hr

/-- The three suppression invariants of the unset block. -/
theorem unsetFlags_props (t : WuFlags) :
    (WuFlag.nineGates ∈ unsetFlags t → WuFlag.allOneSuit ∉ unsetFlags t) ∧
    (WuFlag.thirteenOrphans ∈ unsetFlags t →
      WuFlag.orphans ∉ unsetFlags t ∧ WuFlag.mixedOrphans ∉ unsetFlags t) ∧
    (WuFlag.selfTriplets ∈ unsetFlags t →
      WuFlag.allInTriplets ∉ unsetFlags t ∧ WuFlag.allFromWall ∉ unsetFlags t)
    := by
  unfold unsetFlags
  refine ⟨?_, ?_, ?_⟩
  · intro h
    have h5 : WuFlag.nineGates ∈
        unsetStep .nineGates [.allOneSuit, .allFromWall]
          (unsetStep .orphans [.allInTriplets]
            (unsetStep .allHonorTiles [.allInTriplets]
              (unsetStep .selfTriplets [.allFromWall, .allInTriplets]
                (unsetStep .smallWinds [.seatWind, .prevailingWind] t)))) :=
      mem_of_mem_unsetStep h
    have : WuFlag.allOneSuit ∉
        unsetStep .nineGates [.allOneSuit, .allFromWall]
          (unsetStep .orphans [.allInTriplets]
            (unsetStep .allHonorTiles [.allInTriplets]
              (unsetStep .selfTriplets [.allFromWall, .allInTriplets]
                (unsetStep .smallWinds [.seatWind, .prevailingWind] t)))) :=
      unsetStep_fires h5 (by simp)
    exact not_mem_unsetStep this
  · intro h
    exact ⟨unsetStep_fires h (by simp), unsetStep_fires h (by simp)⟩
  · intro h
    have h2 : WuFlag.selfTriplets ∈
        unsetStep .selfTriplets [.allFromWall, .allInTriplets]
          (unsetStep .smallWinds [.seatWind, .prevailingWind] t) :=
      mem_of_mem_unsetStep (mem_of_mem_unsetStep
        (mem_of_mem_unsetStep (mem_of_mem_unsetStep h)))
    constructor
    · exact not_mem_unsetStep (not_mem_unsetStep (not_mem_unsetStep
        (not_mem_unsetStep (unsetStep_fires h2 (by simp)))))
    · exact not_mem_unsetStep (not_mem_unsetStep (not_mem_unsetStep
        (not_mem_unsetStep (unsetStep_fires h2 (by simp)))))

/-- C5: for every flag set returned by Wu flag derivation: if NINE_GATES is
present then ALL_ONE_SUIT is absent; if THIRTEEN_ORPHANS is present then
ORPHANS and MIXED_ORPHANS are absent; and if SELF_TRIPLETS is present then
ALL_IN_TRIPLETS and ALL_FROM_WALL are absent. -/
theorem claim_C5 (w : Wu) (choice : List Meld) (winds : Option (Nat × Nat)) :
    (hasFlag (wuFlags w choice winds) .nineGates = true →
      hasFlag (wuFlags w choice winds) .allOneSuit = false) ∧
    (hasFlag (wuFlags w choice winds) .thirteenOrphans = true →
      hasFlag (wuFlags w choice winds) .orphans = false ∧
      hasFlag (wuFlags w choice winds) .mixedOrphans = false) ∧
    (hasFlag (wuFlags w choice winds) .selfTriplets = true →
      hasFlag (wuFlags w choice winds) .allInTriplets = false ∧
      hasFlag (wuFlags w choice winds) .allFromWall = false) := by
  have hp := unsetFlags_props (wuFlagsCore w choice winds)
  rw [wuFlags]
  refine ⟨?_, ?_, ?_⟩
  · intro h
    rcases hasFlag_eq_true_iff.1 h with h' | h'
    · exact absurd h' (by simp)
    · exact hasFlag_eq_false_iff.2 ⟨by simp, hp.1 h'⟩
  · intro h
    rcases hasFlag_eq_true_iff.1 h with h' | h'
    · exact absurd h' (by simp)
    · exact ⟨hasFlag_eq_false_iff.2 ⟨by simp, (hp.2.1 h').1⟩,
        hasFlag_eq_false_iff.2 ⟨by simp, (hp.2.1 h').2⟩⟩
  · intro h
    rcases hasFlag_eq_true_iff.1 h with h' | h'
    · exact absurd h' (by simp)
    · exact ⟨hasFlag_eq_false_iff.2 ⟨by simp, (hp.2.2 h').1⟩,
        hasFlag_eq_false_iff.2 ⟨by simp, (hp.2.2 h').2⟩⟩

/-- C5 witness: a concrete flag derivation in which all three trigger flags
are present, with the suppressed flags checked absent. -/
theorem claim_C5_witness :
    hasFlag (wuFlags c5wu [] none) .allOneSuit = false ∧
    (hasFlag (wuFlags c5wu [] none) .orphans = false ∧
      hasFlag (wuFlags c5wu [] none) .mixedOrphans = false) ∧
    (hasFlag (wuFlags c5wu [] none) .allInTriplets = false ∧
      hasFlag (wuFlags c5wu [] none) .allFromWall = false) :=
  ⟨(claim_C5 c5wu [] none).1 (by decide),
   (claim_C5 c5wu [] none).2.1 (by decide),
   (claim_C5 c5wu [] none).2.2 (by decide)⟩

/-- C6: for the concealed hand tong/1,1,1,2,3,4,5,6,7,8,9,9,9 plus a second
tong/5, Wu construction succeeds — but contrary to the claim the derived
flag set of every decomposition contains ALL_ONE_SUIT and lacks NINE_GATES:
the `all_one_suit` local of `Wu.flags` is initialised `False` (melds.py
line 473) and never set, so the nine-gates branch is dead code.  This
theorem evaluates the code at the failing input. -/
theorem claim_C6 :
    ∃ w, mkWu c6tiles [] none none [] = some w ∧ w.melds ≠ [] ∧
      ∀ c ∈ w.melds, hasFlag (wuFlags w c none) .allOneSuit = true ∧
        hasFlag (wuFlags w c none) .nineGates = false := by
  have hcheck : c6check = true := by decide
  unfold c6check at hcheck
  cases hm : mkWu c6tiles [] none none [] with
  | none => rw [hm] at hcheck; exact absurd hcheck (by simp)
  | some w =>
    rw [hm] at hcheck
    simp only [Bool.and_eq_true, List.all_eq_true] at hcheck
    refine ⟨w, rfl, ?_, ?_⟩
    · intro he
      rw [he] at hcheck
      simp at hcheck
    · intro c hcm
      have h2 := hcheck.2 c hcm
      simp only [Bool.and_eq_true, Bool.not_eq_true'] at h2
      exact h2

/-- C3: the per-flag point table has no entry for GREEN_DRAGON (the dict
literal lists GREAT_WINDS twice instead), so on any flag set produced by
flag derivation that contains GREEN_DRAGON — e.g. any hand with a
green-dragon Pong — the `faan` sum is undefined (`KeyError`), contradicting
the claim that the total is defined for every derived flag set.  This
theorem evaluates the code at the failing input. -/
theorem claim_C3 :
    flagFaan .greenDragon = none ∧
    ∃ w, mkWu c3tiles [] none none [] = some w ∧ w.melds ≠ [] ∧
      ∀ c ∈ w.melds, hasFlag (wuFlags w c none) .greenDragon = true ∧
        faanFn (wuFlags w c none) = none := by
  refine ⟨rfl, ?_⟩
  have hcheck : c3check = true := by decide
  unfold c3check at hcheck
  cases hm : mkWu c3tiles [] none none [] with
  | none => rw [hm] at hcheck; exact absurd hcheck (by simp)
  | some w =>
    rw [hm] at hcheck
    simp only [Bool.and_eq_true, List.all_eq_true] at hcheck
    refine ⟨w, rfl, ?_, ?_⟩
    · intro he
      rw [he] at hcheck
      simp at hcheck
    · intro c hcm
      have h2 := hcheck.2 c hcm
      simp only [Bool.and_eq_true, Option.isNone_iff_eq_none] at h2
      exact h2

/-- C7 counterexample: `wan/2` is a legal 14th tile, but constructing a Wu
from the Thirteen-Orphans reference set together with it fails — the code
requires `set(tiles) == THIRTEEN_ORPHANS`, which a 14th value outside the
thirteen breaks.  The claim, which demands success for every legal 14th
tile, is false at this input. -/
theorem claim_C7_counterexample :
    Tile.valid ⟨.wan, 1⟩ = true ∧
    mkWu (thirteenOrphanTiles ++ [⟨.wan, 1⟩]) [] none none [] = none := by
  constructor
  · decide
  · decide

/-- C7 (amended): for every 14th tile drawn from the thirteen orphan tile
values — exactly the tiles keeping the value set equal to the fixed set —
Wu construction succeeds via the Thirteen-Orphans path, and the
decomposition set is the single-element `_UncheckedWu` decomposition, even
though no melds-plus-eyes decomposition exists. -/
theorem claim_C7 (t : Tile) (ht : t ∈ thirteenOrphanTiles) :
    ∃ w, mkWu (thirteenOrphanTiles ++ [t]) [] none none [] = some w ∧
      w.melds = [[Meld.mk .wu (sortTiles (thirteenOrphanTiles ++ [t]))]] := by
  have hcheck : c7check = true := by decide
  unfold c7check at hcheck
  have h1 := List.all_eq_true.1 hcheck t ht
  cases hm : mkWu (thirteenOrphanTiles ++ [t]) [] none none [] with
  | none => rw [hm] at h1; exact absurd h1 (by simp)
  | some w =>
    rw [hm] at h1
    exact ⟨w, rfl, of_decide_eq_true h1⟩

/-- C7 witness: the amended claim at the concrete 14th tile `tong/1`. -/
theorem claim_C7_witness :
    (⟨.tong, 0⟩ : Tile) ∈ thirteenOrphanTiles ∧
    ∃ w, mkWu (thirteenOrphanTiles ++ [⟨.tong, 0⟩]) [] none none [] = some w ∧
      w.melds =
        [[Meld.mk .wu (sortTiles (thirteenOrphanTiles ++ [⟨.tong, 0⟩]))]] :=
  ⟨by decide, claim_C7 ⟨.tong, 0⟩ (by decide)⟩

/-- C4: on a discard simultaneously completing seat 1's Chow, seat 2's Pong
and seat 3's winning hand, the code offers seat 1 (the Chow) first and seat
3 (the win) last, and an accept-anything driver hands the claim to seat 1 —
the opposite of the claimed Wu > Kong > Pong > Chow priority.  The `order`
list of `Meld.__lt__` ranks Wu strongest, but the comparison returns
`order.index(self) > order.index(other)`, so both sorts in
`check_others_melds` place the weakest claim first.  This theorem evaluates
the code at the failing input. -/
theorem claim_C4 :
    (checkOthersMeldsPairs c4players ⟨.wan, 2⟩ 0).map
        (fun p => (p.1, p.2.display.kind)) =
      [(1, .chow), (2, .pong), (3, .wu)] ∧
    claimSummary (checkOthersMelds c4script c4st ⟨.wan, 2⟩ 0).1 =
      some (1, .chow) := by
  constructor
  · decide
  · decide

theorem mapGet_mapSet (m : List (Nat × Nat)) (k v : Nat) :
    mapGet (mapSet m k v) k = some v := by
  simp [mapGet, mapSet, assocLookup]

/-- C8: drawing from an empty wall ends the turn in the all-`None`
`TurnEnding` (no winner, no Wu), and the hand engine finalises a
winner-less ending as a goulash result with no winner, no Wu and no
choice. -/
theorem claim_C8 :
    (∀ script turncount st p tries,
      drawLoop script turncount [] st p tries =
        .ended TurnEnding.empty
          { st with wall := [], players := setPlayer st.players p.seat p }) ∧
    (∀ script st seat turncount, st.wall = [] →
      (turnExecute script st { seat := some seat } turncount).map Prod.fst =
        some TurnEnding.empty) ∧
    (TurnEnding.empty.winner = none ∧ TurnEnding.empty.wu = none) ∧
    (∀ script st ending wind, ending.winner = none →
      handFinalize script st ending wind = { result := .goulash }) := by
  refine ⟨?_, ?_, ⟨rfl, rfl⟩, ?_⟩
  · intro script turncount st p tries
    rfl
  · intro script st seat turncount h
    simp [turnExecute, h, drawLoop]
  · intro script st ending wind h
    unfold handFinalize
    rw [h]

/-- C8 witness: the empty-wall scenario at concrete inputs. -/
theorem claim_C8_witness :
    (turnExecute c4script c8st { seat := some 0 } 0).map Prod.fst =
      some TurnEnding.empty ∧
    handFinalize c4script c8st TurnEnding.empty 0 = { result := .goulash } :=
  ⟨claim_C8.2.1 c4script c8st 0 0 rfl,
   claim_C8.2.2.2 c4script c8st TurnEnding.empty 0 rfl⟩

/-- C9: claiming a discard — on arrival via a jump, or accepted at the
offer — removes exactly the most recent entry from the shared discard
history and from the parallel discarder history (leaving every earlier
entry unchanged), and popping after a push restores both histories
exactly. -/
theorem claim_C9 :
    (∀ st seat discard meld prevSeat,
      (jumpClaimStep st seat discard meld prevSeat).discarded =
        st.discarded.dropLast ∧
      (jumpClaimStep st seat discard meld prevSeat).discarders =
        st.discarders.dropLast) ∧
    (∀ script st p discard prevSeat item st',
      meldsFromDiscard script st p discard prevSeat = (some item, st') →
      st'.discarded = st.discarded.dropLast ∧
      st'.discarders = st.discarders.dropLast) ∧
    (∀ st t seat,
      (unrecordDiscard (recordDiscard st t seat)).discarded = st.discarded ∧
      (unrecordDiscard (recordDiscard st t seat)).discarders =
        st.discarders) := by
  refine ⟨?_, ?_, ?_⟩
  · intro st seat discard meld prevSeat
    unfold jumpClaimStep
    constructor <;> dsimp only <;> (repeat' split) <;> rfl
  · intro script st p discard prevSeat item st' h
    unfold meldsFromDiscard at h
    dsimp only at h
    split at h
    · exact absurd (congrArg Prod.fst h) (by simp)
    · split at h
      · exact absurd (congrArg Prod.fst h) (by simp)
      · split at h
        · exact absurd (congrArg Prod.fst h) (by simp)
        · have h2 := congrArg Prod.snd h
          simp only at h2
          rw [← h2]
          exact ⟨rfl, rfl⟩
  · intro st t seat
    simp [unrecordDiscard, recordDiscard, List.dropLast_concat]

/-- C9 witness: the jump pop, the offer-accept pop, and the push/pop
round-trip at concrete inputs. -/
theorem claim_C9_witness :
    ((jumpClaimStep c9st 1 ⟨.wan, 0⟩ c9pong 0).discarded =
        c9st.discarded.dropLast ∧
      (jumpClaimStep c9st 1 ⟨.wan, 0⟩ c9pong 0).discarders =
        c9st.discarders.dropLast) ∧
    (c9res.2.discarded = c9st.discarded.dropLast ∧
      c9res.2.discarders = c9st.discarders.dropLast) ∧
    ((unrecordDiscard (recordDiscard c9st ⟨.wan, 3⟩ 1)).discarded =
        c9st.discarded ∧
      (unrecordDiscard (recordDiscard c9st ⟨.wan, 3⟩ 1)).discarders =
        c9st.discarders) :=
  ⟨claim_C9.1 c9st 1 ⟨.wan, 0⟩ c9pong 0,
   claim_C9.2.1 c9script c9st c9p ⟨.wan, 0⟩ (some 0) (.cm c9pong) c9res.2
     (by decide),
   claim_C9.2.2 c9st ⟨.wan, 3⟩ 1⟩

/-- C10: a Kong claimed from a tile with no earlier appearance in the
discard history records the discarder (one discard back) as the claimant's
kong-giver — but, contrary to the claim's second half, a self-draw win on
the compensation draw after a discard-claimed Kong does *not* carry
GAVE_KONG (nor BY_KONG, nor a penalised discarder): the draw loop enters
with `tries == 0`, and the GAVE_KONG branch requires `tries >= 1`.  The
second conjunct evaluates the code at the failing input. -/
theorem claim_C10 :
    (∀ script st discard victim s item st',
      checkOthersMelds script st discard victim = (.claimed s item, st') →
      item.display.kind = .kong →
      discard ∉ st.discarded.dropLast →
      mapGet st'.gaveKong s = some victim) ∧
    (∃ e st', turnExecute c10script c10st c10ending 5 = some (e, st') ∧
      e.winner = some 1 ∧
      ∃ w, e.wu = some w ∧ hasFlag w.baseFlags .gaveKong = false ∧
        hasFlag w.baseFlags .byKong = false ∧ w.discarder = none) := by
  constructor
  · intro script st discard victim s item st' h hkong hmem
    unfold checkOthersMelds at h
    dsimp only at h
    split at h
    · rename_i so itemo heq
      injection h with h1 h2
      injection h1 with hs hitem
      subst hs
      subst hitem
      rw [← h2]
      rw [if_pos ⟨hkong, hmem⟩]
      exact mapGet_mapSet st.gaveKong so victim
    · injection h with h1 h2
      exact absurd h1 (by simp)
  · have hcheck : c10check = true := by decide
    unfold c10check at hcheck
    cases hm : turnExecute c10script c10st c10ending 5 with
    | none => rw [hm] at hcheck; exact absurd hcheck (by simp)
    | some r =>
      rw [hm] at hcheck
      refine ⟨r.1, r.2, by rw [← hm], ?_⟩
      rcases r with ⟨e, st'⟩
      simp only [Bool.and_eq_true, decide_eq_true_eq] at hcheck
      cases hw : e.wu with
      | none => rw [hw] at hcheck; simp at hcheck
      | some w =>
        rw [hw] at hcheck
        simp only [Bool.and_eq_true, Bool.not_eq_true',
          Option.isNone_iff_eq_none] at hcheck
        exact ⟨hcheck.1, w, rfl, hcheck.2.1.1, hcheck.2.1.2, hcheck.2.2⟩

/-- C10 witness: the recording half at concrete inputs — seat 2 kongs seat
0's fresh discard and seat 0 is recorded as seat 2's kong-giver. -/
theorem claim_C10_witness :
    mapGet c10wres.2.gaveKong 2 = some 0 :=
  claim_C10.1 c10wscript c10wst ⟨.wan, 0⟩ 0 2 (.cm c10wkong) c10wres.2
    (by decide) (by decide) (by decide)

/-! ### Basic facts about the meld constructors and sorting -/

theorem noBonus_iff {s : List Tile} :
    noBonus s = true ↔ ∀ t ∈ s, t.suit.isBonus = false := by
  simp [noBonus]

theorem sortTiles_pairwise (l : List Tile)
    (hnb : ∀ t ∈ l, t.suit.isBonus = false) :
    (sortTiles l).Pairwise (fun a b => Tile.le a b = true) := by
  refine insertionSortB_pairwise Tile.le l ?_ ?_
  · intro a ha b hb
    exact tile_le_total a b (hnb a ha) (hnb b hb)
  · intro a ha b hb c hc
    exact tile_le_trans a b c (hnb a ha) (hnb b hb) (hnb c hc)

theorem sortTiles_idem (l : List Tile)
    (hnb : ∀ t ∈ l, t.suit.isBonus = false) :
    sortTiles (sortTiles l) = sortTiles l := by
  exact insertionSortB_of_pairwise Tile.le (sortTiles l) (sortTiles_pairwise l hnb)

theorem mkSameNum_some {kind : MeldKind} {k : Nat} {ts : List Tile} {m : Meld}
    (h : mkSameNum kind k ts = some m) :
    m = ⟨kind, sortTiles ts⟩ ∧ (sortTiles ts).length = k ∧
      noBonus (sortTiles ts) = true ∧ sameNum (sortTiles ts) = true := by
  unfold mkSameNum at h
  dsimp only at h
  split at h
  · rename_i hc
    simp only [Bool.and_eq_true, decide_eq_true_eq] at hc
    injection h with h1
    exact ⟨h1.symm, hc.1.1, hc.1.2, hc.2⟩
  · exact absurd h (by simp)

theorem mkChow_some {ts : List Tile} {m : Meld} (h : mkChow ts = some m) :
    m = ⟨.chow, sortTiles ts⟩ ∧ (sortTiles ts).length = 3 ∧
      noBonus (sortTiles ts) = true ∧ chowRun (sortTiles ts) = true := by
  unfold mkChow at h
  dsimp only at h
  split at h
  · rename_i hc
    simp only [Bool.and_eq_true, decide_eq_true_eq] at hc
    injection h with h1
    exact ⟨h1.symm, hc.1.1, hc.1.2, hc.2⟩
  · exact absurd h (by simp)

theorem mkSameNum_tiles_perm {kind : MeldKind} {k : Nat} {ts : List Tile}
    {m : Meld} (h : mkSameNum kind k ts = some m) : m.tiles.Perm ts := by
  rw [(mkSameNum_some h).1]
  exact sortTiles_perm ts

theorem mkChow_tiles_perm {ts : List Tile} {m : Meld}
    (h : mkChow ts = some m) : m.tiles.Perm ts := by
  rw [(mkChow_some h).1]
  exact sortTiles_perm ts

theorem mkSameNum_idem {kind : MeldKind} {k : Nat} {ts : List Tile} {m : Meld}
    (h : mkSameNum kind k ts = some m) : mkSameNum kind k m.tiles = some m := by
  obtain ⟨hm, hlen, hnb, hsn⟩ := mkSameNum_some h
  have hnb' : ∀ t ∈ sortTiles ts, t.suit.isBonus = false := noBonus_iff.1 hnb
  have hsorted : sortTiles (sortTiles ts) = sortTiles ts := sortTiles_idem ts
    (fun t ht => hnb' t ((sortTiles_perm ts).mem_iff.2 ht))
  subst hm
  unfold mkSameNum
  dsimp only
  rw [hsorted, if_pos (by simp [hlen, hnb, hsn])]

theorem mkChow_idem {ts : List Tile} {m : Meld} (h : mkChow ts = some m) :
    mkChow m.tiles = some m := by
  obtain ⟨hm, hlen, hnb, hcr⟩ := mkChow_some h
  have hnb' : ∀ t ∈ sortTiles ts, t.suit.isBonus = false := noBonus_iff.1 hnb
  have hsorted : sortTiles (sortTiles ts) = sortTiles ts := sortTiles_idem ts
    (fun t ht => hnb' t ((sortTiles_perm ts).mem_iff.2 ht))
  subst hm
  unfold mkChow
  dsimp only
  rw [hsorted, if_pos (by simp [hlen, hnb, hcr])]

theorem getTriplet_isPKC {ts : List Tile} {m : Meld}
    (h : getTriplet ts = some m) : IsPongKongChow m ∧ m.tiles.Perm ts := by
  unfold getTriplet at h
  cases hp : mkPong ts with
  | some m' =>
    rw [hp] at h
    injection h with h1
    subst h1
    exact ⟨Or.inl (mkSameNum_idem hp), mkSameNum_tiles_perm hp⟩
  | none =>
    rw [hp] at h
    exact ⟨Or.inr (Or.inr (mkChow_idem h)), mkChow_tiles_perm h⟩

theorem mkKong_isPKC {ts : List Tile} {m : Meld} (h : mkKong ts = some m) :
    IsPongKongChow m ∧ m.tiles.Perm ts :=
  ⟨Or.inr (Or.inl (mkSameNum_idem h)), mkSameNum_tiles_perm h⟩

/-! ### Index enumeration and removal -/

theorem mem_drop_range {n m x : Nat} : x ∈ (List.range n).drop m ↔ (m ≤ x ∧ x < n) := by
  rw [List.mem_iff_getElem]
  constructor
  · rintro ⟨i, hi, hget⟩
    have hlen : ((List.range n).drop m).length = n - m := by simp
    have hmi : m + i < (List.range n).length := by
      simp only [List.length_range]
      omega
    rw [List.getElem_drop, List.getElem_range] at hget
    omega
  · rintro ⟨h1, h2⟩
    have hlen : ((List.range n).drop m).length = n - m := by simp
    refine ⟨x - m, by omega, ?_⟩
    have hmi : m + (x - m) < (List.range n).length := by
      simp only [List.length_range]
      omega
    rw [List.getElem_drop, List.getElem_range]
    omega

theorem mem_pairsUpto {n a b : Nat} :
    (a, b) ∈ pairsUpto n ↔ a < b ∧ b < n := by
  simp only [pairsUpto, List.mem_flatMap, List.mem_map, List.mem_range]
  constructor
  · rintro ⟨i, hi, j, hj, heq⟩
    injection heq with h1 h2
    subst h1
    subst h2
    rw [mem_drop_range] at hj
    omega
  · rintro ⟨hab, hbn⟩
    refine ⟨a, by omega, b, ?_, rfl⟩
    rw [mem_drop_range]
    omega

theorem mem_triplesUpto {n a b c : Nat} :
    (a, b, c) ∈ triplesUpto n ↔ a < b ∧ b < c ∧ c < n := by
  simp only [triplesUpto, List.mem_flatMap, List.mem_map, List.mem_range]
  constructor
  · rintro ⟨i, hi, j, hj, k, hk, heq⟩
    injection heq with h1 h2
    injection h2 with h2 h3
    subst h1
    subst h2
    subst h3
    rw [mem_drop_range] at hj hk
    omega
  · rintro ⟨hab, hbc, hcn⟩
    refine ⟨a, by omega, b, ?_, c, ?_, rfl⟩
    · rw [mem_drop_range]
      omega
    · rw [mem_drop_range]
      omega

theorem removeIdxsAux_of_gt (e1 e2 : Nat) :
    ∀ (l : List Tile) (i : Nat), e1 < i → e2 < i →
      removeIdxsAux e1 e2 i l = l := by
  intro l
  induction l with
  | nil => intro i h1 h2; rfl
  | cons t rest ih =>
    intro i h1 h2
    unfold removeIdxsAux
    rw [if_neg (by omega), ih (i + 1) (by omega) (by omega)]

theorem removeIdxsAux_perm_one (e1 e2 : Nat) (d : Tile) :
    ∀ (l : List Tile) (i : Nat), e1 < i → i ≤ e2 → e2 < i + l.length →
      l.Perm (l.getD (e2 - i) d :: removeIdxsAux e1 e2 i l) := by
  intro l
  induction l with
  | nil => intro i h1 h2 h3; simp at h3; omega
  | cons t rest ih =>
    intro i h1 h2 h3
    by_cases hie : i = e2
    · unfold removeIdxsAux
      rw [if_pos (Or.inr hie), removeIdxsAux_of_gt e1 e2 rest (i + 1)
        (by omega) (by omega)]
      have h0 : e2 - i = 0 := by omega
      rw [h0]
      simp
    · have he2 : i < e2 := by omega
      unfold removeIdxsAux
      rw [if_neg (by omega)]
      have hlt : e2 - i ≠ 0 := by omega
      have hgd : (t :: rest).getD (e2 - i) d = rest.getD (e2 - (i + 1)) d := by
        cases hn : e2 - i with
        | zero => omega
        | succ n =>
          simp only [List.getD_cons_succ]
          congr 1
          omega
      rw [hgd]
      have hrest := ih (i + 1) (by omega) (by omega) (by simp at h3 ⊢; omega)
      exact (hrest.cons t).trans (List.Perm.swap _ _ _)

theorem removeIdxsAux_perm_two (e1 e2 : Nat) (d : Tile) :
    ∀ (l : List Tile) (i : Nat), i ≤ e1 → e1 < e2 → e2 < i + l.length →
      l.Perm (l.getD (e1 - i) d :: l.getD (e2 - i) d ::
        removeIdxsAux e1 e2 i l) := by
  intro l
  induction l with
  | nil => intro i h1 h2 h3; simp at h3; omega
  | cons t rest ih =>
    intro i h1 h2 h3
    by_cases hie : i = e1
    · unfold removeIdxsAux
      rw [if_pos (Or.inl hie)]
      have h0 : e1 - i = 0 := by omega
      rw [h0]
      simp only [List.getD_cons_zero]
      have hgd : (t :: rest).getD (e2 - i) d = rest.getD (e2 - (i + 1)) d := by
        cases hn : e2 - i with
        | zero => omega
        | succ n =>
          simp only [List.getD_cons_succ]
          congr 1
          omega
      rw [hgd]
      exact (removeIdxsAux_perm_one e1 e2 d rest (i + 1) (by omega) (by omega)
        (by simp at h3 ⊢; omega)).cons t
    · have he1 : i < e1 := by omega
      unfold removeIdxsAux
      rw [if_neg (by omega)]
      have hgd1 : (t :: rest).getD (e1 - i) d = rest.getD (e1 - (i + 1)) d := by
        cases hn : e1 - i with
        | zero => omega
        | succ n =>
          simp only [List.getD_cons_succ]
          congr 1
          omega
      have hgd2 : (t :: rest).getD (e2 - i) d = rest.getD (e2 - (i + 1)) d := by
        cases hn : e2 - i with
        | zero => omega
        | succ n =>
          simp only [List.getD_cons_succ]
          congr 1
          omega
      rw [hgd1, hgd2]
      have hrest := ih (i + 1) (by omega) (by omega) (by simp at h3 ⊢; omega)
      exact (hrest.cons t).trans ((List.Perm.swap _ _ _).trans
        (List.Perm.cons _ (List.Perm.swap _ _ _)))

/-- Removing the two eyes positions: the tiles split as the two picked
tiles plus the remainder. -/
theorem removeIdxs_perm (l : List Tile) (e1 e2 : Nat) (h12 : e1 < e2)
    (h2 : e2 < l.length) :
    l.Perm (l.getD e1 ⟨.wan, 0⟩ :: l.getD e2 ⟨.wan, 0⟩ ::
      removeIdxs l e1 e2) := by
  have := removeIdxsAux_perm_two e1 e2 ⟨.wan, 0⟩ l 0 (by omega) h12
    (by omega)
  simpa [removeIdxs] using this

/-! ### Soundness of the meld-position search -/

theorem tilesAt_length (ts : List Tile) (idxs : List Nat) :
    (tilesAt ts idxs).length = idxs.length := by
  simp [tilesAt]

theorem tilesAt_range (ts : List Tile) :
    tilesAt ts (List.range ts.length) = ts := by
  induction ts with
  | nil => rfl
  | cons t rest ih =>
    rw [List.length_cons, List.range_succ_eq_map]
    unfold tilesAt
    simp only [List.map_cons, List.getD_cons_zero, List.map_map]
    have hfun : ∀ i ∈ List.range rest.length,
        ((fun i => (t :: rest).getD i ⟨.wan, 0⟩) ∘ Nat.succ) i =
          (fun i => rest.getD i ⟨.wan, 0⟩) i := by
      intro i hi
      simp
    rw [List.map_congr_left hfun]
    exact congrArg (List.cons t) ih

theorem firstDupe_eq_false {l : List Nat} :
    ∀ {cov : List Nat}, firstDupe cov l = false →
      l.Nodup ∧ ∀ i ∈ l, i ∉ cov := by
  induction l with
  | nil => intro cov _; simp
  | cons i rest ih =>
    intro cov h
    unfold firstDupe at h
    split at h
    · exact absurd h (by simp)
    · rename_i hni
      obtain ⟨hnd, hcov⟩ := ih h
      refine ⟨List.nodup_cons.2 ⟨?_, hnd⟩, ?_⟩
      · intro hir
        exact (hcov i hir) (List.mem_cons_self i cov)
      · intro j hj
        rcases List.mem_cons.1 hj with h' | h'
        · exact h' ▸ hni
        · intro hjc
          exact (hcov j h') (List.mem_cons_of_mem i hjc)

theorem findKongUpgrade_some {ts : List Tile}
    {trips : List (List Nat × Meld)} {t1 t2 t3 : Nat}
    {entry : List Nat × Meld}
    (h : findKongUpgrade ts trips t1 t2 t3 = some entry) :
    ∃ t4, t3 < t4 ∧ t4 < ts.length ∧ entry.1 = [t1, t2, t3, t4] ∧
      mkKong (tilesAt ts entry.1) = some entry.2 := by
  unfold findKongUpgrade at h
  obtain ⟨t4, ht4, hbody⟩ := List.exists_of_findSome?_eq_some h
  rw [mem_drop_range] at ht4
  refine ⟨t4, by omega, by omega, ?_⟩
  dsimp only at hbody
  split at hbody
  · exact absurd hbody (by simp)
  · cases hk : mkKong (tilesAt ts [t1, t2, t3, t4]) with
    | none => rw [hk] at hbody; exact absurd hbody (by simp)
    | some m =>
      rw [hk] at hbody
      injection hbody with h1
      subst h1
      exact ⟨rfl, hk⟩

theorem tripStep_ok (ts : List Tile) (trips : List (List Nat × Meld))
    (t : Nat × Nat × Nat) (ht : t ∈ triplesUpto ts.length)
    (hall : ∀ e ∈ trips, TripEntryOK ts e) :
    ∀ e ∈ tripStep ts trips t, TripEntryOK ts e := by
  rcases t with ⟨t1, t2, t3⟩
  obtain ⟨h12, h23, h3n⟩ := mem_triplesUpto.1 ht
  intro e he
  unfold tripStep at he
  dsimp only at he
  split at he
  · exact hall e he
  · split at he
    · exact hall e he
    · rename_i m hm
      have hkey3 : TripEntryOK ts ([t1, t2, t3], m) := by
        obtain ⟨hpkc, hperm⟩ := getTriplet_isPKC hm
        refine ⟨by simp; omega, ?_, hperm, hpkc, ?_⟩
        · intro i hi
          simp only [List.mem_cons, List.not_mem_nil, or_false] at hi
          rcases hi with h' | h' | h' <;> omega
        · rw [hperm.length_eq, tilesAt_length]
      split at he
      · split at he
        · rename_i entry hfk
          rcases List.mem_append.1 he with h' | h'
          · exact hall e h'
          · rw [List.mem_singleton.1 h']
            obtain ⟨t4, h34, h4n, hkey, hkong⟩ := findKongUpgrade_some hfk
            obtain ⟨hpkc, hperm⟩ := mkKong_isPKC hkong
            refine ⟨?_, ?_, hperm, hpkc, ?_⟩
            · rw [hkey]
              simp only [List.nodup_cons, List.mem_cons, List.not_mem_nil,
                or_false, List.nodup_nil, and_true, not_or, not_false_eq_true]
              omega
            · intro i hi
              rw [hkey] at hi
              simp only [List.mem_cons, List.not_mem_nil, or_false] at hi
              rcases hi with h' | h' | h' | h' <;> omega
            · rw [hperm.length_eq, tilesAt_length]
        · rcases List.mem_append.1 he with h' | h'
          · exact hall e h'
          · rw [List.mem_singleton.1 h']
            exact hkey3
      · rcases List.mem_append.1 he with h' | h'
        · exact hall e h'
        · rw [List.mem_singleton.1 h']
          exact hkey3

theorem trips_fold_ok (ts : List Tile) :
    ∀ (l : List (Nat × Nat × Nat)) (trips : List (List Nat × Meld)),
      (∀ t ∈ l, t ∈ triplesUpto ts.length) →
      (∀ e ∈ trips, TripEntryOK ts e) →
      ∀ e ∈ l.foldl (tripStep ts) trips, TripEntryOK ts e := by
  intro l
  induction l with
  | nil => intro trips _ hall e he; exact hall e he
  | cons t rest ih =>
    intro trips hl hall e he
    rw [List.foldl_cons] at he
    exact ih (tripStep ts trips t)
      (fun x hx => hl x (List.mem_cons_of_mem t hx))
      (tripStep_ok ts trips t (hl t (List.mem_cons_self t rest)) hall) e he

theorem allMeldsPos_sound {ts : List Tile} {e : Meld × List Nat}
    (h : e ∈ allMeldsPos ts) : TripEntryOK ts (e.2, e.1) := by
  unfold allMeldsPos at h
  rw [mem_insertionSortB] at h
  obtain ⟨p, hp, heq⟩ := List.mem_map.1 h
  have hok := trips_fold_ok ts (triplesUpto ts.length) []
    (fun t ht => ht) (by simp) p hp
  rw [← heq]
  exact hok

/-! ### Soundness of the eyes enumeration and of `Wu` construction -/

theorem flatten_map_perm {α β : Type} (L : List α) (f g : α → List β)
    (h : ∀ x ∈ L, (f x).Perm (g x)) :
    ((L.map f).flatten).Perm ((L.map g).flatten) := by
  induction L with
  | nil => simp
  | cons x rest ih =>
    simp only [List.map_cons, List.flatten_cons]
    exact (h x (List.mem_cons_self x rest)).append
      (ih (fun y hy => h y (List.mem_cons_of_mem x hy)))

theorem flatten_map_length_eq {α β γ : Type} (L : List α) (f : α → List β)
    (g : α → List γ) (h : ∀ x ∈ L, (f x).length = (g x).length) :
    ((L.map f).flatten).length = ((L.map g).flatten).length := by
  induction L with
  | nil => rfl
  | cons x rest ih =>
    simp only [List.map_cons, List.flatten_cons, List.length_append]
    rw [h x (List.mem_cons_self x rest),
      ih (fun y hy => h y (List.mem_cons_of_mem x hy))]

theorem perm_all_eq {α : Type} [DecidableEq α] {l l' : List α}
    (h : l.Perm l') (p : α → Bool) : l.all p = l'.all p := by
  rcases hb : l'.all p with _ | _
  · rw [Bool.eq_false_iff]
    intro hc
    rw [List.all_eq_true] at hc
    rw [Bool.eq_false_iff] at hb
    exact hb (List.all_eq_true.2 fun x hx => hc x (h.mem_iff.2 hx))
  · exact List.all_eq_true.2 fun x hx =>
      List.all_eq_true.1 hb x (h.mem_iff.1 hx)

theorem sameTileSet_perm_left {a a' b : List Tile} (hp : a.Perm a') :
    sameTileSet a b = sameTileSet a' b := by
  unfold sameTileSet
  rw [perm_all_eq hp]
  have : ∀ t : Tile, (decide (t ∈ a) : Bool) = decide (t ∈ a') := by
    intro t
    exact decide_eq_decide.2 hp.mem_iff
  have hb : b.all (fun t => decide (t ∈ a)) = b.all (fun t => decide (t ∈ a'))
      := by
    rcases hall : b.all (fun t => decide (t ∈ a')) with _ | _
    · rw [Bool.eq_false_iff]
      intro hc
      rw [List.all_eq_true] at hc
      rw [Bool.eq_false_iff] at hall
      refine hall (List.all_eq_true.2 fun x hx => ?_)
      rw [← this x]
      exact hc x hx
    · refine List.all_eq_true.2 fun x hx => ?_
      rw [this x]
      exact List.all_eq_true.1 hall x hx
  rw [hb]

theorem mkWu_some {tiles : List Tile} {fixed : List Meld}
    {arrived : Option Tile} {discarder : Option Nat} {flags : WuFlags}
    {w : Wu} (h : mkWu tiles fixed arrived discarder flags = some w) :
    w = ⟨sortTiles tiles, fixed, arrived, discarder, flags,
         wuMeldsOf (sortTiles tiles) fixed⟩ ∧
    wuMeldsOf (sortTiles tiles) fixed ≠ [] := by
  unfold mkWu at h
  dsimp only at h
  split at h
  · split at h
    · exact absurd h (by simp)
    · rename_i hne
      injection h with h1
      refine ⟨h1.symm, ?_⟩
      intro hc
      exact hne (by rw [hc]; rfl)
  · exact absurd h (by simp)

theorem validCombos_cases {tiles : List Tile} {fixed : List Meld}
    {c : List Meld} (h : c ∈ validCombos tiles fixed) :
    c ∈ ((pairsUpto tiles.length).foldl (eyesStep tiles fixed) ([], [])).2 ∨
    sameTileSet tiles thirteenOrphanTiles = true := by
  unfold validCombos at h
  dsimp only at h
  rcases List.mem_append.1 h with h' | h'
  · exact Or.inl h'
  · right
    split at h'
    · assumption
    · simp at h'

/-- What any combo emitted by the eyes enumeration looks like. -/
theorem eyes_fold_sound (tiles : List Tile) (fixed : List Meld) :
    ∀ (l : List (Nat × Nat)) (s : List Meld × List (List Meld))
      (c : List Meld), c ∈ (l.foldl (eyesStep tiles fixed) s).2 →
      c ∈ s.2 ∨ ∃ e ∈ l, ∃ eyes,
        mkEyes [tiles.getD e.1 ⟨.wan, 0⟩, tiles.getD e.2 ⟨.wan, 0⟩] =
          some eyes ∧
        ∃ combo ∈ List.sublistsLen (4 - fixed.length)
            (allMeldsPos (removeIdxs tiles e.1 e.2)),
          hasDupIdxs combo = false ∧
          (combo.map fun p => p.1.tiles).flatten.length = tiles.length - 2 ∧
          c = (combo.map fun p => p.1) ++ fixed ++ [eyes] := by
  intro l
  induction l with
  | nil => intro s c hc; exact Or.inl hc
  | cons e rest ih =>
    intro s c hc
    rw [List.foldl_cons] at hc
    rcases ih (eyesStep tiles fixed s e) c hc with h' | h'
    · unfold eyesStep at h'
      dsimp only at h'
      split at h'
      · exact Or.inl h'
      · rename_i eyes heyes
        split at h'
        · exact Or.inl h'
        · dsimp only at h'
          rcases List.mem_append.1 h' with h2 | h2
          · exact Or.inl h2
          · right
            refine ⟨e, List.mem_cons_self e rest, eyes, heyes, ?_⟩
            obtain ⟨combo, hcombo, hf⟩ := List.mem_filterMap.1 h2
            refine ⟨combo, hcombo, ?_⟩
            split at hf
            · exact absurd hf (by simp)
            · split at hf
              · exact absurd hf (by simp)
              · rename_i hdup hlen
                injection hf with hf1
                exact ⟨Bool.of_not_eq_true hdup, by omega, hf1.symm⟩
    · obtain ⟨e', he', rest'⟩ := h'
      exact Or.inr ⟨e', List.mem_cons_of_mem e he', rest'⟩

/-- A duplicate-free combo whose melds' tiles jointly have the length of
`ts` covers every index exactly once, so its meld tiles permute `ts`. -/
theorem combo_tiles_perm {ts : List Tile} {combo : List (Meld × List Nat)}
    (hok : ∀ p ∈ combo, TripEntryOK ts (p.2, p.1))
    (hdup : hasDupIdxs combo = false)
    (hlen : ((combo.map fun p => p.1.tiles).flatten).length = ts.length) :
    ts.Perm (((combo.map fun p => p.1).map Meld.tiles).flatten) := by
  unfold hasDupIdxs at hdup
  obtain ⟨hnd, -⟩ := firstDupe_eq_false hdup
  have hbound : ∀ i ∈ ((combo.map fun p => p.2).flatten), i < ts.length := by
    intro i hi
    rw [List.mem_flatten] at hi
    obtain ⟨l, hl, hil⟩ := hi
    obtain ⟨p, hp, hpl⟩ := List.mem_map.1 hl
    exact (hok p hp).2.1 i (hpl ▸ hil)
  have hJlen : ((combo.map fun p => p.2).flatten).length = ts.length := by
    rw [flatten_map_length_eq combo (fun p => p.2) (fun p => p.1.tiles)
      (fun p hp => ((hok p hp).2.2.2.2).symm)]
    exact hlen
  have hrange : ((combo.map fun p => p.2).flatten).Perm
      (List.range ts.length) := by
    refine (hnd.subperm ?_).perm_of_length_le ?_
    · intro i hi
      exact List.mem_range.2 (hbound i hi)
    · rw [List.length_range, hJlen]
  have hAt : (tilesAt ts ((combo.map fun p => p.2).flatten)).Perm
      (tilesAt ts (List.range ts.length)) :=
    hrange.map fun i => ts.getD i ⟨.wan, 0⟩
  rw [tilesAt_range ts] at hAt
  have h5 : tilesAt ts ((combo.map fun p => p.2).flatten) =
      ((combo.map fun p => tilesAt ts p.2).flatten) := by
    simp only [tilesAt, List.map_flatten, List.map_map]
    rfl
  have h7 : (((combo.map fun p => p.1.tiles)).flatten).Perm
      (((combo.map fun p => tilesAt ts p.2)).flatten) :=
    flatten_map_perm combo _ _ fun p hp => (hok p hp).2.2.1
  rw [h5] at hAt
  have h6 : ((combo.map fun p => p.1).map Meld.tiles) =
      (combo.map fun p => p.1.tiles) := by
    rw [List.map_map]
    rfl
  rw [h6]
  exact (h7.trans hAt).symm

/-- C2: every successfully constructed `Wu` has a non-empty decomposition
set, and its concealed tiles are either expressible as one valid Eyes pair
plus the required number (4 minus the fixed melds) of valid
Pong/Kong/Chow melds, or equal as a tile set to the fixed Thirteen-Orphans
set; contrapositively, construction fails on any other concealed tile
set. -/
theorem claim_C2 (tiles : List Tile) (fixed : List Meld)
    (arrived : Option Tile) (discarder : Option Nat) (flags : WuFlags)
    (w : Wu) (h : mkWu tiles fixed arrived discarder flags = some w) :
    w.melds ≠ [] ∧
    (Expressible tiles (4 - fixed.length) ∨
     sameTileSet tiles thirteenOrphanTiles = true) := by
  obtain ⟨hw, hne⟩ := mkWu_some h
  constructor
  · rw [hw]
    exact hne
  · have hvc : validCombos (sortTiles tiles) fixed ≠ [] := by
      intro hc
      apply hne
      unfold wuMeldsOf
      rw [hc]
      rfl
    obtain ⟨c, hc⟩ := List.exists_mem_of_ne_nil _ hvc
    rcases validCombos_cases hc with h' | h'
    · rcases eyes_fold_sound (sortTiles tiles) fixed _ _ c h' with h0 | h0
      · exact absurd h0 (List.not_mem_nil c)
      · obtain ⟨e, he, eyes, heyes, combo, hcombo, hdup, hlen, -⟩ := h0
        obtain ⟨e1, e2⟩ := e
        rw [mem_pairsUpto] at he
        obtain ⟨h12, h2len⟩ := he
        left
        obtain ⟨hsubl, hclen⟩ := List.mem_sublistsLen.1 hcombo
        have hok : ∀ p ∈ combo,
            TripEntryOK (removeIdxs (sortTiles tiles) e1 e2) (p.2, p.1) :=
          fun p hp => allMeldsPos_sound (hsubl.mem hp)
        have hrm := removeIdxs_perm (sortTiles tiles) e1 e2 h12 h2len
        have hrmlen : (removeIdxs (sortTiles tiles) e1 e2).length =
            (sortTiles tiles).length - 2 := by
          have hl2 := hrm.length_eq
          simp only [List.length_cons] at hl2
          omega
        have hperm := combo_tiles_perm hok hdup (by rw [hlen, hrmlen])
        refine ⟨eyes, combo.map fun p => p.1, ?_, ?_, ?_, ?_⟩
        · exact mkSameNum_idem heyes
        · rw [List.length_map]
          exact hclen
        · intro m hm
          obtain ⟨p, hp, hpm⟩ := List.mem_map.1 hm
          rw [← hpm]
          exact (hok p hp).2.2.2.1
        · have h1 : tiles.Perm (sortTiles tiles) := (sortTiles_perm tiles).symm
          have heyesperm : eyes.tiles.Perm
              [(sortTiles tiles).getD e1 ⟨.wan, 0⟩,
               (sortTiles tiles).getD e2 ⟨.wan, 0⟩] :=
            mkSameNum_tiles_perm heyes
          have hstep : (((sortTiles tiles).getD e1 ⟨.wan, 0⟩ ::
              (sortTiles tiles).getD e2 ⟨.wan, 0⟩ ::
              removeIdxs (sortTiles tiles) e1 e2)).Perm
              (eyes.tiles ++
                (((combo.map fun p => p.1).map Meld.tiles).flatten)) :=
            heyesperm.symm.append hperm
          exact (h1.trans hrm).trans hstep
    · right
      rw [sameTileSet_perm_left (sortTiles_perm tiles).symm]
      exact h'

/-- C2 witness: applying the theorem to a concrete winning hand. -/
theorem claim_C2_witness :
    ∃ w, mkWu c2tiles [] none none [] = some w ∧ w.melds ≠ [] ∧
      (Expressible c2tiles (4 - ([] : List Meld).length) ∨
       sameTileSet c2tiles thirteenOrphanTiles = true) := by
  have hs : (mkWu c2tiles [] none none []).isSome = true := by decide
  obtain ⟨w, hw⟩ := Option.isSome_iff_exists.1 hs
  exact ⟨w, hw, claim_C2 c2tiles [] none none [] w hw⟩

/-! ### Order theory for melds: `Meld.le` is a linear order on bonus-free
melds, so `sortMelds` is determined by the multiset being sorted -/

theorem tile_lt_trans (a b c : Tile) :
    Tile.lt a b = true → Tile.lt b c = true → Tile.lt a c = true := by
  rcases a with ⟨sa, na⟩
  rcases b with ⟨sb, nb⟩
  rcases c with ⟨sc, nc⟩
  cases sa <;> cases sb <;> cases sc <;>
    simp_all [Tile.lt, suitOrder] <;> omega

theorem tileListLt_asymm : ∀ (as bs : List Tile),
    tileListLt as bs = true → tileListLt bs as = true → False
  | [], [], h1, _ => by simp [tileListLt] at h1
  | [], _ :: _, _, h2 => by simp [tileListLt] at h2
  | _ :: _, [], h1, _ => by simp [tileListLt] at h1
  | a :: as, b :: bs, h1, h2 => by
    unfold tileListLt at h1 h2
    by_cases hab : a = b
    · rw [if_pos hab] at h1
      rw [if_pos hab.symm] at h2
      exact tileListLt_asymm as bs h1 h2
    · rw [if_neg hab] at h1
      rw [if_neg (fun h => hab h.symm)] at h2
      exact tile_lt_asymm a b h1 h2

theorem tileListLt_trich : ∀ (as bs : List Tile),
    (∀ t ∈ as, t.suit.isBonus = false) →
    (∀ t ∈ bs, t.suit.isBonus = false) →
    tileListLt as bs = true ∨ as = bs ∨ tileListLt bs as = true
  | [], [], _, _ => Or.inr (Or.inl rfl)
  | [], _ :: _, _, _ => Or.inl (by simp [tileListLt])
  | _ :: _, [], _, _ => Or.inr (Or.inr (by simp [tileListLt]))
  | a :: as, b :: bs, ha, hb => by
    by_cases hab : a = b
    · subst hab
      rcases tileListLt_trich as bs
          (fun t ht => ha t (List.mem_cons_of_mem a ht))
          (fun t ht => hb t (List.mem_cons_of_mem a ht)) with h | h | h
      · left
        unfold tileListLt
        rw [if_pos rfl]
        exact h
      · right
        left
        rw [h]
      · right
        right
        unfold tileListLt
        rw [if_pos rfl]
        exact h
    · rcases tile_lt_trichotomy a b (ha a (List.mem_cons_self a as))
          (hb b (List.mem_cons_self b bs)) with h | h | h
      · left
        unfold tileListLt
        rw [if_neg hab]
        exact h
      · exact absurd h hab
      · right
        right
        unfold tileListLt
        rw [if_neg (fun hc => hab hc.symm)]
        exact h

theorem tileListLt_trans : ∀ (as bs cs : List Tile),
    tileListLt as bs = true → tileListLt bs cs = true →
    tileListLt as cs = true
  | [], _, [], _, h2 => by
    cases hbs : ‹List Tile› <;> simp_all [tileListLt]
  | [], bs, _ :: _, _, _ => by simp [tileListLt]
  | _ :: _, [], _, h1, _ => by simp [tileListLt] at h1
  | _ :: _, _ :: _, [], _, h2 => by simp [tileListLt] at h2
  | a :: as, b :: bs, c :: cs, h1, h2 => by
    unfold tileListLt at h1 h2 ⊢
    by_cases hab : a = b
    · subst hab
      rw [if_pos rfl] at h1
      by_cases hbc : a = c
      · subst hbc
        rw [if_pos rfl] at h2
        rw [if_pos rfl]
        exact tileListLt_trans as bs cs h1 h2
      · rw [if_neg hbc] at h2
        rw [if_neg hbc]
        exact h2
    · rw [if_neg hab] at h1
      by_cases hbc : b = c
      · subst hbc
        rw [if_neg hab]
        exact h1
      · rw [if_neg hbc] at h2
        by_cases hac : a = c
        · subst hac
          exact (tile_lt_asymm a b h1 h2).elim
        · rw [if_neg hac]
          exact tile_lt_trans a b c h1 h2

theorem orderIdx_inj (k1 k2 : MeldKind)
    (h : k1.orderIdx = k2.orderIdx) : k1 = k2 := by
  cases k1 <;> cases k2 <;> simp_all [MeldKind.orderIdx]

theorem meld_lt_asymm (a b : Meld) :
    Meld.lt a b = true → Meld.lt b a = true → False := by
  unfold Meld.lt
  by_cases hk : a.kind = b.kind
  · rw [if_pos hk, if_pos hk.symm]
    exact tileListLt_asymm _ _
  · rw [if_neg hk, if_neg (fun h => hk h.symm)]
    intro h1 h2
    simp only [decide_eq_true_eq] at h1 h2
    omega

theorem meld_lt_trich (a b : Meld)
    (ha : ∀ t ∈ a.tiles, t.suit.isBonus = false)
    (hb : ∀ t ∈ b.tiles, t.suit.isBonus = false) :
    Meld.lt a b = true ∨ a = b ∨ Meld.lt b a = true := by
  unfold Meld.lt
  by_cases hk : a.kind = b.kind
  · rw [if_pos hk, if_pos hk.symm]
    rcases tileListLt_trich a.tiles b.tiles ha hb with h | h | h
    · exact Or.inl h
    · refine Or.inr (Or.inl ?_)
      rcases a with ⟨ka, ta⟩
      rcases b with ⟨kb, tb⟩
      simp only at hk h
      rw [hk, h]
    · exact Or.inr (Or.inr h)
  · rw [if_neg hk, if_neg (fun h => hk h.symm)]
    have hidx : a.kind.orderIdx ≠ b.kind.orderIdx :=
      fun h => hk (orderIdx_inj _ _ h)
    rcases Nat.lt_or_ge a.kind.orderIdx b.kind.orderIdx with h | h
    · refine Or.inr (Or.inr ?_)
      simp only [decide_eq_true_eq]
      exact h
    · left
      simp only [decide_eq_true_eq]
      omega

theorem meld_lt_trans (a b c : Meld) :
    Meld.lt a b = true → Meld.lt b c = true → Meld.lt a c = true := by
  unfold Meld.lt
  by_cases hab : a.kind = b.kind
  · rw [if_pos hab]
    by_cases hbc : b.kind = c.kind
    · rw [if_pos hbc, if_pos (hab.trans hbc)]
      exact tileListLt_trans _ _ _
    · rw [if_neg hbc, if_neg (fun h => hbc (hab.symm.trans h))]
      intro _ h2
      rw [hab]
      exact h2
  · rw [if_neg hab]
    by_cases hbc : b.kind = c.kind
    · rw [if_pos hbc, if_neg (fun h => hab (h.trans hbc.symm))]
      intro h1 _
      rw [← hbc]
      exact h1
    · rw [if_neg hbc]
      by_cases hac : a.kind = c.kind
      · rw [if_pos hac]
        intro h1 h2
        simp only [decide_eq_true_eq] at h1 h2
        rw [hac] at h1
        omega
      · rw [if_neg hac]
        intro h1 h2
        simp only [decide_eq_true_eq] at h1 h2 ⊢
        omega

theorem meld_le_total (a b : Meld)
    (ha : ∀ t ∈ a.tiles, t.suit.isBonus = false)
    (hb : ∀ t ∈ b.tiles, t.suit.isBonus = false) :
    Meld.le a b = true ∨ Meld.le b a = true := by
  rcases meld_lt_trich a b ha hb with h | h | h
  · left
    simp only [Meld.le, Bool.not_eq_true']
    by_contra hc
    simp only [Bool.not_eq_false] at hc
    exact meld_lt_asymm a b h hc
  · subst h
    left
    simp only [Meld.le, Bool.not_eq_true']
    by_contra hc
    simp only [Bool.not_eq_false] at hc
    exact meld_lt_asymm a a hc hc
  · right
    simp only [Meld.le, Bool.not_eq_true']
    by_contra hc
    simp only [Bool.not_eq_false] at hc
    exact meld_lt_asymm a b hc h

theorem meld_le_antisymm (a b : Meld)
    (ha : ∀ t ∈ a.tiles, t.suit.isBonus = false)
    (hb : ∀ t ∈ b.tiles, t.suit.isBonus = false) :
    Meld.le a b = true → Meld.le b a = true → a = b := by
  intro h1 h2
  simp only [Meld.le, Bool.not_eq_true'] at h1 h2
  rcases meld_lt_trich a b ha hb with h | h | h
  · rw [h] at h2
    exact absurd h2 (by simp)
  · exact h
  · rw [h] at h1
    exact absurd h1 (by simp)

theorem meld_le_trans (a b c : Meld)
    (ha : ∀ t ∈ a.tiles, t.suit.isBonus = false)
    (hb : ∀ t ∈ b.tiles, t.suit.isBonus = false)
    (hc : ∀ t ∈ c.tiles, t.suit.isBonus = false) :
    Meld.le a b = true → Meld.le b c = true → Meld.le a c = true := by
  intro h1 h2
  simp only [Meld.le, Bool.not_eq_true'] at h1 h2 ⊢
  by_contra hcon
  simp only [Bool.not_eq_false] at hcon
  rcases meld_lt_trich c b hc hb with h | h | h
  · rw [h] at h2
    exact absurd h2 (by simp)
  · rw [← h] at h1
    rw [hcon] at h1
    exact absurd h1 (by simp)
  · have hba := meld_lt_trans b c a h hcon
    rw [hba] at h1
    exact absurd h1 (by simp)

theorem sortMelds_eq_of_perm {l₁ l₂ : List Meld} (hp : l₁.Perm l₂)
    (hnb : ∀ m ∈ l₁, ∀ t ∈ m.tiles, t.suit.isBonus = false) :
    sortMelds l₁ = sortMelds l₂ :=
  insertionSortB_eq_of_perm Meld.le l₁ l₂ hp
    (fun a ha b hb => meld_le_total a b (hnb a ha) (hnb b hb))
    (fun a ha b hb c hc => meld_le_trans a b c (hnb a ha) (hnb b hb) (hnb c hc))
    (fun a ha b hb => meld_le_antisymm a b (hnb a ha) (hnb b hb))

/-! ### Shapes of valid melds, and constructor stability under
permutation of the input tiles -/

theorem sortTiles_eq_of_perm {l₁ l₂ : List Tile} (hp : l₁.Perm l₂)
    (hnb : ∀ t ∈ l₁, t.suit.isBonus = false) :
    sortTiles l₁ = sortTiles l₂ :=
  insertionSortB_eq_of_perm Tile.le l₁ l₂ hp
    (fun a ha b hb => tile_le_total a b (hnb a ha) (hnb b hb))
    (fun a ha b hb c hc =>
      tile_le_trans a b c (hnb a ha) (hnb b hb) (hnb c hc))
    (fun a ha b hb => tile_le_antisymm a b (hnb a ha) (hnb b hb))

theorem list_len2 {α : Type} : ∀ {l : List α}, l.length = 2 → ∃ a b, l = [a, b]
  | [], h => by simp at h
  | [_], h => by simp only [List.length_cons, List.length_nil] at h; omega
  | [a, b], _ => ⟨a, b, rfl⟩
  | _ :: _ :: _ :: _, h => by
    simp only [List.length_cons] at h
    omega

theorem list_len3 {α : Type} : ∀ {l : List α}, l.length = 3 → ∃ a b c, l = [a, b, c]
  | [], h => by simp at h
  | [_], h => by simp only [List.length_cons, List.length_nil] at h; omega
  | [_, _], h => by simp only [List.length_cons, List.length_nil] at h; omega
  | [a, b, c], _ => ⟨a, b, c, rfl⟩
  | _ :: _ :: _ :: _ :: _, h => by
    simp only [List.length_cons] at h
    omega

theorem sameNum_all_eq {ts : List Tile} (h : sameNum ts = true) :
    ∀ x ∈ ts, ∀ y ∈ ts, x = y := by
  cases ts with
  | nil =>
    intro x hx
    exact absurd hx (List.not_mem_nil x)
  | cons t rest =>
    simp only [sameNum, sameSuit, Bool.and_eq_true, List.all_eq_true,
      decide_eq_true_eq] at h
    have hall : ∀ x ∈ t :: rest, x = t := by
      intro x hx
      rcases List.mem_cons.1 hx with h' | h'
      · exact h'
      · have hs := h.1 x h'
        have hn := h.2 x h'
        rcases x with ⟨xs, xn⟩
        rcases t with ⟨ts, tn⟩
        simp only at hs hn
        rw [hs, hn]
    intro x hx y hy
    rw [hall x hx, hall y hy]

theorem mkSameNum_sorted {kind : MeldKind} {k : Nat} {ts : List Tile}
    {m : Meld} (h : mkSameNum kind k ts = some m) :
    sortTiles m.tiles = m.tiles :=
  (congrArg Meld.tiles (mkSameNum_some (mkSameNum_idem h)).1).symm

theorem mkSameNum_noBonus {kind : MeldKind} {k : Nat} {ts : List Tile}
    {m : Meld} (h : mkSameNum kind k ts = some m) :
    ∀ t ∈ m.tiles, t.suit.isBonus = false := by
  obtain ⟨-, -, hnb, -⟩ := mkSameNum_some (mkSameNum_idem h)
  rw [mkSameNum_sorted h] at hnb
  exact noBonus_iff.1 hnb

theorem mkSameNum_all_eq {kind : MeldKind} {k : Nat} {ts : List Tile}
    {m : Meld} (h : mkSameNum kind k ts = some m) :
    ∀ x ∈ m.tiles, ∀ y ∈ m.tiles, x = y := by
  obtain ⟨-, -, -, hsn⟩ := mkSameNum_some (mkSameNum_idem h)
  rw [mkSameNum_sorted h] at hsn
  exact sameNum_all_eq hsn

theorem mkSameNum_of_perm {kind : MeldKind} {k : Nat} {ts l : List Tile}
    {m : Meld} (h : mkSameNum kind k ts = some m) (hp : l.Perm m.tiles) :
    mkSameNum kind k l = some m := by
  obtain ⟨hm, hlen, hnb, hsn⟩ := mkSameNum_some (mkSameNum_idem h)
  have hsort := mkSameNum_sorted h
  rw [hsort] at hlen hnb hsn
  have hnbm := mkSameNum_noBonus h
  have hl : sortTiles l = m.tiles := by
    rw [sortTiles_eq_of_perm hp (fun t ht => hnbm t (hp.subset ht))]
    exact hsort
  unfold mkSameNum
  dsimp only
  rw [hl]
  have hc : (decide (m.tiles.length = k) && noBonus m.tiles &&
      sameNum m.tiles) = true := by
    simp [hlen, hnb, hsn]
  rw [if_pos hc]
  rw [hsort] at hm
  exact congrArg some hm.symm

theorem mkChow_sorted {ts : List Tile} {m : Meld} (h : mkChow ts = some m) :
    sortTiles m.tiles = m.tiles :=
  (congrArg Meld.tiles (mkChow_some (mkChow_idem h)).1).symm

theorem mkChow_noBonus {ts : List Tile} {m : Meld} (h : mkChow ts = some m) :
    ∀ t ∈ m.tiles, t.suit.isBonus = false := by
  obtain ⟨-, -, hnb, -⟩ := mkChow_some (mkChow_idem h)
  rw [mkChow_sorted h] at hnb
  exact noBonus_iff.1 hnb

theorem mkChow_of_perm {ts l : List Tile} {m : Meld}
    (h : mkChow ts = some m) (hp : l.Perm m.tiles) :
    mkChow l = some m := by
  obtain ⟨hm, hlen, hnb, hcr⟩ := mkChow_some (mkChow_idem h)
  have hsort := mkChow_sorted h
  rw [hsort] at hlen hnb hcr
  have hnbm := mkChow_noBonus h
  have hl : sortTiles l = m.tiles := by
    rw [sortTiles_eq_of_perm hp (fun t ht => hnbm t (hp.subset ht))]
    exact hsort
  unfold mkChow
  dsimp only
  rw [hl]
  have hc : (decide (m.tiles.length = 3) && noBonus m.tiles &&
      chowRun m.tiles) = true := by
    simp [hlen, hnb, hcr]
  rw [if_pos hc]
  rw [hsort] at hm
  exact congrArg some hm.symm

theorem pong_tiles_shape {ts : List Tile} {m : Meld}
    (h : mkPong ts = some m) : ∃ v, m.tiles = [v, v, v] := by
  obtain ⟨-, hlen, -, -⟩ := mkSameNum_some (mkSameNum_idem h)
  rw [mkSameNum_sorted h] at hlen
  obtain ⟨a, b, c, habc⟩ := list_len3 hlen
  have hall := mkSameNum_all_eq h
  rw [habc] at hall
  have hb : b = a := hall b (by simp) a (by simp)
  have hc : c = a := hall c (by simp) a (by simp)
  exact ⟨a, by rw [habc, hb, hc]⟩

theorem eyes_tiles_shape {ts : List Tile} {m : Meld}
    (h : mkEyes ts = some m) : ∃ v, m.tiles = [v, v] := by
  obtain ⟨-, hlen, -, -⟩ := mkSameNum_some (mkSameNum_idem h)
  rw [mkSameNum_sorted h] at hlen
  obtain ⟨a, b, hab⟩ := list_len2 hlen
  have hall := mkSameNum_all_eq h
  rw [hab] at hall
  have hb : b = a := hall b (by simp) a (by simp)
  exact ⟨a, by rw [hab, hb]⟩

theorem chow_tiles_shape {ts : List Tile} {m : Meld}
    (h : mkChow ts = some m) :
    ∃ x y z, m.tiles = [x, y, z] ∧ y.number = x.number + 1 ∧
      z.number = x.number + 2 := by
  obtain ⟨-, hlen, -, hcr⟩ := mkChow_some (mkChow_idem h)
  have hsort := mkChow_sorted h
  rw [hsort] at hlen hcr
  obtain ⟨x, y, z, hxyz⟩ := list_len3 hlen
  rw [hxyz] at hcr
  simp only [chowRun, Bool.and_eq_true, List.all_eq_true, List.mem_range,
    decide_eq_true_eq] at hcr
  have h1 := hcr.2 1 (by simp)
  have h2 := hcr.2 2 (by simp)
  simp only [List.getD_cons_succ, List.getD_cons_zero] at h1 h2
  exact ⟨x, y, z, hxyz, h1, h2⟩

/-! ### Last occurrences and position counting -/

theorem findGreatest_spec_explicit (P : Nat → Prop) [DecidablePred P]
    {m n : Nat} (hmb : m ≤ n) (hm : P m) : P (Nat.findGreatest P n) :=
  Nat.findGreatest_spec hmb hm

theorem exists_last_occ {ts : List Tile} {v : Tile} (h : v ∈ ts) :
    ∃ p, IsLastOcc ts v p := by
  obtain ⟨i, hi, hget⟩ := List.getElem_of_mem h
  have hi' : ts.getD i ⟨.wan, 0⟩ = v := by
    rw [List.getD_eq_getElem ts _ hi]
    exact hget
  have hlen : 1 ≤ ts.length := by omega
  have hle : i ≤ ts.length - 1 := by omega
  refine ⟨Nat.findGreatest (fun j => ts.getD j ⟨.wan, 0⟩ = v) (ts.length - 1),
    ?_, ?_, ?_⟩
  · have hfg : Nat.findGreatest (fun j => ts.getD j ⟨.wan, 0⟩ = v)
        (ts.length - 1) ≤ ts.length - 1 := Nat.findGreatest_le _
    omega
  · exact findGreatest_spec_explicit (fun j => ts.getD j ⟨.wan, 0⟩ = v)
      hle hi'
  · intro q hq hqlen
    exact Nat.findGreatest_is_greatest hq (by omega)

theorem IsLastOcc_unique {ts : List Tile} {v : Tile} {p q : Nat}
    (hp : IsLastOcc ts v p) (hq : IsLastOcc ts v q) : p = q := by
  by_contra hne
  rcases Nat.lt_or_ge p q with h | h
  · exact hp.2.2 q h hq.1 hq.2.1
  · exact hq.2.2 p (by omega) hp.1 hp.2.1

theorem count_tilesAt (ts : List Tile) (P : List Nat) (v : Tile) :
    (tilesAt ts P).count v =
      (P.filter fun p => ts.getD p ⟨.wan, 0⟩ == v).length := by
  unfold tilesAt
  show ((P.map fun i => ts.getD i ⟨.wan, 0⟩).countP (· == v)) = _
  rw [List.countP_map, List.countP_eq_length_filter]
  rfl

theorem mem_posFilter {ts : List Tile} {P : List Nat} {v : Tile} {p : Nat} :
    p ∈ (P.filter fun q => ts.getD q ⟨.wan, 0⟩ == v) ↔
      p ∈ P ∧ ts.getD p ⟨.wan, 0⟩ = v := by
  rw [List.mem_filter]
  constructor
  · rintro ⟨h1, h2⟩
    exact ⟨h1, beq_iff_eq.1 h2⟩
  · rintro ⟨h1, h2⟩
    exact ⟨h1, beq_iff_eq.2 h2⟩

theorem subperm_map {α β : Type} (f : α → β) {l₁ l₂ : List α}
    (h : List.Subperm l₁ l₂) : List.Subperm (l₁.map f) (l₂.map f) := by
  obtain ⟨l, hp, hs⟩ := h
  exact ⟨l.map f, hp.map f, hs.map f⟩

theorem tilesAt_subperm {ts : List Tile} {P : List Nat} (hnd : P.Nodup)
    (hb : ∀ p ∈ P, p < ts.length) :
    List.Subperm (tilesAt ts P) ts := by
  have hsub : List.Subperm P (List.range ts.length) :=
    hnd.subperm (fun p hp => List.mem_range.2 (hb p hp))
  have := subperm_map (fun i => ts.getD i ⟨.wan, 0⟩) hsub
  rw [show (List.range ts.length).map (fun i => ts.getD i ⟨.wan, 0⟩) = ts from
    tilesAt_range ts] at this
  exact this

theorem count_tilesAt_le {ts : List Tile} {P : List Nat} (hnd : P.Nodup)
    (hb : ∀ p ∈ P, p < ts.length) (v : Tile) :
    (tilesAt ts P).count v ≤ ts.count v :=
  (tilesAt_subperm hnd hb).count_le v

theorem two_distinct_mem {α : Type} :
    ∀ {Q : List α}, 2 ≤ Q.length → Q.Nodup →
      ∃ a b, a ∈ Q ∧ b ∈ Q ∧ a ≠ b
  | [], h, _ => by simp at h
  | [_], h, _ => by simp only [List.length_cons, List.length_nil] at h; omega
  | a :: b :: rest, _, hnd => by
    refine ⟨a, b, List.mem_cons_self a _,
      List.mem_cons_of_mem a (List.mem_cons_self b rest), ?_⟩
    intro hab
    rw [List.nodup_cons] at hnd
    exact hnd.1 (hab ▸ List.mem_cons_self b rest)

theorem pick_two_others {Q : List Nat} {L : Nat} (hnd : Q.Nodup)
    (hL : L ∈ Q) (hlen : 3 ≤ Q.length) :
    ∃ p1 p2, p1 ∈ Q ∧ p2 ∈ Q ∧ p1 ≠ p2 ∧ p1 ≠ L ∧ p2 ≠ L := by
  have he : (Q.erase L).length = Q.length - 1 := List.length_erase_of_mem hL
  obtain ⟨p1, p2, h1, h2, h12⟩ :=
    two_distinct_mem (Q := Q.erase L) (by omega) (hnd.erase L)
  obtain ⟨hne1, hmem1⟩ := hnd.mem_erase_iff.1 h1
  obtain ⟨hne2, hmem2⟩ := hnd.mem_erase_iff.1 h2
  exact ⟨p1, p2, hmem1, hmem2, h12, hne1, hne2⟩

theorem pick_one_other {Q : List Nat} {L : Nat} (hnd : Q.Nodup)
    (hL : L ∈ Q) (hlen : 2 ≤ Q.length) :
    ∃ p ∈ Q, p ≠ L := by
  have he : (Q.erase L).length = Q.length - 1 := List.length_erase_of_mem hL
  have hne : Q.erase L ≠ [] := by
    intro hc
    rw [hc] at he
    simp at he
    omega
  obtain ⟨p, hp⟩ := List.exists_mem_of_ne_nil _ hne
  obtain ⟨hpe, hpm⟩ := hnd.mem_erase_iff.1 hp
  exact ⟨p, hpm, hpe⟩

/-! ### Completeness of the meld-position search -/

theorem assocLookup_isSome {κ β : Type} [DecidableEq κ] :
    ∀ {l : List (κ × β)} {k : κ}, (assocLookup l k).isSome = true →
      ∃ e ∈ l, e.1 = k := by
  intro l
  induction l with
  | nil =>
    intro k h
    simp [assocLookup] at h
  | cons e rest ih =>
    intro k h
    rcases e with ⟨k1, v⟩
    unfold assocLookup at h
    split at h
    · exact ⟨(k1, v), List.mem_cons_self _ rest, by assumption⟩
    · obtain ⟨e2, he2, hk2⟩ := ih h
      exact ⟨e2, List.mem_cons_of_mem _ he2, hk2⟩

theorem tripStep_mono {ts : List Tile} {trips : List (List Nat × Meld)}
    {t : Nat × Nat × Nat} {e : List Nat × Meld} (h : e ∈ trips) :
    e ∈ tripStep ts trips t := by
  unfold tripStep
  dsimp only
  by_cases h1 : (assocLookup trips [t.1, t.2.1, t.2.2]).isSome = true
  · rw [if_pos h1]
    exact h
  · rw [if_neg h1]
    cases hg : getTriplet (tilesAt ts [t.1, t.2.1, t.2.2]) with
    | none => exact h
    | some m =>
      dsimp only
      by_cases h2 : m.kind = .pong ∧ t.2.2 < ts.length - 1
      · rw [if_pos h2]
        cases hf : findKongUpgrade ts trips t.1 t.2.1 t.2.2 with
        | some entry =>
          dsimp only
          exact List.mem_append_left _ h
        | none =>
          dsimp only
          exact List.mem_append_left _ h
      · rw [if_neg h2]
        exact List.mem_append_left _ h

theorem trips_fold_mono {ts : List Tile} (l : List (Nat × Nat × Nat)) :
    ∀ (s : List (List Nat × Meld)) {e : List Nat × Meld}, e ∈ s →
      e ∈ l.foldl (tripStep ts) s := by
  induction l with
  | nil => intro s e h; exact h
  | cons t rest ih => intro s e h; exact ih _ (tripStep_mono h)

theorem trips_fold_keys {ts : List Tile} :
    ∀ (l : List (Nat × Nat × Nat)) (s : List (List Nat × Meld))
      (e : List Nat × Meld), e ∈ l.foldl (tripStep ts) s →
      e ∈ s ∨ e.1.length = 4 ∨ ∃ tr ∈ l, e.1 = [tr.1, tr.2.1, tr.2.2] := by
  intro l
  induction l with
  | nil =>
    intro s e h
    exact Or.inl h
  | cons t rest ih =>
    intro s e h
    rcases ih (tripStep ts s t) e h with h' | h' | h'
    · unfold tripStep at h'
      dsimp only at h'
      split at h'
      · exact Or.inl h'
      · split at h'
        · exact Or.inl h'
        · split at h'
          · split at h'
            · rename_i entry hentry
              rcases List.mem_append.1 h' with h2 | h2
              · exact Or.inl h2
              · rw [List.mem_singleton] at h2
                subst h2
                obtain ⟨t4, -, -, hkey, -⟩ := findKongUpgrade_some hentry
                right
                left
                rw [hkey]
                rfl
            · rcases List.mem_append.1 h' with h2 | h2
              · exact Or.inl h2
              · rw [List.mem_singleton] at h2
                subst h2
                exact Or.inr (Or.inr ⟨t, List.mem_cons_self t rest, rfl⟩)
          · rcases List.mem_append.1 h' with h2 | h2
            · exact Or.inl h2
            · rw [List.mem_singleton] at h2
              subst h2
              exact Or.inr (Or.inr ⟨t, List.mem_cons_self t rest, rfl⟩)
    · exact Or.inr (Or.inl h')
    · obtain ⟨tr, htr, hk⟩ := h'
      exact Or.inr (Or.inr ⟨tr, List.mem_cons_of_mem t htr, hk⟩)

theorem first_split {α : Type} (P : α → Prop) [DecidablePred P] :
    ∀ (l : List α), (∃ x ∈ l, P x) →
      ∃ l₁ x l₂, l = l₁ ++ x :: l₂ ∧ P x ∧ ∀ y ∈ l₁, ¬ P y
  | [], h => by
    obtain ⟨x, hx, -⟩ := h
    exact absurd hx (List.not_mem_nil x)
  | a :: l, h => by
    by_cases ha : P a
    · exact ⟨[], a, l, rfl, ha, by simp⟩
    · obtain ⟨x, hx, hPx⟩ := h
      rcases List.mem_cons.1 hx with hx' | hx'
      · exact absurd (hx' ▸ hPx) ha
      · obtain ⟨l₁, y, l₂, heq, hP, hnone⟩ := first_split P l ⟨x, hx', hPx⟩
        refine ⟨a :: l₁, y, l₂, by rw [heq]; rfl, hP, ?_⟩
        intro z hz
        rcases List.mem_cons.1 hz with hz' | hz'
        · rw [hz']
          exact ha
        · exact hnone z hz'

theorem allMeldsPos_complete {ts : List Tile} {m : Meld} {a b c : Nat}
    (hab : a < b) (hbc : b < c) (hcn : c < ts.length)
    (hget : getTriplet (tilesAt ts [a, b, c]) = some m)
    (hkong : ∀ t4, c < t4 → t4 < ts.length →
      mkKong (tilesAt ts [a, b, c, t4]) = none) :
    (m, [a, b, c]) ∈ allMeldsPos ts := by
  have htr : (a, b, c) ∈ triplesUpto ts.length :=
    mem_triplesUpto.2 ⟨hab, hbc, hcn⟩
  obtain ⟨l₁, tr, l₂, heq, hPtr, hnot⟩ :=
    first_split (fun q => q = (a, b, c)) (triplesUpto ts.length)
      ⟨(a, b, c), htr, rfl⟩
  subst hPtr
  have hfresh : assocLookup (l₁.foldl (tripStep ts) []) [a, b, c] = none := by
    cases hl : assocLookup (l₁.foldl (tripStep ts) []) [a, b, c] with
    | none => rfl
    | some v =>
      have hsome : (assocLookup (l₁.foldl (tripStep ts) [])
          [a, b, c]).isSome = true := by
        rw [hl]
        rfl
      obtain ⟨e, he, hek⟩ := assocLookup_isSome hsome
      rcases trips_fold_keys l₁ [] e he with h' | h' | h'
      · exact absurd h' (List.not_mem_nil e)
      · rw [hek] at h'
        simp at h'
      · obtain ⟨tr', htr', hkey⟩ := h'
        rw [hek] at hkey
        have htr'' : tr' = (a, b, c) := by
          rcases tr' with ⟨x, y, z⟩
          simp only [List.cons.injEq, and_true] at hkey
          obtain ⟨h1, h2, h3⟩ := hkey
          simp only [Prod.mk.injEq]
          exact ⟨h1.symm, ⟨h2.symm, h3.symm⟩⟩
        exact (hnot tr' htr' htr'').elim
  have hstep : ([a, b, c], m) ∈
      tripStep ts (l₁.foldl (tripStep ts) []) (a, b, c) := by
    set T := l₁.foldl (tripStep ts) [] with hT
    unfold tripStep
    dsimp only
    rw [hfresh]
    rw [if_neg (by simp)]
    rw [hget]
    dsimp only
    by_cases h2 : m.kind = .pong ∧ c < ts.length - 1
    · rw [if_pos h2]
      have hfk : findKongUpgrade ts T a b c = none := by
        unfold findKongUpgrade
        rw [List.findSome?_eq_none_iff]
        intro t4 ht4
        rw [mem_drop_range] at ht4
        dsimp only
        split
        · rfl
        · rw [hkong t4 (by omega) ht4.2]
      rw [hfk]
      exact List.mem_append_right _ (List.mem_singleton.2 rfl)
    · rw [if_neg h2]
      exact List.mem_append_right _ (List.mem_singleton.2 rfl)
  have hmem : ([a, b, c], m) ∈
      (triplesUpto ts.length).foldl (tripStep ts) [] := by
    rw [heq, List.foldl_append, List.foldl_cons]
    exact trips_fold_mono l₂ _ hstep
  unfold allMeldsPos
  dsimp only
  rw [mem_insertionSortB]
  exact List.mem_map.2 ⟨([a, b, c], m), hmem, rfl⟩

/-! ### Completeness of the eyes enumeration -/

theorem eyes_fold_mono (tiles : List Tile) (fixed : List Meld) :
    ∀ (l : List (Nat × Nat)) (s : List Meld × List (List Meld))
      {c : List Meld}, c ∈ s.2 → c ∈ (l.foldl (eyesStep tiles fixed) s).2 := by
  intro l
  induction l with
  | nil =>
    intro s c h
    exact h
  | cons p rest ih =>
    intro s c h
    rw [List.foldl_cons]
    apply ih
    unfold eyesStep
    dsimp only
    cases hm : mkEyes [tiles.getD p.1 ⟨.wan, 0⟩, tiles.getD p.2 ⟨.wan, 0⟩] with
    | none => exact h
    | some eyes =>
      dsimp only
      by_cases he : eyes ∈ s.1
      · rw [if_pos he]
        exact h
      · rw [if_neg he]
        exact List.mem_append_left _ h

theorem eyes_fold_checked (tiles : List Tile) (fixed : List Meld) :
    ∀ (l : List (Nat × Nat)) (s : List Meld × List (List Meld)) {v : Meld},
      v ∈ (l.foldl (eyesStep tiles fixed) s).1 →
      v ∈ s.1 ∨ ∃ p ∈ l,
        mkEyes [tiles.getD p.1 ⟨.wan, 0⟩, tiles.getD p.2 ⟨.wan, 0⟩] =
          some v := by
  intro l
  induction l with
  | nil =>
    intro s v h
    exact Or.inl h
  | cons p rest ih =>
    intro s v h
    rw [List.foldl_cons] at h
    rcases ih _ h with h' | h'
    · unfold eyesStep at h'
      dsimp only at h'
      split at h'
      · exact Or.inl h'
      · rename_i eyes hm
        split at h'
        · exact Or.inl h'
        · dsimp only at h'
          rcases List.mem_cons.1 h' with h2 | h2
          · refine Or.inr ⟨p, List.mem_cons_self p rest, ?_⟩
            rw [hm, h2]
          · exact Or.inl h2
    · obtain ⟨q, hq, hmq⟩ := h'
      exact Or.inr ⟨q, List.mem_cons_of_mem p hq, hmq⟩

theorem validCombos_complete (tiles : List Tile) (fixed : List Meld)
    {ey : Meld}
    (hex : ∃ p ∈ pairsUpto tiles.length,
      mkEyes [tiles.getD p.1 ⟨.wan, 0⟩, tiles.getD p.2 ⟨.wan, 0⟩] =
        some ey) :
    ∃ e1 e2, (e1, e2) ∈ pairsUpto tiles.length ∧
      mkEyes [tiles.getD e1 ⟨.wan, 0⟩, tiles.getD e2 ⟨.wan, 0⟩] = some ey ∧
      ∀ combo ∈ List.sublistsLen (4 - fixed.length)
          (allMeldsPos (removeIdxs tiles e1 e2)),
        hasDupIdxs combo = false →
        (combo.map fun p => p.1.tiles).flatten.length = tiles.length - 2 →
        ((combo.map fun p => p.1) ++ fixed ++ [ey]) ∈
          validCombos tiles fixed := by
  obtain ⟨l₁, p₀, l₂, heq, hP, hnone⟩ := first_split
    (fun p => mkEyes [tiles.getD p.1 ⟨.wan, 0⟩, tiles.getD p.2 ⟨.wan, 0⟩] =
      some ey) (pairsUpto tiles.length) hex
  rcases p₀ with ⟨e1, e2⟩
  have hpair : (e1, e2) ∈ pairsUpto tiles.length := by
    rw [heq]
    exact List.mem_append_right _ (List.mem_cons_self _ l₂)
  refine ⟨e1, e2, hpair, hP, ?_⟩
  intro combo hcombo hdup hlen
  have hnotchecked : ey ∉ (l₁.foldl (eyesStep tiles fixed) ([], [])).1 := by
    intro hc
    rcases eyes_fold_checked tiles fixed l₁ ([], []) hc with h' | h'
    · exact absurd h' (List.not_mem_nil ey)
    · obtain ⟨q, hq, hmq⟩ := h'
      exact hnone q hq hmq
  have hgood : ((combo.map fun p => p.1) ++ fixed ++ [ey]) ∈
      (List.sublistsLen (4 - fixed.length)
        (allMeldsPos (removeIdxs tiles e1 e2))).filterMap fun cb =>
          if hasDupIdxs cb then none
          else if ((cb.map fun p => p.1.tiles).flatten.length ≠
              tiles.length - 2) then none
          else some ((cb.map fun p => p.1) ++ fixed ++ [ey]) := by
    refine List.mem_filterMap.2 ⟨combo, hcombo, ?_⟩
    rw [if_neg (by rw [hdup]; exact Bool.false_ne_true)]
    rw [if_neg (by rw [hlen]; exact fun hc => hc rfl)]
  have hstep : ((combo.map fun p => p.1) ++ fixed ++ [ey]) ∈
      (eyesStep tiles fixed (l₁.foldl (eyesStep tiles fixed) ([], []))
        (e1, e2)).2 := by
    set S := l₁.foldl (eyesStep tiles fixed) ([], []) with hS
    unfold eyesStep
    dsimp only
    rw [hP]
    dsimp only
    rw [if_neg hnotchecked]
    exact List.mem_append_right _ hgood
  have hfold : ((combo.map fun p => p.1) ++ fixed ++ [ey]) ∈
      ((pairsUpto tiles.length).foldl (eyesStep tiles fixed) ([], [])).2 := by
    rw [heq, List.foldl_append, List.foldl_cons]
    exact eyes_fold_mono tiles fixed l₂ _ hstep
  unfold validCombos
  dsimp only
  exact List.mem_append_left _ hfold

/-! ### Assignment helpers: sorting an index triple, safe position picks,
removing three positions -/

theorem sort3 {p q r : Nat} (hpq : p ≠ q) (hpr : p ≠ r) (hqr : q ≠ r) :
    ∃ a b c, a < b ∧ b < c ∧ ([a, b, c] : List Nat).Perm [p, q, r] := by
  have hperm := insertionSortB_perm (fun a b : Nat => decide (a ≤ b)) [p, q, r]
  have hpw := insertionSortB_pairwise (fun a b : Nat => decide (a ≤ b))
    [p, q, r]
    (fun a _ b _ => by
      simp only [decide_eq_true_eq]
      omega)
    (fun a _ b _ c _ => by
      simp only [decide_eq_true_eq]
      omega)
  have hlen : (insertionSortB (fun a b : Nat => decide (a ≤ b))
      [p, q, r]).length = 3 := hperm.length_eq
  obtain ⟨a, b, c, habc⟩ := list_len3 hlen
  have hnd : (insertionSortB (fun a b : Nat => decide (a ≤ b))
      [p, q, r]).Nodup := by
    rw [hperm.nodup_iff]
    simp only [List.nodup_cons, List.mem_cons, List.not_mem_nil, or_false,
      not_or, List.nodup_nil, and_true, List.not_mem_nil, not_false_eq_true]
    exact ⟨⟨hpq, hpr⟩, hqr⟩
  rw [habc] at hpw hnd hperm
  simp only [List.pairwise_cons, List.mem_cons, List.not_mem_nil, or_false,
    decide_eq_true_eq] at hpw
  simp only [List.nodup_cons, List.mem_cons, List.not_mem_nil, or_false,
    not_or, List.nodup_nil, and_true] at hnd
  have hab : a ≤ b := hpw.1 b (Or.inl rfl)
  have hbc : b ≤ c := hpw.2.1 c rfl
  exact ⟨a, b, c, by omega, by omega, hperm⟩

theorem count_flatten_of_mem {rest : List Meld} {m : Meld} (hm : m ∈ rest)
    (v : Tile) :
    m.tiles.count v ≤ ((rest.map Meld.tiles).flatten).count v := by
  obtain ⟨u, w, hrw⟩ := List.append_of_mem hm
  rw [hrw, List.map_append, List.map_cons, List.flatten_append,
    List.flatten_cons, List.count_append, List.count_append]
  omega

theorem chow_pick (ts : List Tile) (P : List Nat) (rest : List Meld)
    (v : Tile) (hnd : P.Nodup)
    (hcount : 1 ≤ (tilesAt ts P).count v)
    (hcount2 : (∃ mp ∈ rest, mp.tiles = [v, v, v]) →
      2 ≤ (tilesAt ts P).count v)
    (hpong : ∀ mp ∈ rest, ∀ w, mp.tiles = [w, w, w] →
      ∃ L ∈ P, IsLastOcc ts w L) :
    ∃ p ∈ P, ts.getD p ⟨.wan, 0⟩ = v ∧
      ∀ mp ∈ rest, ∀ w, mp.tiles = [w, w, w] →
        ∀ L, IsLastOcc ts w L → p ≠ L := by
  by_cases hpg : ∃ mp ∈ rest, mp.tiles = [v, v, v]
  · obtain ⟨mp, hmp, hmpt⟩ := hpg
    obtain ⟨L, hLP, hLlast⟩ := hpong mp hmp v hmpt
    have h2 := hcount2 ⟨mp, hmp, hmpt⟩
    rw [count_tilesAt] at h2
    have hLQ : L ∈ P.filter fun p => ts.getD p ⟨.wan, 0⟩ == v :=
      mem_posFilter.2 ⟨hLP, hLlast.2.1⟩
    obtain ⟨p, hpQ, hpL⟩ := pick_one_other (hnd.filter _) hLQ h2
    obtain ⟨hpP, hpv⟩ := mem_posFilter.1 hpQ
    refine ⟨p, hpP, hpv, ?_⟩
    intro mq hmq w hw L2 hL2
    by_cases hwv : w = v
    · subst hwv
      rw [IsLastOcc_unique hL2 hLlast]
      exact hpL
    · intro hc
      subst hc
      have hvw := hL2.2.1
      rw [hpv] at hvw
      exact hwv hvw.symm
  · have h1 := hcount
    rw [count_tilesAt] at h1
    have hne : (P.filter fun p => ts.getD p ⟨.wan, 0⟩ == v) ≠ [] := by
      intro hc
      rw [hc] at h1
      simp at h1
    obtain ⟨p, hpQ⟩ := List.exists_mem_of_ne_nil _ hne
    obtain ⟨hpP, hpv⟩ := mem_posFilter.1 hpQ
    refine ⟨p, hpP, hpv, ?_⟩
    intro mq hmq w hw L2 hL2
    by_cases hwv : w = v
    · subst hwv
      exact absurd ⟨mq, hmq, hw⟩ hpg
    · intro hc
      subst hc
      have hvw := hL2.2.1
      rw [hpv] at hvw
      exact hwv hvw.symm

theorem erase3_perm {P : List Nat} (p1 p2 p3 : Nat) (h1 : p1 ∈ P)
    (h2 : p2 ∈ P) (h3 : p3 ∈ P) (h12 : p1 ≠ p2) (h13 : p1 ≠ p3)
    (h23 : p2 ≠ p3) :
    P.Perm (p1 :: p2 :: p3 :: ((P.erase p1).erase p2).erase p3) := by
  have h2e : p2 ∈ P.erase p1 :=
    (List.mem_erase_of_ne (fun h => h12 h.symm)).2 h2
  have h3e : p3 ∈ (P.erase p1).erase p2 :=
    (List.mem_erase_of_ne (fun h => h23 h.symm)).2
      ((List.mem_erase_of_ne (fun h => h13 h.symm)).2 h3)
  have e1 := List.perm_cons_erase h1
  have e2 := List.perm_cons_erase h2e
  have e3 := List.perm_cons_erase h3e
  exact e1.trans ((e2.trans (e3.cons p2)).cons p1)

theorem erase3_not_mem {P : List Nat} (hnd : P.Nodup) (p1 p2 p3 : Nat) :
    p1 ∉ ((P.erase p1).erase p2).erase p3 ∧
    p2 ∉ ((P.erase p1).erase p2).erase p3 ∧
    p3 ∉ ((P.erase p1).erase p2).erase p3 := by
  refine ⟨?_, ?_, ?_⟩
  · intro h
    have h' := List.mem_of_mem_erase (List.mem_of_mem_erase h)
    exact (hnd.mem_erase_iff.1 h').1 rfl
  · intro h
    have h' := List.mem_of_mem_erase h
    exact ((hnd.erase p1).mem_erase_iff.1 h').1 rfl
  · intro h
    exact (((hnd.erase p1).erase p2).mem_erase_iff.1 h).1 rfl

theorem erase3_sub {P : List Nat} {p1 p2 p3 i : Nat}
    (h : i ∈ ((P.erase p1).erase p2).erase p3) : i ∈ P :=
  List.mem_of_mem_erase (List.mem_of_mem_erase (List.mem_of_mem_erase h))

theorem erase3_mem {P : List Nat} (hnd : P.Nodup) {p1 p2 p3 L : Nat}
    (hL : L ∈ P) (n1 : L ≠ p1) (n2 : L ≠ p2) (n3 : L ≠ p3) :
    L ∈ ((P.erase p1).erase p2).erase p3 :=
  (List.mem_erase_of_ne n3).2 ((List.mem_erase_of_ne n2).2
    ((List.mem_erase_of_ne n1).2 hL))

/-- Existence of a disjoint in-range index assignment realising a
Pong/Chow partition of the tiles selected by `P`, with every Pong key
ending at the global last occurrence of its tile. -/
theorem assign_core (ts : List Tile) :
    ∀ (rest : List Meld) (P : List Nat),
      P.Nodup →
      (∀ p ∈ P, p < ts.length) →
      ((tilesAt ts P).Perm ((rest.map Meld.tiles).flatten)) →
      (∀ m ∈ rest, mkPong m.tiles = some m ∨ mkChow m.tiles = some m) →
      (∀ m ∈ rest, ∀ v, m.tiles = [v, v, v] → ∃ L ∈ P, IsLastOcc ts v L) →
      (∀ v : Tile, (tilesAt ts P).count v ≤ 4) →
      ∃ J : List (List Nat),
        (∀ K ∈ J, ∀ i ∈ K, i ∈ P) ∧
        J.flatten.Nodup ∧
        List.Forall₂ (fun K m => GoodKey ts K m) J rest := by
  intro rest
  induction rest with
  | nil =>
    intro P hnd hb hperm hkind hpong hcount
    exact ⟨[], by simp, by simp, List.Forall₂.nil⟩
  | cons m rtail ih =>
    intro P hnd hb hperm hkind hpong hcount
    rw [List.map_cons, List.flatten_cons] at hperm
    have hpongTail : ∀ mp ∈ rtail, ∀ w, mp.tiles = [w, w, w] →
        ∃ L ∈ P, IsLastOcc ts w L :=
      fun mp hmp => hpong mp (List.mem_cons_of_mem m hmp)
    have hbuild : ∃ p1 p2 p3, p1 ∈ P ∧ p2 ∈ P ∧ p3 ∈ P ∧
        p1 ≠ p2 ∧ p1 ≠ p3 ∧ p2 ≠ p3 ∧
        tilesAt ts [p1, p2, p3] = m.tiles ∧
        (∀ w, m.tiles = [w, w, w] → IsLastOcc ts w p3) ∧
        (∀ mp ∈ rtail, ∀ w, mp.tiles = [w, w, w] →
          ∀ L, IsLastOcc ts w L → p1 ≠ L ∧ p2 ≠ L ∧ p3 ≠ L) := by
      rcases hkind m (List.mem_cons_self m rtail) with hpg | hcg
      · -- Pong head
        obtain ⟨v, hv⟩ := pong_tiles_shape hpg
        obtain ⟨L, hLP, hLlast⟩ := hpong m (List.mem_cons_self m rtail) v hv
        have hc3 : 3 ≤ (tilesAt ts P).count v := by
          rw [hperm.count_eq, List.count_append]
          have hm3 : m.tiles.count v = 3 := by
            rw [hv]
            simp
          omega
        have hQ3 : 3 ≤ (P.filter fun p => ts.getD p ⟨.wan, 0⟩ == v).length := by
          rw [← count_tilesAt]
          exact hc3
        have hLQ : L ∈ P.filter fun p => ts.getD p ⟨.wan, 0⟩ == v :=
          mem_posFilter.2 ⟨hLP, hLlast.2.1⟩
        obtain ⟨q1, q2, h1Q, h2Q, h12, h1L, h2L⟩ :=
          pick_two_others (hnd.filter _) hLQ hQ3
        obtain ⟨h1P, h1v⟩ := mem_posFilter.1 h1Q
        obtain ⟨h2P, h2v⟩ := mem_posFilter.1 h2Q
        refine ⟨q1, q2, L, h1P, h2P, hLP, h12, h1L, h2L, ?_, ?_, ?_⟩
        · rw [hv]
          unfold tilesAt
          simp only [List.map_cons, List.map_nil]
          rw [h1v, h2v, hLlast.2.1]
        · intro w hw
          have hwv : w = v := by
            rw [hv] at hw
            injection hw with h' hwrest
            exact h'.symm
          rw [hwv]
          exact hLlast
        · intro mp hmp w hw L2 hL2
          have hwv : w ≠ v := by
            intro hc
            subst hc
            have hcw : 6 ≤ (tilesAt ts P).count w := by
              rw [hperm.count_eq, List.count_append]
              have hm3 : m.tiles.count w = 3 := by
                rw [hv]
                simp
              have hm2c := count_flatten_of_mem hmp w
              rw [hw] at hm2c
              simp only [List.count_cons_self, List.count_nil] at hm2c
              omega
            have := hcount w
            omega
          have hL2v := hL2.2.1
          refine ⟨?_, ?_, ?_⟩
          · intro hc
            rw [← hc, h1v] at hL2v
            exact hwv hL2v.symm
          · intro hc
            rw [← hc, h2v] at hL2v
            exact hwv hL2v.symm
          · intro hc
            rw [← hc, hLlast.2.1] at hL2v
            exact hwv hL2v.symm
      · -- Chow head
        obtain ⟨x, y, z, hxyz, hy1, hz2⟩ := chow_tiles_shape hcg
        have hxy : x ≠ y := by
          intro h
          rw [← h] at hy1
          omega
        have hyz : y ≠ z := by
          intro h
          rw [h] at hy1
          omega
        have hxz : x ≠ z := by
          intro h
          rw [← h] at hz2
          omega
        have hcnt1 : ∀ v ∈ m.tiles, 1 ≤ (tilesAt ts P).count v := by
          intro v hvm
          rw [hperm.count_eq, List.count_append]
          have := List.count_pos_iff.2 hvm
          omega
        have hcnt2 : ∀ v ∈ m.tiles,
            (∃ mp ∈ rtail, mp.tiles = [v, v, v]) →
            2 ≤ (tilesAt ts P).count v := by
          intro v hvm hex
          obtain ⟨mp, hmp, hmpt⟩ := hex
          rw [hperm.count_eq, List.count_append]
          have h1 := List.count_pos_iff.2 hvm
          have h2 := count_flatten_of_mem hmp v
          rw [hmpt] at h2
          simp only [List.count_cons_self, List.count_nil] at h2
          omega
        have hxm : x ∈ m.tiles := by
          rw [hxyz]
          simp
        have hym : y ∈ m.tiles := by
          rw [hxyz]
          simp
        have hzm : z ∈ m.tiles := by
          rw [hxyz]
          simp
        obtain ⟨px, hpxP, hpxv, hpxS⟩ := chow_pick ts P rtail x hnd
          (hcnt1 x hxm) (hcnt2 x hxm) hpongTail
        obtain ⟨py, hpyP, hpyv, hpyS⟩ := chow_pick ts P rtail y hnd
          (hcnt1 y hym) (hcnt2 y hym) hpongTail
        obtain ⟨pz, hpzP, hpzv, hpzS⟩ := chow_pick ts P rtail z hnd
          (hcnt1 z hzm) (hcnt2 z hzm) hpongTail
        have hpxy : px ≠ py := by
          intro h
          rw [h, hpyv] at hpxv
          exact hxy hpxv.symm
        have hpxz : px ≠ pz := by
          intro h
          rw [h, hpzv] at hpxv
          exact hxz hpxv.symm
        have hpyz : py ≠ pz := by
          intro h
          rw [h, hpzv] at hpyv
          exact hyz hpyv.symm
        refine ⟨px, py, pz, hpxP, hpyP, hpzP, hpxy, hpxz, hpyz, ?_, ?_, ?_⟩
        · rw [hxyz]
          unfold tilesAt
          simp only [List.map_cons, List.map_nil]
          rw [hpxv, hpyv, hpzv]
        · intro w hw
          rw [hxyz] at hw
          injection hw with h1 h2
          injection h2 with h2 h3
          exact absurd (h1.trans h2.symm) hxy
        · intro mp hmp w hw L2 hL2
          exact ⟨hpxS mp hmp w hw L2 hL2, hpyS mp hmp w hw L2 hL2,
            hpzS mp hmp w hw L2 hL2⟩
    obtain ⟨p1, p2, p3, h1P, h2P, h3P, h12, h13, h23, htiles, hlast3,
      hsafe⟩ := hbuild
    obtain ⟨a, b, c, hab, hbc, hKperm⟩ := sort3 h12 h13 h23
    have hKsub : ∀ i ∈ ([a, b, c] : List Nat), i ∈ P := by
      intro i hi
      have hi3 : i ∈ ([p1, p2, p3] : List Nat) := hKperm.subset hi
      simp only [List.mem_cons, List.not_mem_nil, or_false] at hi3
      rcases hi3 with h' | h' | h'
      · rw [h']
        exact h1P
      · rw [h']
        exact h2P
      · rw [h']
        exact h3P
    have htilesK : (tilesAt ts [a, b, c]).Perm m.tiles := by
      have hKmap : (tilesAt ts [a, b, c]).Perm (tilesAt ts [p1, p2, p3]) :=
        hKperm.map (fun i => ts.getD i ⟨.wan, 0⟩)
      rw [← htiles]
      exact hKmap
    -- the largest index of a Pong key is the last occurrence
    have hponglast : ∀ w, m.tiles = [w, w, w] →
        ∀ q, c < q → q < ts.length → ts.getD q ⟨.wan, 0⟩ ≠ w := by
      intro w hw q hcq hqlen
      have hL := hlast3 w hw
      -- p3 = last occurrence; all of p1, p2, p3 hold w, so c (the max,
      -- being one of them) satisfies c ≤ p3
      have hcmem : c ∈ ([p1, p2, p3] : List Nat) := hKperm.subset (by simp)
      have hvals : ∀ i ∈ ([p1, p2, p3] : List Nat),
          ts.getD i ⟨.wan, 0⟩ = w := by
        intro i hi
        have hwm : (tilesAt ts [p1, p2, p3]).Perm [w, w, w] := by
          rw [htiles, hw]
        have himg : ts.getD i ⟨.wan, 0⟩ ∈ tilesAt ts [p1, p2, p3] := by
          unfold tilesAt
          exact List.mem_map.2 ⟨i, hi, rfl⟩
        have := hwm.subset himg
        simp only [List.mem_cons, List.not_mem_nil, or_false] at this
        rcases this with h' | h' | h' <;> exact h'
      have hc3 : c ≤ p3 := by
        simp only [List.mem_cons, List.not_mem_nil, or_false] at hcmem
        rcases hcmem with h' | h' | h'
        · -- c = p1 : p1 ≤ p3 since p1 holds w and p3 is the last occurrence
          rcases Nat.lt_or_ge p3 c with hlt | hge
          · exact absurd (h' ▸ hvals p1 (by simp))
              (hL.2.2 c hlt (hb c (hKsub c (by simp))))
          · omega
        · rcases Nat.lt_or_ge p3 c with hlt | hge
          · exact absurd (h' ▸ hvals p2 (by simp))
              (hL.2.2 c hlt (hb c (hKsub c (by simp))))
          · omega
        · omega
      have hp3mem : p3 ∈ ([a, b, c] : List Nat) := hKperm.mem_iff.2 (by simp)
      simp only [List.mem_cons, List.not_mem_nil, or_false] at hp3mem
      have hple : p3 ≤ c := by
        rcases hp3mem with h' | h' | h' <;> omega
      exact hL.2.2 q (by omega) hqlen
    have hgk : GoodKey ts [a, b, c] m := by
      refine ⟨a, b, c, rfl, hab, hbc, hb c (hKsub c (by simp)), htilesK,
        hponglast⟩
    have hperm3 : P.Perm
        (a :: b :: c :: ((P.erase a).erase b).erase c) :=
      erase3_perm a b c (hKsub a (by simp)) (hKsub b (by simp))
        (hKsub c (by simp)) (Nat.ne_of_lt hab)
        (Nat.ne_of_lt (Nat.lt_trans hab hbc)) (Nat.ne_of_lt hbc)
    have hnd3 : (((P.erase a).erase b).erase c).Nodup :=
      ((hnd.erase a).erase b).erase c
    have hb3 : ∀ p ∈ ((P.erase a).erase b).erase c, p < ts.length :=
      fun p hp => hb p (erase3_sub hp)
    have hmap2 : (tilesAt ts P).Perm
        (m.tiles ++ tilesAt ts (((P.erase a).erase b).erase c)) := by
      have hmap := hperm3.map (fun i => ts.getD i ⟨.wan, 0⟩)
      refine List.Perm.trans ?_ (htilesK.append
        (List.Perm.refl (tilesAt ts (((P.erase a).erase b).erase c))))
      exact hmap
    have htp : (tilesAt ts (((P.erase a).erase b).erase c)).Perm
        ((rtail.map Meld.tiles).flatten) :=
      (List.perm_append_left_iff m.tiles).1 (hmap2.symm.trans hperm)
    have hvalsK : ∀ i ∈ ([a, b, c] : List Nat),
        ts.getD i ⟨.wan, 0⟩ ∈ m.tiles := by
      intro i hi
      have himg : ts.getD i ⟨.wan, 0⟩ ∈ tilesAt ts [a, b, c] := by
        unfold tilesAt
        exact List.mem_map.2 ⟨i, hi, rfl⟩
      exact htilesK.subset himg
    have hpong3 : ∀ m2 ∈ rtail, ∀ w, m2.tiles = [w, w, w] →
        ∃ L2 ∈ ((P.erase a).erase b).erase c, IsLastOcc ts w L2 := by
      intro m2 hm2 w hw
      obtain ⟨L2, hL2P, hL2last⟩ := hpongTail m2 hm2 w hw
      have hsafeL := hsafe m2 hm2 w hw L2 hL2last
      have hna : L2 ≠ a ∧ L2 ≠ b ∧ L2 ≠ c := by
        have hmemabc : ∀ i ∈ ([a, b, c] : List Nat), L2 ≠ i := by
          intro i hi
          have hi3 : i ∈ ([p1, p2, p3] : List Nat) := hKperm.subset hi
          simp only [List.mem_cons, List.not_mem_nil, or_false] at hi3
          rcases hi3 with h' | h' | h'
          · rw [h']
            exact fun hc => hsafeL.1 hc.symm
          · rw [h']
            exact fun hc => hsafeL.2.1 hc.symm
          · rw [h']
            exact fun hc => hsafeL.2.2 hc.symm
        exact ⟨hmemabc a (by simp), hmemabc b (by simp),
          hmemabc c (by simp)⟩
      exact ⟨L2, erase3_mem hnd hL2P hna.1 hna.2.1 hna.2.2, hL2last⟩
    have hcount3 : ∀ w : Tile,
        (tilesAt ts (((P.erase a).erase b).erase c)).count w ≤ 4 := by
      intro w
      have h1 : (tilesAt ts P).count w = m.tiles.count w +
          (tilesAt ts (((P.erase a).erase b).erase c)).count w := by
        rw [hmap2.count_eq, List.count_append]
      have := hcount w
      omega
    obtain ⟨J3, hJsub, hJnd, hJf⟩ := ih (((P.erase a).erase b).erase c)
      hnd3 hb3 htp (fun m2 hm2 => hkind m2 (List.mem_cons_of_mem m hm2))
      hpong3 hcount3
    refine ⟨[a, b, c] :: J3, ?_, ?_, List.Forall₂.cons hgk hJf⟩
    · intro K hK i hi
      rcases List.mem_cons.1 hK with h' | h'
      · rw [h'] at hi
        exact hKsub i hi
      · exact erase3_sub (hJsub K h' i hi)
    · rw [List.flatten_cons, List.nodup_append]
      refine ⟨?_, hJnd, ?_⟩
      · have hne1 : a ≠ b := Nat.ne_of_lt hab
        have hne2 : a ≠ c := Nat.ne_of_lt (Nat.lt_trans hab hbc)
        have hne3 : b ≠ c := Nat.ne_of_lt hbc
        simp [hne1, hne2, hne3]
      · intro i hiK hiJ
        obtain ⟨hna, hnb, hnc⟩ := erase3_not_mem hnd a b c
        have hiP3 : i ∈ ((P.erase a).erase b).erase c := by
          rw [List.mem_flatten] at hiJ
          obtain ⟨K2, hK2, hiK2⟩ := hiJ
          exact hJsub K2 hK2 i hiK2
        simp only [List.mem_cons, List.not_mem_nil, or_false] at hiK
        rcases hiK with h' | h' | h' <;> subst h'
        · exact hna hiP3
        · exact hnb hiP3
        · exact hnc hiP3

/-! ### From good keys to stored entries, and auxiliary counting facts -/

theorem goodKey_mem_allMeldsPos {ts : List Tile} {K : List Nat} {m : Meld}
    (hgk : GoodKey ts K m)
    (hkind : mkPong m.tiles = some m ∨ mkChow m.tiles = some m) :
    (m, K) ∈ allMeldsPos ts := by
  obtain ⟨a, b, c, hK, hab, hbc, hcn, hperm, hpg⟩ := hgk
  subst hK
  rcases hkind with hp | hc
  · obtain ⟨v, hv⟩ := pong_tiles_shape hp
    have hget : getTriplet (tilesAt ts [a, b, c]) = some m := by
      unfold getTriplet
      have hpp : mkPong (tilesAt ts [a, b, c]) = some m :=
        mkSameNum_of_perm hp hperm
      rw [hpp]
    refine allMeldsPos_complete hab hbc hcn hget ?_
    intro t4 h4 h4n
    have hne := hpg v hv t4 h4 h4n
    cases hk : mkKong (tilesAt ts [a, b, c, t4]) with
    | none => rfl
    | some mk =>
      obtain ⟨-, -, -, hsn⟩ := mkSameNum_some hk
      have hall := sameNum_all_eq hsn
      have h1 : ts.getD a ⟨.wan, 0⟩ ∈
          sortTiles (tilesAt ts [a, b, c, t4]) := by
        rw [(sortTiles_perm _).mem_iff]
        unfold tilesAt
        simp
      have h2 : ts.getD t4 ⟨.wan, 0⟩ ∈
          sortTiles (tilesAt ts [a, b, c, t4]) := by
        rw [(sortTiles_perm _).mem_iff]
        unfold tilesAt
        simp
      have heq := hall _ h1 _ h2
      have hav : ts.getD a ⟨.wan, 0⟩ = v := by
        have hmem : ts.getD a ⟨.wan, 0⟩ ∈ tilesAt ts [a, b, c] := by
          unfold tilesAt
          simp
        have hmem2 := hperm.subset hmem
        rw [hv] at hmem2
        simp only [List.mem_cons, List.not_mem_nil, or_false] at hmem2
        rcases hmem2 with h' | h' | h' <;> exact h'
      rw [hav] at heq
      exact absurd heq.symm hne
  · obtain ⟨x, y, z, hxyz, hy1, hz2⟩ := chow_tiles_shape hc
    have hxmem : x ∈ tilesAt ts [a, b, c] := by
      rw [hperm.mem_iff, hxyz]
      simp
    have hymem : y ∈ tilesAt ts [a, b, c] := by
      rw [hperm.mem_iff, hxyz]
      simp
    have hxy : x ≠ y := by
      intro h
      rw [← h] at hy1
      omega
    have hget : getTriplet (tilesAt ts [a, b, c]) = some m := by
      unfold getTriplet
      have hnp : mkPong (tilesAt ts [a, b, c]) = none := by
        cases hk : mkPong (tilesAt ts [a, b, c]) with
        | none => rfl
        | some mp =>
          obtain ⟨-, -, -, hsn⟩ := mkSameNum_some hk
          have hall := sameNum_all_eq hsn
          have h1 : x ∈ sortTiles (tilesAt ts [a, b, c]) :=
            (sortTiles_perm _).mem_iff.2 hxmem
          have h2 : y ∈ sortTiles (tilesAt ts [a, b, c]) :=
            (sortTiles_perm _).mem_iff.2 hymem
          exact absurd (hall x h1 y h2) hxy
      rw [hnp]
      exact mkChow_of_perm hc hperm
    refine allMeldsPos_complete hab hbc hcn hget ?_
    intro t4 h4 h4n
    cases hk : mkKong (tilesAt ts [a, b, c, t4]) with
    | none => rfl
    | some mk =>
      obtain ⟨-, -, -, hsn⟩ := mkSameNum_some hk
      have hall := sameNum_all_eq hsn
      have hsub : ∀ u ∈ tilesAt ts [a, b, c],
          u ∈ sortTiles (tilesAt ts [a, b, c, t4]) := by
        intro u hu
        rw [(sortTiles_perm _).mem_iff]
        unfold tilesAt at hu ⊢
        simp only [List.map_cons, List.map_nil, List.mem_cons,
          List.not_mem_nil, or_false] at hu ⊢
        rcases hu with h' | h' | h'
        · exact Or.inl h'
        · exact Or.inr (Or.inl h')
        · exact Or.inr (Or.inr (Or.inl h'))
      exact absurd (hall x (hsub x hxmem) y (hsub y hymem)) hxy

theorem sum_ge_of_all_ge : ∀ {l : List Nat} {k : Nat},
    (∀ x ∈ l, k ≤ x) → k * l.length ≤ l.sum := by
  intro l
  induction l with
  | nil =>
    intro k _
    simp
  | cons a t ih =>
    intro k h
    rw [List.length_cons, List.sum_cons, Nat.mul_succ]
    have h1 := h a (List.mem_cons_self a t)
    have h2 := ih (fun x hx => h x (List.mem_cons_of_mem a hx))
    omega

theorem one_position {l : List Tile} {v : Tile} (h : v ∈ l) :
    ∃ j, j < l.length ∧ l.getD j ⟨.wan, 0⟩ = v := by
  obtain ⟨j, hj, hget⟩ := List.getElem_of_mem h
  refine ⟨j, hj, ?_⟩
  rw [List.getD_eq_getElem l _ hj]
  exact hget

theorem two_positions : ∀ {l : List Tile} {v : Tile}, 2 ≤ l.count v →
    ∃ i j, i < j ∧ j < l.length ∧ l.getD i ⟨.wan, 0⟩ = v ∧
      l.getD j ⟨.wan, 0⟩ = v := by
  intro l
  induction l with
  | nil =>
    intro v h
    simp at h
  | cons a t ih =>
    intro v h
    by_cases hav : a = v
    · subst hav
      rw [List.count_cons_self] at h
      have hvm : a ∈ t := List.count_pos_iff.1 (by omega)
      obtain ⟨j, hj, hget⟩ := one_position hvm
      refine ⟨0, j + 1, by omega, by simp only [List.length_cons]; omega,
        by simp, ?_⟩
      rw [List.getD_cons_succ]
      exact hget
    · have h2 : 2 ≤ t.count v := by
        rw [List.count_cons] at h
        have hbeq : (a == v) = false := beq_eq_false_iff_ne.2 hav
        rw [hbeq] at h
        simpa using h
      obtain ⟨i, j, hij, hjl, hi, hj⟩ := ih h2
      refine ⟨i + 1, j + 1, by omega, by simp only [List.length_cons]; omega,
        ?_, ?_⟩
      · rw [List.getD_cons_succ]
        exact hi
      · rw [List.getD_cons_succ]
        exact hj

theorem forall2_zip_mem {α β : Type} {R : α → β → Prop} :
    ∀ {l₁ : List α} {l₂ : List β}, List.Forall₂ R l₁ l₂ →
      ∀ p ∈ l₁.zip l₂, R p.1 p.2 := by
  intro l₁ l₂ h
  induction h with
  | nil =>
    intro p hp
    simp at hp
  | cons hR hrest ih =>
    intro p hp
    rcases List.mem_cons.1 hp with h' | h'
    · rw [h']
      exact hR
    · exact ih p h'

theorem nodup_of_flatten_nodup : ∀ {J : List (List Nat)},
    J.flatten.Nodup → (∀ K ∈ J, K ≠ []) → J.Nodup := by
  intro J
  induction J with
  | nil =>
    intro _ _
    exact List.nodup_nil
  | cons K J ih =>
    intro hnd hne
    rw [List.flatten_cons, List.nodup_append] at hnd
    refine List.nodup_cons.2 ⟨?_, ih hnd.2.1
      (fun K2 hK2 => hne K2 (List.mem_cons_of_mem K hK2))⟩
    intro hKJ
    have hKne := hne K (List.mem_cons_self K J)
    obtain ⟨i, hi⟩ := List.exists_mem_of_ne_nil K hKne
    have hiflat : i ∈ J.flatten := List.mem_flatten.2 ⟨K, hKJ, hi⟩
    exact hnd.2.2 hi hiflat

theorem firstDupe_of_nodup : ∀ {l : List Nat} {cov : List Nat},
    l.Nodup → (∀ i ∈ l, i ∉ cov) → firstDupe cov l = false := by
  intro l
  induction l with
  | nil =>
    intro cov _ _
    rfl
  | cons i rest ih =>
    intro cov hnd hcov
    unfold firstDupe
    rw [if_neg (hcov i (List.mem_cons_self i rest))]
    rw [List.nodup_cons] at hnd
    refine ih hnd.2 ?_
    intro j hj
    simp only [List.mem_cons, not_or]
    exact ⟨fun hc => hnd.1 (hc ▸ hj), hcov j (List.mem_cons_of_mem i hj)⟩

theorem forall2_mem_left {α β : Type} {R : α → β → Prop} :
    ∀ {l₁ : List α} {l₂ : List β}, List.Forall₂ R l₁ l₂ →
      ∀ a ∈ l₁, ∃ b ∈ l₂, R a b := by
  intro l₁ l₂ h
  induction h with
  | nil =>
    intro a ha
    exact absurd ha (List.not_mem_nil a)
  | cons hR hrest ih =>
    intro a ha
    rcases List.mem_cons.1 ha with h' | h'
    · rename_i x y l₁ l₂
      exact ⟨y, List.mem_cons_self y l₂, h' ▸ hR⟩
    · obtain ⟨b, hb, hRb⟩ := ih a h'
      exact ⟨b, List.mem_cons_of_mem _ hb, hRb⟩

/-- C1 (amended with the four-copies bound): a 14-tile bonus-free concealed
set partitioning into one valid Eyes pair plus four valid Pong/Kong/Chow
melds, with no tile value occurring more than four times, yields a
successful `Wu` construction whose decomposition set contains the
partition as a sorted meld list. -/
theorem claim_C1 (tiles : List Tile) (e : Meld) (ms : List Meld)
    (hlen : tiles.length = 14)
    (hcount : ∀ v ∈ tiles, tiles.count v ≤ 4)
    (he : IsEyesMeld e) (hmslen : ms.length = 4)
    (hpkc : ∀ m ∈ ms, IsPongKongChow m)
    (hperm : tiles.Perm (e.tiles ++ (ms.map Meld.tiles).flatten)) :
    ∃ w, mkWu tiles [] none none [] = some w ∧
      sortMelds (ms ++ [e]) ∈ w.melds := by
  obtain ⟨t, hts⟩ := eyes_tiles_shape he
  -- meld sizes: with 14 tiles and 4 melds every meld has three tiles
  have hlens : ∀ m ∈ ms, m.tiles.length = 3 ∨ m.tiles.length = 4 := by
    intro m hm
    rcases hpkc m hm with h | h | h
    · left
      obtain ⟨-, hl, -, -⟩ := mkSameNum_some (mkSameNum_idem h)
      rw [mkSameNum_sorted h] at hl
      exact hl
    · right
      obtain ⟨-, hl, -, -⟩ := mkSameNum_some (mkSameNum_idem h)
      rw [mkSameNum_sorted h] at hl
      exact hl
    · left
      obtain ⟨-, hl, -, -⟩ := mkChow_some (mkChow_idem h)
      rw [mkChow_sorted h] at hl
      exact hl
  have hflatlen : ((ms.map Meld.tiles).flatten).length = 12 := by
    have h1 := hperm.length_eq
    rw [hlen, List.length_append, hts] at h1
    simp only [List.length_cons, List.length_nil] at h1
    omega
  have hsum : ((ms.map fun m2 => m2.tiles.length)).sum = 12 := by
    have h2 : ((ms.map Meld.tiles).flatten).length =
        ((ms.map fun m2 => m2.tiles.length)).sum := by
      rw [List.length_flatten, List.map_map]
      rfl
    rw [← h2]
    exact hflatlen
  have hall3 : ∀ m ∈ ms, m.tiles.length = 3 := by
    intro m hm
    by_contra hne
    have h4 : m.tiles.length = 4 := (hlens m hm).resolve_left hne
    obtain ⟨u, w, huw⟩ := List.append_of_mem hm
    have hulen : ∀ x ∈ u.map fun m2 => m2.tiles.length, 3 ≤ x := by
      intro x hx
      obtain ⟨m2, hm2, hx2⟩ := List.mem_map.1 hx
      have : m2 ∈ ms := by
        rw [huw]
        exact List.mem_append_left _ hm2
      rcases hlens m2 this with h' | h' <;> omega
    have hwlen : ∀ x ∈ w.map fun m2 => m2.tiles.length, 3 ≤ x := by
      intro x hx
      obtain ⟨m2, hm2, hx2⟩ := List.mem_map.1 hx
      have : m2 ∈ ms := by
        rw [huw]
        exact List.mem_append_right _ (List.mem_cons_of_mem m hm2)
      rcases hlens m2 this with h' | h' <;> omega
    have hu3 := sum_ge_of_all_ge hulen
    have hw3 := sum_ge_of_all_ge hwlen
    rw [List.length_map] at hu3 hw3
    have hcnt : u.length + 1 + w.length = 4 := by
      have := hmslen
      rw [huw, List.length_append, List.length_cons] at this
      omega
    rw [huw, List.map_append, List.map_cons, List.sum_append,
      List.sum_cons] at hsum
    omega
  have hkind3 : ∀ m ∈ ms, mkPong m.tiles = some m ∨ mkChow m.tiles = some m := by
    intro m hm
    rcases hpkc m hm with h | h | h
    · exact Or.inl h
    · obtain ⟨-, hl4, -, -⟩ := mkSameNum_some (mkSameNum_idem h)
      rw [mkSameNum_sorted h, hall3 m hm] at hl4
      omega
    · exact Or.inr h
  -- two positions of the eyes tile in the sorted hand
  have hct : 2 ≤ (sortTiles tiles).count t := by
    rw [(sortTiles_perm tiles).count_eq, hperm.count_eq, List.count_append,
      hts]
    simp only [List.count_cons_self, List.count_nil]
    omega
  obtain ⟨i, j, hij, hjlen, hiv, hjv⟩ := two_positions hct
  have hmkE : mkEyes [(sortTiles tiles).getD i ⟨.wan, 0⟩,
      (sortTiles tiles).getD j ⟨.wan, 0⟩] = some e := by
    rw [hiv, hjv, ← hts]
    exact he
  obtain ⟨f1, f2, hfpair, hfmk, hemit⟩ := validCombos_complete
    (sortTiles tiles) []
    ⟨(i, j), mem_pairsUpto.2 ⟨hij, hjlen⟩, hmkE⟩
  obtain ⟨hf12, hf2len⟩ := mem_pairsUpto.1 hfpair
  have hfe := mkSameNum_tiles_perm hfmk
  rw [hts] at hfe
  have hv1 : (sortTiles tiles).getD f1 ⟨.wan, 0⟩ = t := by
    have hm1 : (sortTiles tiles).getD f1 ⟨.wan, 0⟩ ∈ [t, t] :=
      hfe.symm.subset (by simp)
    simp only [List.mem_cons, List.not_mem_nil, or_false] at hm1
    rcases hm1 with h' | h' <;> exact h'
  have hv2 : (sortTiles tiles).getD f2 ⟨.wan, 0⟩ = t := by
    have hm1 : (sortTiles tiles).getD f2 ⟨.wan, 0⟩ ∈ [t, t] :=
      hfe.symm.subset (by simp)
    simp only [List.mem_cons, List.not_mem_nil, or_false] at hm1
    rcases hm1 with h' | h' <;> exact h'
  have hrm := removeIdxs_perm (sortTiles tiles) f1 f2 hf12 hf2len
  rw [hv1, hv2] at hrm
  have htp : (removeIdxs (sortTiles tiles) f1 f2).Perm
      ((ms.map Meld.tiles).flatten) := by
    have h2 : tiles.Perm (t :: t :: (ms.map Meld.tiles).flatten) := by
      have h2' := hperm
      rw [hts] at h2'
      exact h2'
    have h3 : (t :: t :: removeIdxs (sortTiles tiles) f1 f2).Perm
        (t :: t :: (ms.map Meld.tiles).flatten) :=
      (hrm.symm.trans (sortTiles_perm tiles)).trans h2
    exact h3.cons_inv.cons_inv
  -- index assignment over the reduced hand
  have hcnt' : ∀ v : Tile,
      (tilesAt (removeIdxs (sortTiles tiles) f1 f2)
        (List.range (removeIdxs (sortTiles tiles) f1 f2).length)).count v
        ≤ 4 := by
    intro v
    rw [tilesAt_range]
    have hcc : (removeIdxs (sortTiles tiles) f1 f2).count v ≤
        (sortTiles tiles).count v := by
      rw [hrm.count_eq, List.count_cons, List.count_cons]
      omega
    rw [(sortTiles_perm tiles).count_eq] at hcc
    by_cases hv : v ∈ tiles
    · have := hcount v hv
      omega
    · have h0 : tiles.count v = 0 := List.count_eq_zero.2 hv
      omega
  obtain ⟨J, hJsub, hJnd, hJf⟩ := assign_core
    (removeIdxs (sortTiles tiles) f1 f2) ms
    (List.range (removeIdxs (sortTiles tiles) f1 f2).length)
    (List.nodup_range _)
    (fun p hp => List.mem_range.1 hp)
    (by
      rw [tilesAt_range]
      exact htp)
    hkind3
    (by
      intro m hm v hv
      have hvmem : v ∈ removeIdxs (sortTiles tiles) f1 f2 := by
        rw [htp.mem_iff]
        refine List.mem_flatten.2 ⟨m.tiles, List.mem_map.2 ⟨m, hm, rfl⟩, ?_⟩
        rw [hv]
        simp
      obtain ⟨L, hL⟩ := exists_last_occ hvmem
      exact ⟨L, List.mem_range.2 hL.1, hL⟩)
    hcnt'
  have hJlen : J.length = ms.length := hJf.length_eq
  -- the stored entries
  have hKne : ∀ K ∈ J, K ≠ [] := by
    intro K hK
    obtain ⟨m, hm, hgk⟩ := forall2_mem_left hJf K hK
    obtain ⟨a, b, c, hKe, -⟩ := hgk
    rw [hKe]
    simp
  have hJnodup : J.Nodup := nodup_of_flatten_nodup hJnd hKne
  have hsnd : ((J.zip ms).map fun p => (p.2, p.1)).Nodup := by
    have hJm : (((J.zip ms).map fun p => (p.2, p.1)).map Prod.snd) = J := by
      rw [List.map_map]
      have : ((J.zip ms).map fun p => p.1) = J :=
        List.map_fst_zip J ms (by omega)
      exact this
    exact (hJm ▸ hJnodup).of_map Prod.snd
  have hmemall : ∀ q ∈ (J.zip ms).map fun p => (p.2, p.1),
      q ∈ allMeldsPos (removeIdxs (sortTiles tiles) f1 f2) := by
    intro q hq
    obtain ⟨p, hp, hq2⟩ := List.mem_map.1 hq
    have hgk := forall2_zip_mem hJf p hp
    have hm : p.2 ∈ ms := (List.of_mem_zip hp).2
    rw [← hq2]
    exact goodKey_mem_allMeldsPos hgk (hkind3 p.2 hm)
  obtain ⟨combo, hcp, hsl⟩ := hsnd.subperm hmemall
  have hslen : ((J.zip ms).map fun p => (p.2, p.1)).length = 4 := by
    rw [List.length_map, List.length_zip]
    omega
  have hcombo : combo ∈ List.sublistsLen (4 - ([] : List Meld).length)
      (allMeldsPos (removeIdxs (sortTiles tiles) f1 f2)) := by
    refine List.mem_sublistsLen.2 ⟨hsl, ?_⟩
    rw [hcp.length_eq, hslen]
    rfl
  have hmapsnd : (((J.zip ms).map fun p => (p.2, p.1)).map fun p => p.2) =
      J := by
    rw [List.map_map]
    exact List.map_fst_zip J ms (by omega)
  have hmapfst : (((J.zip ms).map fun p => (p.2, p.1)).map fun p => p.1) =
      ms := by
    rw [List.map_map]
    exact List.map_snd_zip J ms (by omega)
  have hdupf : hasDupIdxs combo = false := by
    unfold hasDupIdxs
    refine firstDupe_of_nodup ?_ (fun i2 _ => List.not_mem_nil i2)
    have hpermJ := (hcp.map fun p => p.2).trans (by rw [hmapsnd])
    exact (hpermJ.flatten.nodup_iff).2 hJnd
  have hfst : ((combo.map fun p => p.1)).Perm ms :=
    (hcp.map fun p => p.1).trans (by rw [hmapfst])
  have hlenf : ((combo.map fun p => p.1.tiles)).flatten.length =
      (sortTiles tiles).length - 2 := by
    have hmm : ((combo.map fun p => p.1.tiles)).Perm
        (ms.map Meld.tiles) := by
      have := hfst.map Meld.tiles
      rw [List.map_map] at this
      exact this
    rw [hmm.flatten.length_eq, hflatlen, (sortTiles_perm tiles).length_eq,
      hlen]
  have hc0 := hemit combo hcombo hdupf hlenf
  -- no bonus tiles anywhere
  have hnbTiles : ∀ u ∈ tiles, u.suit.isBonus = false := by
    intro u hu
    have hmem := hperm.subset hu
    rcases List.mem_append.1 hmem with h' | h'
    · exact mkSameNum_noBonus he u h'
    · obtain ⟨l2, hl2, hu2⟩ := List.mem_flatten.1 h'
      obtain ⟨m, hmm, hml⟩ := List.mem_map.1 hl2
      rcases hkind3 m hmm with h | h
      · exact mkSameNum_noBonus h u (hml ▸ hu2)
      · exact mkChow_noBonus h u (hml ▸ hu2)
  -- sorted partition is among the stored decompositions
  have hwmem : sortMelds (ms ++ [e]) ∈ wuMeldsOf (sortTiles tiles) [] := by
    unfold wuMeldsOf
    refine List.mem_dedup.2 (List.mem_map.2
      ⟨(combo.map fun p => p.1) ++ [] ++ [e], hc0, ?_⟩)
    refine sortMelds_eq_of_perm ?_ ?_
    · rw [List.append_nil]
      exact hfst.append (List.Perm.refl [e])
    · intro m2 hm2 u hu
      rw [List.append_nil] at hm2
      rcases List.mem_append.1 hm2 with h' | h'
      · obtain hmms := hfst.subset h'
        rcases hkind3 m2 hmms with h | h
        · exact mkSameNum_noBonus h u hu
        · exact mkChow_noBonus h u hu
      · rw [List.mem_singleton.1 h']  at hu
        exact mkSameNum_noBonus he u hu
  have hne : wuMeldsOf (sortTiles tiles) [] ≠ [] :=
    List.ne_nil_of_mem hwmem
  refine ⟨⟨sortTiles tiles, [], none, none, [],
    wuMeldsOf (sortTiles tiles) []⟩, ?_, hwmem⟩
  unfold mkWu
  dsimp only
  split
  · split
    · rename_i hempty
      rw [List.isEmpty_iff] at hempty
      exact absurd hempty hne
    · rfl
  · rename_i hcf
    exfalso
    apply hcf
    simp only [Bool.and_eq_true, decide_eq_true_eq, List.all_eq_true]
    have hstlen : (sortTiles (sortTiles tiles ++
        (([] : List Meld).map Meld.tiles).flatten)).length = 14 := by
      simp only [List.map_nil, List.flatten_nil, List.append_nil]
      rw [(sortTiles_perm (sortTiles tiles)).length_eq,
        (sortTiles_perm tiles).length_eq]
      exact hlen
    refine ⟨⟨⟨trivial, ?_⟩, ?_⟩, ?_⟩
    · rw [hstlen]
      omega
    · intro u hu
      have := hnbTiles u ((sortTiles_perm tiles).subset hu)
      simp [this]
    · simp

/-- C1 witness: the completeness theorem applied to the concrete winning
hand `c2tiles` with its four-Pongs-plus-eyes partition. -/
theorem claim_C1_witness :
    ∃ w, mkWu c2tiles [] none none [] = some w ∧
      sortMelds (c1ms ++ [c1eyes]) ∈ w.melds :=
  claim_C1 c2tiles c1eyes c1ms (by decide) (by decide)
    (by unfold IsEyesMeld; decide) (by decide)
    (by unfold IsPongKongChow; decide) (by decide)

/-- Peeling lemma: a property holds of every `(n+1)`-sublist of `l` as soon
as it holds of `x :: cb` for every decomposition `l = l₁ ++ x :: l₂` and
every `n`-sublist `cb` of `l₂`. -/
theorem ball_sublistsLen_succ {α : Type} (P : List α → Prop) (n : Nat) :
    ∀ (l : List α), (∀ l₁ x l₂, l = l₁ ++ x :: l₂ →
        ∀ cb ∈ List.sublistsLen n l₂, P (x :: cb)) →
      ∀ cb ∈ List.sublistsLen (n + 1) l, P cb := by
  intro l
  induction l with
  | nil =>
    intro _ cb hcb
    rw [show List.sublistsLen (n + 1) ([] : List α) = [] from rfl] at hcb
    exact absurd hcb (List.not_mem_nil cb)
  | cons x rest ih =>
    intro h cb hcb
    rw [List.sublistsLen_succ_cons] at hcb
    rcases List.mem_append.1 hcb with h1 | h1
    · exact ih (fun l₁ y l₂ heq => h (x :: l₁) y l₂ (by rw [heq]; rfl)) cb h1
    · obtain ⟨cb2, hcb2, hceq⟩ := List.mem_map.1 h1
      rw [← hceq]
      exact h [] x rest rfl cb2 hcb2

/-- Index form of the peeling lemma: the decomposition `l₁ ++ x :: l₂` is
replaced by a position `i`, with `x` the head of `L.drop i` and `l₂ =
L.drop (i + 1)`, so each position can be checked by evaluation. -/
theorem ball_sublistsLen_of_pieces {α : Type} (P : List α → Prop) (n : Nat)
    (dflt : α) (L : List α)
    (hp : ∀ i, i < L.length →
      ∀ cb ∈ List.sublistsLen n (L.drop (i + 1)),
        P ((L.drop i).headD dflt :: cb)) :
    ∀ cb ∈ List.sublistsLen (n + 1) L, P cb := by
  refine ball_sublistsLen_succ P n L ?_
  intro l₁ x l₂ heq cb hcb
  have hlen : l₁.length < L.length := by
    rw [heq, List.length_append, List.length_cons]
    omega
  have hdrop : L.drop l₁.length = x :: l₂ := by
    rw [heq]
    exact List.drop_left l₁ (x :: l₂)
  have hdrop1 : L.drop (l₁.length + 1) = l₂ := by
    have h2 : (L.drop l₁.length).drop 1 = L.drop (l₁.length + 1) := by
      rw [List.drop_drop]
    rw [← h2, hdrop]
    rfl
  have hhead : (L.drop l₁.length).headD dflt = x := by
    rw [hdrop]
    rfl
  have h3 := hp l₁.length hlen cb (by rw [hdrop1]; exact hcb)
  rw [hhead] at h3
  exact h3

/-- Piece 1 of the `c1restBig` check: position 0. -/
theorem c1piece0 : ∀ i, i < 1 → c1pieceB i = true := by decide

/-- Piece 2 of the `c1restBig` check: position 1. -/
theorem c1piece1 : ∀ i, i < 2 → 1 ≤ i → c1pieceB i = true := by decide

/-- Piece 3 of the `c1restBig` check: position 2. -/
theorem c1piece2 : ∀ i, i < 3 → 2 ≤ i → c1pieceB i = true := by decide

/-- Piece 4 of the `c1restBig` check: position 3. -/
theorem c1piece3 : ∀ i, i < 4 → 3 ≤ i → c1pieceB i = true := by decide

/-- Piece 5 of the `c1restBig` check: positions 4-5. -/
theorem c1piece4 : ∀ i, i < 6 → 4 ≤ i → c1pieceB i = true := by decide

/-- Piece 6 of the `c1restBig` check: positions 6-7. -/
theorem c1piece5 : ∀ i, i < 8 → 6 ≤ i → c1pieceB i = true := by decide

/-- Piece 7 of the `c1restBig` check: positions 8-10. -/
theorem c1piece6 : ∀ i, i < 11 → 8 ≤ i → c1pieceB i = true := by decide

/-- Piece 8 of the `c1restBig` check: positions 11-15. -/
theorem c1piece7 : ∀ i, i < 16 → 11 ≤ i → c1pieceB i = true := by decide

/-- Piece 9 of the `c1restBig` check: positions 16-21. -/
theorem c1piece8 : ∀ i, i < 22 → 16 ≤ i → c1pieceB i = true := by decide

/-- All 22 positions of `c1poss`, assembled from the pieces. -/
theorem c1pieces : ∀ i, i < 22 →
    ∀ cb ∈ List.sublistsLen 3 (c1poss.drop (i + 1)),
      hasDupIdxs ((c1poss.drop i).headD (⟨.wu, []⟩, []) :: cb) = true ∨
      ((((c1poss.drop i).headD (⟨.wu, []⟩, []) :: cb).map
          fun p => p.1.tiles).flatten).length ≠ 12 := by
  intro i hi cb hcb
  have hball : c1pieceB i = true := by
    by_cases h1 : i < 1
    · exact c1piece0 i h1
    by_cases h2 : i < 2
    · exact c1piece1 i h2 (by omega)
    by_cases h3 : i < 3
    · exact c1piece2 i h3 (by omega)
    by_cases h4 : i < 4
    · exact c1piece3 i h4 (by omega)
    by_cases h6 : i < 6
    · exact c1piece4 i h6 (by omega)
    by_cases h8 : i < 8
    · exact c1piece5 i h8 (by omega)
    by_cases h11 : i < 11
    · exact c1piece6 i h11 (by omega)
    by_cases h16 : i < 16
    · exact c1piece7 i h16 (by omega)
    exact c1piece8 i hi (by omega)
  unfold c1pieceB at hball
  have hcb2 := List.all_eq_true.1 hball cb hcb
  simp only [Bool.or_eq_true, Bool.not_eq_eq_eq_not, Bool.not_true,
    beq_eq_false_iff_ne] at hcb2
  exact hcb2

/-- No 4-sublist of `c1poss` is index-disjoint with 12 meld tiles: every
candidate combo over `c1restBig` is rejected. -/
theorem c1big_bad : ∀ cb ∈ List.sublistsLen 4 c1poss,
    hasDupIdxs cb = true ∨
    ((cb.map fun p => p.1.tiles).flatten).length ≠ 12 := by
  have hp : ∀ i, i < c1poss.length →
      ∀ cb ∈ List.sublistsLen 3 (c1poss.drop (i + 1)),
        hasDupIdxs ((c1poss.drop i).headD (⟨.wu, []⟩, []) :: cb) = true ∨
        ((((c1poss.drop i).headD (⟨.wu, []⟩, []) :: cb).map
            fun p => p.1.tiles).flatten).length ≠ 12 := by
    intro i hi
    exact c1pieces i hi
  exact ball_sublistsLen_of_pieces
    (fun cb => hasDupIdxs cb = true ∨
      ((cb.map fun p => p.1.tiles).flatten).length ≠ 12)
    3 ((⟨.wu, []⟩, []) : Meld × List Nat) c1poss hp

theorem c1sorted_eq : sortTiles c1bad = c1bsorted := by decide

theorem c1poss_eq : allMeldsPos c1restBig = c1poss := by decide

/-- The same rejection over the small reduced hand (6 entries, checked
directly). -/
theorem c1small_bad : ∀ cb ∈ List.sublistsLen 4 (allMeldsPos c1restSmall),
    hasDupIdxs cb = true ∨
    ((cb.map fun p => p.1.tiles).flatten).length ≠ 12 := by
  decide

/-- Every Eyes candidate over `c1bsorted` reduces the hand to `c1restSmall`
or `c1restBig`. -/
theorem c1removes : ∀ p ∈ pairsUpto c1bsorted.length,
    (mkEyes [c1bsorted.getD p.1 ⟨.wan, 0⟩,
             c1bsorted.getD p.2 ⟨.wan, 0⟩]).isSome = true →
    (removeIdxs c1bsorted p.1 p.2 = c1restSmall ∨
     removeIdxs c1bsorted p.1 p.2 = c1restBig) := by
  decide

theorem c1orphans : sameTileSet c1bsorted thirteenOrphanTiles = false := by
  decide

/-- `valid_combos` finds nothing for the sorted counterexample hand. -/
theorem c1novalid : validCombos c1bsorted [] = [] := by
  by_contra hne
  obtain ⟨c, hc⟩ := List.exists_mem_of_ne_nil _ hne
  rcases validCombos_cases hc with h' | h'
  · rcases eyes_fold_sound c1bsorted [] _ _ c h' with h0 | h0
    · exact absurd h0 (List.not_mem_nil c)
    · obtain ⟨e, hpair, eyes, hmk, combo, hcombo, hdup, hlenf, -⟩ := h0
      have hsome : (mkEyes [c1bsorted.getD e.1 ⟨.wan, 0⟩,
          c1bsorted.getD e.2 ⟨.wan, 0⟩]).isSome = true := by
        rw [hmk]
        rfl
      have h14 : c1bsorted.length - 2 = 12 := by decide
      have hlen12 := hlenf.trans h14
      rcases c1removes e hpair hsome with hts | hts
      · have hcombo4 : combo ∈
            List.sublistsLen 4 (allMeldsPos c1restSmall) := by
          rw [← hts]
          exact hcombo
        rcases c1small_bad combo hcombo4 with hbad | hbad
        · rw [hdup] at hbad
          exact absurd hbad (by simp)
        · exact hbad hlen12
      · have hcombo4 : combo ∈ List.sublistsLen 4 c1poss := by
          rw [← c1poss_eq, ← hts]
          exact hcombo
        rcases c1big_bad combo hcombo4 with hbad | hbad
        · rw [hdup] at hbad
          exact absurd hbad (by simp)
        · exact hbad hlen12
  · rw [c1orphans] at h'
    exact absurd h' (by simp)

/-- If the decomposition search comes back empty, construction fails. -/
theorem mkWu_none_of_no_melds (tiles : List Tile) (fixed : List Meld)
    (arrived : Option Tile) (discarder : Option Nat) (flags : WuFlags)
    (h : wuMeldsOf (sortTiles tiles) fixed = []) :
    mkWu tiles fixed arrived discarder flags = none := by
  unfold mkWu
  dsimp only
  split
  · rw [h]
    rfl
  · rfl

/-- C1 counterexample to the unamended claim: `c1bad` admits a valid
Eyes-plus-four-melds partition (two `feng/1` Pongs, the Chows `wan/1-3`
and `wan/5-7`, and `wan/9` Eyes), yet `Wu` construction fails: with six
copies of `feng/1` every stored `feng/1` entry is a Kong or a Pong
containing the last occurrence, so no selection of four entries is
index-disjoint while covering the twelve non-Eyes tiles. -/
theorem claim_C1_counterexample :
    c1bad.length = 14 ∧ IsEyesMeld c1beyes ∧ c1bmelds.length = 4 ∧
    (∀ m ∈ c1bmelds, IsPongKongChow m) ∧
    c1bad.Perm (c1beyes.tiles ++ (c1bmelds.map Meld.tiles).flatten) ∧
    mkWu c1bad [] none none [] = none := by
  refine ⟨by decide, by unfold IsEyesMeld; decide, by decide,
    by unfold IsPongKongChow; decide, by decide, ?_⟩
  refine mkWu_none_of_no_melds c1bad [] none none [] ?_
  rw [c1sorted_eq]
  unfold wuMeldsOf
  rw [c1novalid]
  rfl

end Mahjong
